import Mathlib

/-!
Verification of the MAS-SimulatorV2 queueing engine.

This file embeds the two core modules of the repository:

* `src/lib/queuing-calculations.ts` — the analytical calculator
  (`calculateMM1`, `calculateMMS`, `calculateMG1`, `calculateMGS`,
  `calculateGG1`, `calculateGGS`, `erlangC`, `calculateQueuingMetrics`);
* the simulation library (`buildPoissonCDF`, the service-time generators,
  `mm1Simulation` / `mg1Simulation` single-server loop and
  `mmsSSimulation` / `mgsSSimulation` multi-server loop).

JavaScript numbers are modelled as exact rationals extended with the IEEE
special values `Infinity`, `-Infinity` and `NaN` (type `JNum`); rounding of
doubles is not modelled, which is adequate for the statements proved here
(they are exact identities, inequalities with slack, or about the special
values themselves).
-/

/-- A JavaScript number in the calculator: an exact rational or one of the
IEEE special values. -/
inductive JNum where
  | num (q : ℚ)
  | inf
  | neginf
  | nan
deriving DecidableEq

/-- JS addition on `JNum` (IEEE semantics for the special values). -/
def jadd : JNum → JNum → JNum
  | .num a, .num b => .num (a + b)
  | .num _, .inf => .inf
  | .inf, .num _ => .inf
  | .inf, .inf => .inf
  | .num _, .neginf => .neginf
  | .neginf, .num _ => .neginf
  | .neginf, .neginf => .neginf
  | _, _ => .nan

/-- JS multiplication on `JNum` (IEEE semantics; `0 * ±Infinity = NaN`). -/
def jmul : JNum → JNum → JNum
  | .num a, .num b => .num (a * b)
  | .num a, .inf => if 0 < a then .inf else if a < 0 then .neginf else .nan
  | .inf, .num a => if 0 < a then .inf else if a < 0 then .neginf else .nan
  | .num a, .neginf => if 0 < a then .neginf else if a < 0 then .inf else .nan
  | .neginf, .num a => if 0 < a then .neginf else if a < 0 then .inf else .nan
  | .inf, .inf => .inf
  | .inf, .neginf => .neginf
  | .neginf, .inf => .neginf
  | .neginf, .neginf => .inf
  | _, _ => .nan

/-- JS division on `JNum`.  Division by (positive) zero follows IEEE:
`0/0 = NaN`, `a/0 = ±Infinity` by the sign of `a`.  The zero divisors
reached in the calculator are the literal `+0`. -/
def jdiv : JNum → JNum → JNum
  | .num a, .num b =>
      if b = 0 then (if a = 0 then .nan else if 0 < a then .inf else .neginf)
      else .num (a / b)
  | .num _, .inf => .num 0
  | .num _, .neginf => .num 0
  | .inf, .num b => if 0 ≤ b then .inf else .neginf
  | .neginf, .num b => if 0 ≤ b then .neginf else .inf
  | _, _ => .nan

/-- Model tags, as in `QueuingModel` of `queuing-calculations.ts`. -/
inductive QueuingModel where
  | MM1
  | MMS
  | MG1
  | MGS
  | GG1
  | GGS
deriving DecidableEq

/-- `QueuingInput` of `queuing-calculations.ts`: optional fields are `Option`,
with the source's destructuring defaults applied inside each calculator. -/
structure QueuingInput where
  lambda : ℚ
  mu : ℚ
  s : Option ℕ
  sigma : Option ℚ
  ca : Option ℚ
  cs : Option ℚ
deriving DecidableEq

/-- `QueuingResults` of `queuing-calculations.ts`. -/
structure QueuingResults where
  rho : ℚ
  stable : Bool
  Lq : JNum
  Wq : JNum
  W : JNum
  L : JNum
  error : Option String
deriving DecidableEq

def errInvalidLambdaMu : String := "Invalid lambda or mu values"

def errInvalidInput : String := "Invalid input values"

def errUnknownModel : String := "Unknown model"

/-- The all-zero result carrying an error message. -/
def errorResult (msg : String) : QueuingResults :=
  ⟨0, false, .num 0, .num 0, .num 0, .num 0, some msg⟩

/-- The `rho ≥ 1` result: infinite metrics, `stable := false`, no error. -/
def unstableResult (rho : ℚ) : QueuingResults :=
  ⟨rho, false, .inf, .inf, .inf, .inf, none⟩

/-- `erlangC` of `queuing-calculations.ts`; the `for` accumulation of
`denominator` is the finite sum, `factorial` is `Nat.factorial`. -/
def erlangC (lambda mu : ℚ) (s : ℕ) : ℚ :=
  let rho := lambda / ((s : ℚ) * mu)
  if 1 ≤ rho then 1
  else
    let a := lambda / mu
    let numerator := a ^ s / (Nat.factorial s : ℚ) / (1 - rho)
    let denominator := (∑ k ∈ Finset.range s, a ^ k / (Nat.factorial k : ℚ)) + numerator
    numerator / denominator

/-- `calculateMM1` of `queuing-calculations.ts`. -/
def calculateMM1 (input : QueuingInput) : QueuingResults :=
  let lambda := input.lambda
  let mu := input.mu
  if mu ≤ 0 ∨ lambda < 0 then errorResult errInvalidLambdaMu
  else
    let rho := lambda / mu
    if 1 ≤ rho then unstableResult rho
    else
      let Lq := jdiv (.num (rho * rho)) (.num (1 - rho))
      let Wq := jdiv Lq (.num lambda)
      let W := jadd Wq (.num (1 / mu))
      let L := jmul (.num lambda) W
      ⟨rho, true, Lq, Wq, W, L, none⟩

/-- `calculateMMS` of `queuing-calculations.ts`. -/
def calculateMMS (input : QueuingInput) : QueuingResults :=
  let lambda := input.lambda
  let mu := input.mu
  let s := input.s.getD 1
  if mu ≤ 0 ∨ lambda < 0 ∨ s = 0 then errorResult errInvalidInput
  else
    let rho := lambda / ((s : ℚ) * mu)
    if 1 ≤ rho then unstableResult rho
    else
      let Pw := erlangC lambda mu s
      let Wq := jdiv (.num Pw) (.num ((s : ℚ) * mu - lambda))
      let Lq := jmul (.num lambda) Wq
      let W := jadd Wq (.num (1 / mu))
      let L := jmul (.num lambda) W
      ⟨rho, true, Lq, Wq, W, L, none⟩

/-- `calculateMG1` of `queuing-calculations.ts` (Pollaczek-Khinchin). -/
def calculateMG1 (input : QueuingInput) : QueuingResults :=
  let lambda := input.lambda
  let mu := input.mu
  let sigma := input.sigma.getD (1 / mu)
  if mu ≤ 0 ∨ lambda < 0 ∨ sigma < 0 then errorResult errInvalidInput
  else
    let rho := lambda / mu
    if 1 ≤ rho then unstableResult rho
    else
      let lambda2 := lambda * lambda
      let Lq := jdiv (.num (lambda2 * sigma * sigma + rho * rho)) (.num (2 * (1 - rho)))
      let Wq := jdiv Lq (.num lambda)
      let W := jadd Wq (.num (1 / mu))
      let L := jmul (.num lambda) W
      ⟨rho, true, Lq, Wq, W, L, none⟩

/-- `calculateMGS` of `queuing-calculations.ts`. -/
def calculateMGS (input : QueuingInput) : QueuingResults :=
  let lambda := input.lambda
  let mu := input.mu
  let s := input.s.getD 1
  let sigma := input.sigma.getD (1 / mu)
  if mu ≤ 0 ∨ lambda < 0 ∨ s = 0 ∨ sigma < 0 then errorResult errInvalidInput
  else
    let rho := lambda / ((s : ℚ) * mu)
    if 1 ≤ rho then unstableResult rho
    else
      let mmsResult := calculateMMS ⟨lambda, mu, some s, none, none, none⟩
      if mmsResult.stable = false then unstableResult rho
      else
        let Cs2 := sigma * sigma * mu * mu
        let WqMMS := mmsResult.Wq
        let Wq := jdiv (jmul WqMMS (.num (1 + Cs2))) (.num 2)
        let Lq := jmul (.num lambda) Wq
        let W := jadd Wq (.num (1 / mu))
        let L := jmul (.num lambda) W
        ⟨rho, true, Lq, Wq, W, L, none⟩

/-- `calculateGG1` of `queuing-calculations.ts` (Kingman approximation). -/
def calculateGG1 (input : QueuingInput) : QueuingResults :=
  let lambda := input.lambda
  let mu := input.mu
  let sigma := input.sigma.getD (1 / mu)
  let ca := input.ca.getD 1
  let cs := input.cs.getD (sigma * mu)
  if mu ≤ 0 ∨ lambda < 0 ∨ sigma < 0 ∨ ca < 0 ∨ cs < 0 then errorResult errInvalidInput
  else
    let rho := lambda / mu
    if 1 ≤ rho then unstableResult rho
    else
      let Ca2 := ca * ca
      let Cs2 := cs * cs
      let numerator := rho * rho * (1 + Ca2) * (Cs2 + rho * rho * Ca2)
      let denominator := 2 * (1 - rho) * (1 + rho * rho * Cs2)
      let Lq := jdiv (.num numerator) (.num denominator)
      let Wq := jdiv Lq (.num lambda)
      let W := jadd Wq (.num (1 / mu))
      let L := jmul (.num lambda) W
      ⟨rho, true, Lq, Wq, W, L, none⟩

/-- `calculateGGS` of `queuing-calculations.ts`. -/
def calculateGGS (input : QueuingInput) : QueuingResults :=
  let lambda := input.lambda
  let mu := input.mu
  let s := input.s.getD 1
  let sigma := input.sigma.getD (1 / mu)
  let ca := input.ca.getD 1
  let cs := input.cs.getD (sigma * mu)
  if mu ≤ 0 ∨ lambda < 0 ∨ s = 0 ∨ sigma < 0 ∨ ca < 0 ∨ cs < 0 then
    errorResult errInvalidInput
  else
    let rho := lambda / ((s : ℚ) * mu)
    if 1 ≤ rho then unstableResult rho
    else
      let mmsResult := calculateMMS ⟨lambda, mu, some s, none, none, none⟩
      if mmsResult.stable = false then unstableResult rho
      else
        let Ca2 := ca * ca
        let Cs2 := cs * cs
        let WqMMS := mmsResult.Wq
        let Wq := jdiv (jmul WqMMS (.num (Ca2 + Cs2))) (.num 2)
        let Lq := jmul (.num lambda) Wq
        let W := jadd Wq (.num (1 / mu))
        let L := jmul (.num lambda) W
        ⟨rho, true, Lq, Wq, W, L, none⟩

/-- `calculateQueuingMetrics` of `queuing-calculations.ts` (the dispatcher;
the TS `default` branch is unreachable over the closed tag type but kept in
spirit by totality of the match). -/
def calculateQueuingMetrics (model : QueuingModel) (input : QueuingInput) :
    QueuingResults :=
  match model with
  | .MM1 => calculateMM1 input
  | .MMS => calculateMMS input
  | .MG1 => calculateMG1 input
  | .MGS => calculateMGS input
  | .GG1 => calculateGG1 input
  | .GGS => calculateGGS input

/-- The utilization each model checks against 1: `λ/μ` for the single-server
models, `λ/(sμ)` for the multi-server ones. -/
def modelRho (model : QueuingModel) (input : QueuingInput) : ℚ :=
  match model with
  | .MM1 => input.lambda / input.mu
  | .MG1 => input.lambda / input.mu
  | .GG1 => input.lambda / input.mu
  | .MMS => input.lambda / ((input.s.getD 1 : ℚ) * input.mu)
  | .MGS => input.lambda / ((input.s.getD 1 : ℚ) * input.mu)
  | .GGS => input.lambda / ((input.s.getD 1 : ℚ) * input.mu)

theorem jdiv_num (a b : ℚ) (hb : b ≠ 0) : jdiv (.num a) (.num b) = .num (a / b) := by
  simp [jdiv, hb]

theorem jadd_num (a b : ℚ) : jadd (.num a) (.num b) = .num (a + b) := rfl

theorem jmul_num (a b : ℚ) : jmul (.num a) (.num b) = .num (a * b) := rfl

/-- The stable branch of `calculateMM1`, written out. -/
theorem calculateMM1_stable (input : QueuingInput) (hmu : 0 < input.mu)
    (hl : 0 < input.lambda) (hrho : input.lambda / input.mu < 1) :
    calculateMM1 input =
      ⟨input.lambda / input.mu, true,
       .num (input.lambda / input.mu * (input.lambda / input.mu) /
         (1 - input.lambda / input.mu)),
       .num (input.lambda / input.mu * (input.lambda / input.mu) /
         (1 - input.lambda / input.mu) / input.lambda),
       .num (input.lambda / input.mu * (input.lambda / input.mu) /
         (1 - input.lambda / input.mu) / input.lambda + 1 / input.mu),
       .num (input.lambda *
         (input.lambda / input.mu * (input.lambda / input.mu) /
           (1 - input.lambda / input.mu) / input.lambda + 1 / input.mu)),
       none⟩ := by
  have h1 : ¬(input.mu ≤ 0 ∨ input.lambda < 0) := by
    push_neg
    exact ⟨hmu, hl.le⟩
  have h2 : (1 : ℚ) - input.lambda / input.mu ≠ 0 := sub_ne_zero.mpr (ne_of_gt hrho)
  simp only [calculateMM1]
  rw [if_neg h1, if_neg (not_le.mpr hrho), jdiv_num _ _ h2, jdiv_num _ _ hl.ne',
    jadd_num, jmul_num]

/-- The stable branch of `calculateMMS`, written out. -/
theorem calculateMMS_stable (input : QueuingInput) (hmu : 0 < input.mu)
    (hl : 0 ≤ input.lambda) (hs : input.s.getD 1 ≠ 0)
    (hrho : input.lambda / ((input.s.getD 1 : ℚ) * input.mu) < 1) :
    calculateMMS input =
      ⟨input.lambda / ((input.s.getD 1 : ℚ) * input.mu), true,
       .num (input.lambda *
         (erlangC input.lambda input.mu (input.s.getD 1) /
           ((input.s.getD 1 : ℚ) * input.mu - input.lambda))),
       .num (erlangC input.lambda input.mu (input.s.getD 1) /
         ((input.s.getD 1 : ℚ) * input.mu - input.lambda)),
       .num (erlangC input.lambda input.mu (input.s.getD 1) /
         ((input.s.getD 1 : ℚ) * input.mu - input.lambda) + 1 / input.mu),
       .num (input.lambda *
         (erlangC input.lambda input.mu (input.s.getD 1) /
           ((input.s.getD 1 : ℚ) * input.mu - input.lambda) + 1 / input.mu)),
       none⟩ := by
  have hsmu : 0 < (input.s.getD 1 : ℚ) * input.mu := by
    have : 0 < (input.s.getD 1 : ℚ) := by
      exact_mod_cast Nat.pos_of_ne_zero hs
    positivity
  have h1 : ¬(input.mu ≤ 0 ∨ input.lambda < 0 ∨ input.s.getD 1 = 0) := by
    push_neg
    exact ⟨not_le.mp (not_le.mpr hmu), not_lt.mp (not_lt.mpr hl), hs⟩
  have h2 : (input.s.getD 1 : ℚ) * input.mu - input.lambda ≠ 0 := by
    have := (div_lt_one hsmu).mp hrho
    exact sub_ne_zero.mpr (ne_of_gt this)
  simp only [calculateMMS]
  rw [if_neg h1, if_neg (not_le.mpr hrho), jdiv_num _ _ h2, jmul_num, jadd_num, jmul_num]

/-- The stable branch of `calculateMG1`, written out. -/
theorem calculateMG1_stable (lambda mu : ℚ) (s : Option ℕ) (sigma ca cs : Option ℚ)
    (hmu : 0 < mu) (hl : 0 < lambda) (hsig : 0 ≤ sigma.getD (1 / mu))
    (hrho : lambda / mu < 1) :
    calculateMG1 ⟨lambda, mu, s, sigma, ca, cs⟩ =
      ⟨lambda / mu, true,
       .num ((lambda * lambda * sigma.getD (1 / mu) * sigma.getD (1 / mu) +
          lambda / mu * (lambda / mu)) / (2 * (1 - lambda / mu))),
       .num ((lambda * lambda * sigma.getD (1 / mu) * sigma.getD (1 / mu) +
          lambda / mu * (lambda / mu)) / (2 * (1 - lambda / mu)) / lambda),
       .num ((lambda * lambda * sigma.getD (1 / mu) * sigma.getD (1 / mu) +
          lambda / mu * (lambda / mu)) / (2 * (1 - lambda / mu)) / lambda + 1 / mu),
       .num (lambda *
         ((lambda * lambda * sigma.getD (1 / mu) * sigma.getD (1 / mu) +
            lambda / mu * (lambda / mu)) / (2 * (1 - lambda / mu)) / lambda + 1 / mu)),
       none⟩ := by
  have h1 : ¬(mu ≤ 0 ∨ lambda < 0 ∨ sigma.getD (1 / mu) < 0) := by
    push_neg
    exact ⟨hmu, hl.le, hsig⟩
  have h2 : (2 : ℚ) * (1 - lambda / mu) ≠ 0 := by
    have : (0 : ℚ) < 1 - lambda / mu := by linarith
    positivity
  simp only [calculateMG1]
  rw [if_neg h1, if_neg (not_le.mpr hrho), jdiv_num _ _ h2, jdiv_num _ _ hl.ne',
    jadd_num, jmul_num]

/-- The stable branch of `calculateGG1`, written out. -/
theorem calculateGG1_stable (lambda mu : ℚ) (s : Option ℕ) (sigma ca cs : Option ℚ)
    (hmu : 0 < mu) (hl : 0 < lambda) (hsig : 0 ≤ sigma.getD (1 / mu))
    (hca : 0 ≤ ca.getD 1) (hcs : 0 ≤ cs.getD (sigma.getD (1 / mu) * mu))
    (hrho : lambda / mu < 1) :
    calculateGG1 ⟨lambda, mu, s, sigma, ca, cs⟩ =
      ⟨lambda / mu, true,
       .num (lambda / mu * (lambda / mu) * (1 + ca.getD 1 * ca.getD 1) *
          (cs.getD (sigma.getD (1 / mu) * mu) * cs.getD (sigma.getD (1 / mu) * mu) +
            lambda / mu * (lambda / mu) * (ca.getD 1 * ca.getD 1)) /
          (2 * (1 - lambda / mu) *
            (1 + lambda / mu * (lambda / mu) *
              (cs.getD (sigma.getD (1 / mu) * mu) * cs.getD (sigma.getD (1 / mu) * mu))))),
       .num (lambda / mu * (lambda / mu) * (1 + ca.getD 1 * ca.getD 1) *
          (cs.getD (sigma.getD (1 / mu) * mu) * cs.getD (sigma.getD (1 / mu) * mu) +
            lambda / mu * (lambda / mu) * (ca.getD 1 * ca.getD 1)) /
          (2 * (1 - lambda / mu) *
            (1 + lambda / mu * (lambda / mu) *
              (cs.getD (sigma.getD (1 / mu) * mu) * cs.getD (sigma.getD (1 / mu) * mu)))) /
          lambda),
       .num (lambda / mu * (lambda / mu) * (1 + ca.getD 1 * ca.getD 1) *
          (cs.getD (sigma.getD (1 / mu) * mu) * cs.getD (sigma.getD (1 / mu) * mu) +
            lambda / mu * (lambda / mu) * (ca.getD 1 * ca.getD 1)) /
          (2 * (1 - lambda / mu) *
            (1 + lambda / mu * (lambda / mu) *
              (cs.getD (sigma.getD (1 / mu) * mu) * cs.getD (sigma.getD (1 / mu) * mu)))) /
          lambda + 1 / mu),
       .num (lambda *
         (lambda / mu * (lambda / mu) * (1 + ca.getD 1 * ca.getD 1) *
            (cs.getD (sigma.getD (1 / mu) * mu) * cs.getD (sigma.getD (1 / mu) * mu) +
              lambda / mu * (lambda / mu) * (ca.getD 1 * ca.getD 1)) /
            (2 * (1 - lambda / mu) *
              (1 + lambda / mu * (lambda / mu) *
                (cs.getD (sigma.getD (1 / mu) * mu) * cs.getD (sigma.getD (1 / mu) * mu)))) /
            lambda + 1 / mu)),
       none⟩ := by
  have h1 : ¬(mu ≤ 0 ∨ lambda < 0 ∨ sigma.getD (1 / mu) < 0 ∨ ca.getD 1 < 0 ∨
      cs.getD (sigma.getD (1 / mu) * mu) < 0) := by
    push_neg
    exact ⟨hmu, hl.le, hsig, hca, hcs⟩
  have h2 : (2 : ℚ) * (1 - lambda / mu) *
      (1 + lambda / mu * (lambda / mu) *
        (cs.getD (sigma.getD (1 / mu) * mu) * cs.getD (sigma.getD (1 / mu) * mu))) ≠ 0 := by
    have ha : (0 : ℚ) < 1 - lambda / mu := by linarith
    have hb : (0 : ℚ) ≤ lambda / mu * (lambda / mu) *
        (cs.getD (sigma.getD (1 / mu) * mu) * cs.getD (sigma.getD (1 / mu) * mu)) := by
      positivity
    positivity
  simp only [calculateGG1]
  rw [if_neg h1, if_neg (not_le.mpr hrho), jdiv_num _ _ h2, jdiv_num _ _ hl.ne',
    jadd_num, jmul_num]

/-- The `Wq` of the stable `calculateMMS` result, as a rational. -/
def wqMMS (lambda mu : ℚ) (s : ℕ) : ℚ :=
  erlangC lambda mu s / ((s : ℚ) * mu - lambda)

/-- The stable branch of `calculateMGS`, written out. -/
theorem calculateMGS_stable (lambda mu : ℚ) (s : Option ℕ) (sigma ca cs : Option ℚ)
    (hmu : 0 < mu) (hl : 0 ≤ lambda) (hs : s.getD 1 ≠ 0)
    (hsig : 0 ≤ sigma.getD (1 / mu))
    (hrho : lambda / ((s.getD 1 : ℚ) * mu) < 1) :
    calculateMGS ⟨lambda, mu, s, sigma, ca, cs⟩ =
      ⟨lambda / ((s.getD 1 : ℚ) * mu), true,
       .num (lambda * (wqMMS lambda mu (s.getD 1) *
          (1 + sigma.getD (1 / mu) * sigma.getD (1 / mu) * mu * mu) / 2)),
       .num (wqMMS lambda mu (s.getD 1) *
          (1 + sigma.getD (1 / mu) * sigma.getD (1 / mu) * mu * mu) / 2),
       .num (wqMMS lambda mu (s.getD 1) *
          (1 + sigma.getD (1 / mu) * sigma.getD (1 / mu) * mu * mu) / 2 + 1 / mu),
       .num (lambda * (wqMMS lambda mu (s.getD 1) *
          (1 + sigma.getD (1 / mu) * sigma.getD (1 / mu) * mu * mu) / 2 + 1 / mu)),
       none⟩ := by
  have h1 : ¬(mu ≤ 0 ∨ lambda < 0 ∨ s.getD 1 = 0 ∨ sigma.getD (1 / mu) < 0) := by
    push_neg
    exact ⟨hmu, hl, hs, hsig⟩
  have hmms := calculateMMS_stable ⟨lambda, mu, some (s.getD 1), none, none, none⟩
    hmu hl (by simpa using hs) (by simpa using hrho)
  simp only [Option.getD_some] at hmms
  simp only [calculateMGS]
  rw [if_neg h1, if_neg (not_le.mpr hrho), hmms]
  simp only [wqMMS]
  rw [jmul_num, jdiv_num _ _ (by norm_num : (2:ℚ) ≠ 0), jadd_num, jmul_num, jmul_num]
  simp

/-- The stable branch of `calculateGGS`, written out. -/
theorem calculateGGS_stable (lambda mu : ℚ) (s : Option ℕ) (sigma ca cs : Option ℚ)
    (hmu : 0 < mu) (hl : 0 ≤ lambda) (hs : s.getD 1 ≠ 0)
    (hsig : 0 ≤ sigma.getD (1 / mu)) (hca : 0 ≤ ca.getD 1)
    (hcs : 0 ≤ cs.getD (sigma.getD (1 / mu) * mu))
    (hrho : lambda / ((s.getD 1 : ℚ) * mu) < 1) :
    calculateGGS ⟨lambda, mu, s, sigma, ca, cs⟩ =
      ⟨lambda / ((s.getD 1 : ℚ) * mu), true,
       .num (lambda * (wqMMS lambda mu (s.getD 1) *
          (ca.getD 1 * ca.getD 1 +
            cs.getD (sigma.getD (1 / mu) * mu) * cs.getD (sigma.getD (1 / mu) * mu)) / 2)),
       .num (wqMMS lambda mu (s.getD 1) *
          (ca.getD 1 * ca.getD 1 +
            cs.getD (sigma.getD (1 / mu) * mu) * cs.getD (sigma.getD (1 / mu) * mu)) / 2),
       .num (wqMMS lambda mu (s.getD 1) *
          (ca.getD 1 * ca.getD 1 +
            cs.getD (sigma.getD (1 / mu) * mu) * cs.getD (sigma.getD (1 / mu) * mu)) / 2 +
          1 / mu),
       .num (lambda * (wqMMS lambda mu (s.getD 1) *
          (ca.getD 1 * ca.getD 1 +
            cs.getD (sigma.getD (1 / mu) * mu) * cs.getD (sigma.getD (1 / mu) * mu)) / 2 +
          1 / mu)),
       none⟩ := by
  have h1 : ¬(mu ≤ 0 ∨ lambda < 0 ∨ s.getD 1 = 0 ∨ sigma.getD (1 / mu) < 0 ∨
      ca.getD 1 < 0 ∨ cs.getD (sigma.getD (1 / mu) * mu) < 0) := by
    push_neg
    exact ⟨hmu, hl, hs, hsig, hca, hcs⟩
  have hmms := calculateMMS_stable ⟨lambda, mu, some (s.getD 1), none, none, none⟩
    hmu hl (by simpa using hs) (by simpa using hrho)
  simp only [Option.getD_some] at hmms
  simp only [calculateGGS]
  rw [if_neg h1, if_neg (not_le.mpr hrho), hmms]
  simp only [wqMMS]
  rw [jmul_num, jdiv_num _ _ (by norm_num : (2:ℚ) ≠ 0), jadd_num, jmul_num, jmul_num]
  simp

/-- **C6.** For every model tag, whenever the inputs pass validation but give
`rho ≥ 1` (`rho = λ/μ` for the single-server models, `λ/(sμ)` for the
multi-server ones), the calculator returns `stable = false` with `Lq`, `Wq`,
`W`, `L` all `+∞` and no error string — distinguishing this outcome from an
invalid-input error. -/
theorem calculator_unstable_result (model : QueuingModel) (lambda mu : ℚ)
    (s : Option ℕ) (sigma ca cs : Option ℚ)
    (hmu : 0 < mu) (hl : 0 ≤ lambda) (hs : s.getD 1 ≠ 0)
    (hsig : 0 ≤ sigma.getD (1 / mu)) (hca : 0 ≤ ca.getD 1)
    (hcs : 0 ≤ cs.getD (sigma.getD (1 / mu) * mu))
    (hrho : 1 ≤ modelRho model ⟨lambda, mu, s, sigma, ca, cs⟩) :
    calculateQueuingMetrics model ⟨lambda, mu, s, sigma, ca, cs⟩ =
      unstableResult (modelRho model ⟨lambda, mu, s, sigma, ca, cs⟩) := by
  cases model <;>
  · simp only [calculateQueuingMetrics, calculateMM1, calculateMMS, calculateMG1,
      calculateMGS, calculateGG1, calculateGGS, modelRho] at hrho ⊢
    rw [if_neg (by push_neg; tauto), if_pos hrho]

theorem calculator_unstable_result_witness :
    1 ≤ modelRho .MM1 ⟨10, 5, none, none, none, none⟩ ∧
    calculateQueuingMetrics .MM1 ⟨10, 5, none, none, none, none⟩ =
      unstableResult (modelRho .MM1 ⟨10, 5, none, none, none, none⟩) :=
  ⟨by norm_num [modelRho],
   calculator_unstable_result .MM1 10 5 none none none none (by norm_num) (by norm_num)
     (by decide) (by norm_num) (by norm_num) (by norm_num) (by norm_num [modelRho])⟩

/-- **C10.** With `λ = 0` and `μ > 0` the inputs pass validation and
`calculateMM1`, `calculateMG1` and `calculateGG1` return `stable = true` with
no error, but compute `Wq = Lq/λ = 0/0 = NaN`, so the returned `Wq`, `W` and
`L` are `NaN` rather than `0`. -/
theorem calculator_lambda_zero_nan (mu : ℚ) (s : Option ℕ) (sigma ca cs : Option ℚ)
    (hmu : 0 < mu) (hsig : 0 ≤ sigma.getD (1 / mu)) (hca : 0 ≤ ca.getD 1)
    (hcs : 0 ≤ cs.getD (sigma.getD (1 / mu) * mu)) :
    calculateMM1 ⟨0, mu, s, sigma, ca, cs⟩ = ⟨0, true, .num 0, .nan, .nan, .nan, none⟩ ∧
    calculateMG1 ⟨0, mu, s, sigma, ca, cs⟩ = ⟨0, true, .num 0, .nan, .nan, .nan, none⟩ ∧
    calculateGG1 ⟨0, mu, s, sigma, ca, cs⟩ = ⟨0, true, .num 0, .nan, .nan, .nan, none⟩ := by
  refine ⟨?_, ?_, ?_⟩ <;>
  · simp only [calculateMM1, calculateMG1, calculateGG1]
    rw [if_neg (by push_neg; tauto)]
    norm_num [jdiv, jadd, jmul]

theorem calculator_lambda_zero_nan_witness :
    0 < (1 : ℚ) ∧
    calculateMM1 ⟨0, 1, none, none, none, none⟩ = ⟨0, true, .num 0, .nan, .nan, .nan, none⟩ ∧
    calculateMG1 ⟨0, 1, none, none, none, none⟩ = ⟨0, true, .num 0, .nan, .nan, .nan, none⟩ ∧
    calculateGG1 ⟨0, 1, none, none, none, none⟩ = ⟨0, true, .num 0, .nan, .nan, .nan, none⟩ :=
  ⟨by norm_num,
   calculator_lambda_zero_nan 1 none none none none (by norm_num) (by norm_num)
     (by norm_num) (by norm_num)⟩

/-- **C5 (amended).** For every model tag and every input passing validation
with `rho < 1` **and `λ > 0`**, the result satisfies `W = Wq + 1/μ` and
`L = λ·W` exactly in the rational model (hence a fortiori within the spec's
floating tolerance `1e-9`).  The original claim, quantified over all valid
inputs with `rho < 1`, fails at `λ = 0` for the single-server models, where
`Wq`, `W`, `L` are `NaN` (see the counterexample and C10). -/
theorem calculator_littles_law (model : QueuingModel) (lambda mu : ℚ)
    (s : Option ℕ) (sigma ca cs : Option ℚ)
    (hmu : 0 < mu) (hl : 0 < lambda) (hs : s.getD 1 ≠ 0)
    (hsig : 0 ≤ sigma.getD (1 / mu)) (hca : 0 ≤ ca.getD 1)
    (hcs : 0 ≤ cs.getD (sigma.getD (1 / mu) * mu))
    (hrho : modelRho model ⟨lambda, mu, s, sigma, ca, cs⟩ < 1) :
    ∃ wq w l : ℚ,
      (calculateQueuingMetrics model ⟨lambda, mu, s, sigma, ca, cs⟩).Wq = .num wq ∧
      (calculateQueuingMetrics model ⟨lambda, mu, s, sigma, ca, cs⟩).W = .num w ∧
      (calculateQueuingMetrics model ⟨lambda, mu, s, sigma, ca, cs⟩).L = .num l ∧
      w = wq + 1 / mu ∧ l = lambda * w := by
  cases model
  case MM1 =>
    simp only [modelRho] at hrho
    rw [calculateQueuingMetrics, calculateMM1_stable ⟨lambda, mu, s, sigma, ca, cs⟩ hmu hl hrho]
    exact ⟨_, _, _, rfl, rfl, rfl, rfl, rfl⟩
  case MMS =>
    simp only [modelRho] at hrho
    rw [calculateQueuingMetrics, calculateMMS_stable ⟨lambda, mu, s, sigma, ca, cs⟩ hmu hl.le hs hrho]
    exact ⟨_, _, _, rfl, rfl, rfl, rfl, rfl⟩
  case MG1 =>
    simp only [modelRho] at hrho
    rw [calculateQueuingMetrics, calculateMG1_stable lambda mu s sigma ca cs hmu hl hsig hrho]
    exact ⟨_, _, _, rfl, rfl, rfl, rfl, rfl⟩
  case MGS =>
    simp only [modelRho] at hrho
    rw [calculateQueuingMetrics, calculateMGS_stable lambda mu s sigma ca cs hmu hl.le hs hsig hrho]
    exact ⟨_, _, _, rfl, rfl, rfl, rfl, rfl⟩
  case GG1 =>
    simp only [modelRho] at hrho
    rw [calculateQueuingMetrics, calculateGG1_stable lambda mu s sigma ca cs hmu hl hsig hca hcs hrho]
    exact ⟨_, _, _, rfl, rfl, rfl, rfl, rfl⟩
  case GGS =>
    simp only [modelRho] at hrho
    rw [calculateQueuingMetrics,
      calculateGGS_stable lambda mu s sigma ca cs hmu hl.le hs hsig hca hcs hrho]
    exact ⟨_, _, _, rfl, rfl, rfl, rfl, rfl⟩

theorem calculator_littles_law_witness :
    (0 : ℚ) < 3 ∧ modelRho .MM1 ⟨3, 5, none, none, none, none⟩ < 1 ∧
    ∃ wq w l : ℚ,
      (calculateQueuingMetrics .MM1 ⟨3, 5, none, none, none, none⟩).Wq = .num wq ∧
      (calculateQueuingMetrics .MM1 ⟨3, 5, none, none, none, none⟩).W = .num w ∧
      (calculateQueuingMetrics .MM1 ⟨3, 5, none, none, none, none⟩).L = .num l ∧
      w = wq + 1 / 5 ∧ l = 3 * w :=
  ⟨by norm_num, by norm_num [modelRho],
   calculator_littles_law .MM1 3 5 none none none none (by norm_num) (by norm_num)
     (by decide) (by norm_num) (by norm_num) (by norm_num) (by norm_num [modelRho])⟩

/-- **C5, counterexample to the original claim.**  `λ = 0, μ = 1` passes
validation and has `rho = 0 < 1`, yet the MM1 result's `W` is `NaN`, so
`W = Wq + 1/μ` does not hold within any tolerance (there are no rational
values to compare). -/
theorem calculator_littles_law_lambda_zero_fails :
    (calculateQueuingMetrics .MM1 ⟨0, 1, none, none, none, none⟩).stable = true ∧
    (calculateQueuingMetrics .MM1 ⟨0, 1, none, none, none, none⟩).W = JNum.nan ∧
    ¬∃ wq w : ℚ,
      (calculateQueuingMetrics .MM1 ⟨0, 1, none, none, none, none⟩).Wq = .num wq ∧
      (calculateQueuingMetrics .MM1 ⟨0, 1, none, none, none, none⟩).W = .num w ∧
      |w - (wq + 1 / 1)| ≤ 1 / 1000000000 := by
  have h : calculateQueuingMetrics .MM1 ⟨0, 1, none, none, none, none⟩ =
      ⟨0, true, .num 0, .nan, .nan, .nan, none⟩ := by
    simp only [calculateQueuingMetrics, calculateMM1]
    rw [if_neg (by norm_num)]
    norm_num [jdiv, jadd, jmul]
  rw [h]
  refine ⟨rfl, rfl, ?_⟩
  rintro ⟨wq, w, -, hw, -⟩
  exact JNum.noConfusion hw

/-- Erlang-C at a single server reduces to the probability `ρ = λ/μ`. -/
theorem erlangC_one (lambda mu : ℚ) (hmu : 0 < mu) (hrho : lambda / mu < 1) :
    erlangC lambda mu 1 = lambda / mu := by
  have hne : (1 : ℚ) - lambda / mu ≠ 0 := sub_ne_zero.mpr (ne_of_gt hrho)
  have hmu' : mu ≠ 0 := hmu.ne'
  have hml : mu - lambda ≠ 0 :=
    sub_ne_zero.mpr (ne_of_gt ((div_lt_one hmu).mp hrho))
  simp only [erlangC, Nat.cast_one, one_mul, pow_one, Nat.factorial_one,
    Finset.range_one, Finset.sum_singleton, pow_zero, Nat.factorial_zero]
  rw [if_neg (not_le.mpr hrho)]
  rw [div_one, div_one]
  have hden : 1 + lambda / mu / (1 - lambda / mu) = 1 / (1 - lambda / mu) := by
    field_simp
  have hden0 : (1 : ℚ) + lambda / mu / (1 - lambda / mu) ≠ 0 := by
    rw [hden]
    exact one_div_ne_zero hne
  rw [div_eq_iff hden0, hden, mul_one_div]

/-- **C9.** For `0 < λ < μ`, `calculateMMS` with `s = 1` returns exactly the
same result record (ρ, stability, `Lq`, `Wq`, `W`, `L`) as `calculateMM1` on
the same `λ`, `μ`: the Erlang-C formula at one server reduces to the M/M/1
closed form. -/
theorem mms_single_server_matches_mm1 (lambda mu : ℚ) (hl : 0 < lambda)
    (hlm : lambda < mu) :
    calculateMMS ⟨lambda, mu, some 1, none, none, none⟩ =
      calculateMM1 ⟨lambda, mu, some 1, none, none, none⟩ := by
  have hmu : 0 < mu := hl.trans hlm
  have hrho : lambda / mu < 1 := (div_lt_one hmu).mpr hlm
  have hne : (1 : ℚ) - lambda / mu ≠ 0 := sub_ne_zero.mpr (ne_of_gt hrho)
  have hml : mu - lambda ≠ 0 := sub_ne_zero.mpr hlm.ne'
  rw [calculateMM1_stable ⟨lambda, mu, some 1, none, none, none⟩ hmu hl hrho,
    calculateMMS_stable ⟨lambda, mu, some 1, none, none, none⟩ hmu hl.le (by simp)
      (by simpa using hrho)]
  simp only [Option.getD_some, Nat.cast_one, one_mul,
    erlangC_one lambda mu hmu hrho, QueuingResults.mk.injEq, JNum.num.injEq,
    and_true, true_and]
  refine ⟨?_, ?_, ?_, ?_⟩ <;>
  · field_simp
    ring

theorem mms_single_server_matches_mm1_witness :
    (0 : ℚ) < 1 ∧ (1 : ℚ) < 2 ∧
    calculateMMS ⟨1, 2, some 1, none, none, none⟩ =
      calculateMM1 ⟨1, 2, some 1, none, none, none⟩ :=
  ⟨by norm_num, by norm_num,
   mms_single_server_matches_mm1 1 2 (by norm_num) (by norm_num)⟩

/-!  ## Simulation engine

The four simulation variants are, after random generation of the arrival,
service-time and priority arrays, deterministic discrete-event loops over
integer times.  `mm1Simulation` and `mg1Simulation` share one single-server
loop verbatim; `mmsSSimulation` and `mgsSSimulation` share one multi-server
loop verbatim.  We embed the loops parametrized by the generated arrays.
All times are integers, as in the source (integer inter-arrival gaps and
`ceil`-ed service times). -/

/-- A service chunk (`ServiceChunk` in the source): the source's label string
`C${i+1}` is modelled by the 0-based customer index `cust`; `stop` is the
source's `end` field (a Lean keyword). -/
structure Chunk where
  cust : ℕ
  start : ℤ
  stop : ℤ
  server : Option ℕ
deriving DecidableEq

/-- Total duration of the chunks carrying customer `i`'s label. -/
def chunkSum (chunks : List Chunk) (i : ℕ) : ℤ :=
  ((chunks.filter (fun c => c.cust = i)).map (fun c => c.stop - c.start)).sum

/-- Total duration of all chunks. -/
def totalChunkSum (chunks : List Chunk) : ℤ :=
  (chunks.map (fun c => c.stop - c.start)).sum

/-- The generated per-customer arrays feeding a single-server run. -/
structure SimInput where
  n : ℕ
  arrival : ℕ → ℤ
  service : ℕ → ℤ
  priority : ℕ → ℤ
  usePriority : Bool

/-- Single-server loop state (`currentTime`, `remainingTimes`,
`serviceStarts`, `serviceEnds`, `servedMask`, `chunks`). -/
structure SState where
  t : ℤ
  remaining : ℕ → ℤ
  sStart : ℕ → ℤ
  sEnd : ℕ → ℤ
  served : ℕ → Bool
  chunks : List Chunk

/-- `servedMask.every(Boolean)` — loop-exit condition. -/
def allServedS (inp : SimInput) (st : SState) : Bool :=
  (List.range inp.n).all fun i => st.served i

/-- The waiting pool: arrived and not yet fully served, in index order. -/
def waitingPoolS (inp : SimInput) (st : SState) : List ℕ :=
  (List.range inp.n).filter fun i => !st.served i && inp.arrival i ≤ st.t

/-- The selection made from a nonempty waiting pool: the priority-mode
`reduce` keeping the first pool element of strictly-minimal priority, or
`Math.min(...pool)` in FIFO mode.  This function is the verbatim selection
used at all four selection sites (single-server, multi-server assignment,
multi-server preemption — the latter always in priority mode). -/
def chooseCustomer (usePriority : Bool) (priority : ℕ → ℤ) (pool : List ℕ) : ℕ :=
  if usePriority then
    pool.foldl (fun best cur => if priority cur < priority best then cur else best)
      (pool.headD 0)
  else
    pool.foldl min (pool.headD 0)

/-- The clock jump target when the pool is empty: the least arrival time of a
not-yet-served customer (the source's scan with `nextArr = Infinity`).  The
default is never used at call sites (the loop guard gives an unserved
customer). -/
def nextArrivalS (inp : SimInput) (st : SState) : ℤ :=
  ((((List.range inp.n).filter fun i => !st.served i).map inp.arrival).min?).getD st.t

/-- `timeToEvent`: with priority interrupts pending, the gap to the next
strictly-higher-priority arrival; otherwise the chosen customer's remaining
work. -/
def timeToEventS (inp : SimInput) (st : SState) (chosen : ℕ) : ℤ :=
  let interruptors := (List.range inp.n).filter fun i =>
    st.t < inp.arrival i && inp.priority i < inp.priority chosen
  if interruptors ≠ [] ∧ inp.usePriority = true then
    ((interruptors.map inp.arrival).min?).getD 0 - st.t
  else st.remaining chosen

/-- The working part of a single-server iteration once `chosen` is selected:
stamp `serviceStart` on first selection, run `min(remaining, timeToEvent)`
work, emit the chunk, and on zero remaining stamp `serviceEnd` and mark
served. -/
def sstepWork (inp : SimInput) (st : SState) (chosen : ℕ) : SState :=
  let st1 :=
    if st.sStart chosen = -1
    then { st with sStart := Function.update st.sStart chosen st.t }
    else st
  let workDuration := min (st.remaining chosen) (timeToEventS inp st chosen)
  let newT := st.t + workDuration
  let st2 := { st1 with
    t := newT
    remaining := Function.update st.remaining chosen (st.remaining chosen - workDuration)
    chunks := st.chunks ++ [⟨chosen, st.t, newT, none⟩] }
  if st.remaining chosen - workDuration = 0 then
    { st2 with
      sEnd := Function.update st2.sEnd chosen newT
      served := Function.update st2.served chosen true }
  else st2

/-- One iteration of the single-server `while` loop (lines 194-263 of the
simulation module, identical at lines 523-591 for `mg1Simulation`). -/
def sstep (inp : SimInput) (st : SState) : SState :=
  let pool := waitingPoolS inp st
  if pool.isEmpty then { st with t := nextArrivalS inp st }
  else sstepWork inp st (chooseCustomer inp.usePriority inp.priority pool)

/-- Run the loop for at most `fuel` iterations, stopping when all are
served. -/
def srun (inp : SimInput) : ℕ → SState → SState
  | 0, st => st
  | fuel + 1, st =>
      if allServedS inp st then st else srun inp fuel (sstep inp st)

/-- Initial single-server state. -/
def sInit (inp : SimInput) : SState :=
  { t := 0
    remaining := inp.service
    sStart := fun _ => -1
    sEnd := fun _ => 0
    served := fun _ => false
    chunks := [] }

/-- Enough iterations for the loop to serve everyone (proved below). -/
def sFuel (inp : SimInput) : ℕ :=
  2 * (∑ i ∈ Finset.range inp.n, (inp.service i).toNat) + inp.n + 1

/-- The final state of the single-server discrete-event loop shared by
`mm1Simulation` and `mg1Simulation`, on the given generated arrays. -/
def singleSimFinal (inp : SimInput) : SState :=
  srun inp (sFuel inp) (sInit inp)

/-- `Math.max(...serviceEnds)` over the `n` customers. -/
def maxEndS (inp : SimInput) (st : SState) : ℤ :=
  (((List.range inp.n).map st.sEnd).max?).getD 0

/-- `Math.min(...serviceStarts)` over the `n` customers. -/
def minStartS (inp : SimInput) (st : SState) : ℤ :=
  (((List.range inp.n).map st.sStart).min?).getD 0

/-- The single-server `serverUtilization` (lines 285-287): total sampled
service over the span from first service start to last service end, as a
percentage; `0` when that span is not positive. -/
def singleUtilization (inp : SimInput) : ℚ :=
  let st := singleSimFinal inp
  let totalBusy : ℤ := ∑ i ∈ Finset.range inp.n, inp.service i
  let totalTime : ℤ := maxEndS inp st - minStartS inp st
  if 0 < totalTime then (totalBusy : ℚ) / (totalTime : ℚ) * 100 else 0

theorem intList_min?_spec {l : List ℤ} {a : ℤ} (h : l.min? = some a) :
    a ∈ l ∧ ∀ b ∈ l, a ≤ b :=
  ⟨List.min?_mem (fun _ _ => min_choice _ _) h,
   fun b hb => (List.le_min?_iff (fun _ _ _ => le_min_iff) h).mp le_rfl b hb⟩

theorem intList_min?_isSome {l : List ℤ} (h : l ≠ []) : ∃ a, l.min? = some a := by
  cases hm : l.min? with
  | none => exact absurd (List.min?_eq_none_iff.mp hm) h
  | some a => exact ⟨a, rfl⟩

theorem natList_foldl_min_mem (l : List ℕ) (init : ℕ) : l.foldl min init ∈ init :: l := by
  induction l generalizing init with
  | nil => simp
  | cons y ys ih =>
      simp only [List.foldl_cons]
      rcases List.mem_cons.mp (ih (min init y)) with h | h
      · rcases min_choice init y with hc | hc <;> rw [hc] at h ⊢ <;> simp [h]
      · simp [h]

theorem natList_foldl_min_le (l : List ℕ) (init : ℕ) :
    ∀ j ∈ init :: l, l.foldl min init ≤ j := by
  induction l generalizing init with
  | nil => simp
  | cons y ys ih =>
      intro j hj
      simp only [List.foldl_cons]
      rcases List.mem_cons.mp hj with rfl | hj'
      · exact le_trans (ih _ _ (List.mem_cons_self _ _)) (min_le_left _ _)
      · rcases List.mem_cons.mp hj' with rfl | hj''
        · exact le_trans (ih _ _ (List.mem_cons_self _ _)) (min_le_right _ _)
        · exact ih _ _ (List.mem_cons.mpr (Or.inr hj''))

/-- Full specification of the priority-mode `reduce`: the result is a pool
member of minimal priority, and — when the accumulator index is below every
pool index and the pool is sorted — ties go to the smallest index. -/
theorem priorityFold_spec (priority : ℕ → ℤ) :
    ∀ (l : List ℕ) (init : ℕ), (∀ j ∈ l, init < j) → l.Sorted (· < ·) →
      (l.foldl (fun best cur => if priority cur < priority best then cur else best) init ∈
        init :: l) ∧
      (∀ j ∈ init :: l,
        priority (l.foldl (fun best cur => if priority cur < priority best then cur else best)
          init) ≤ priority j) ∧
      (∀ j ∈ init :: l,
        priority j =
          priority (l.foldl (fun best cur => if priority cur < priority best then cur else best)
            init) →
        l.foldl (fun best cur => if priority cur < priority best then cur else best) init ≤ j) := by
  intro l
  induction l with
  | nil =>
      intro init _ _
      refine ⟨by simp, ?_, ?_⟩ <;> intro j hj <;> simp only [List.foldl_nil] <;>
        simp only [List.mem_singleton] at hj <;> simp [hj]
  | cons y ys ih =>
      intro init hlt hsorted
      have hys : ∀ j ∈ ys, y < j := fun j hj => (List.sorted_cons.mp hsorted).1 j hj
      have hsorted' : ys.Sorted (· < ·) := (List.sorted_cons.mp hsorted).2
      have hy : init < y := hlt y (List.mem_cons_self _ _)
      simp only [List.foldl_cons]
      by_cases hc : priority y < priority init
      · rw [if_pos hc]
        obtain ⟨hmem, hle, htie⟩ := ih y hys hsorted'
        refine ⟨?_, ?_, ?_⟩
        · rcases List.mem_cons.mp hmem with h | h <;> simp [h]
        · intro j hj
          rcases List.mem_cons.mp hj with rfl | hj'
          · exact le_trans (hle y (List.mem_cons_self _ _)) hc.le
          · exact hle j hj'
        · intro j hj hpj
          rcases List.mem_cons.mp hj with rfl | hj'
          · exfalso
            have h1 : priority (ys.foldl
                (fun best cur => if priority cur < priority best then cur else best) y) ≤
                priority y := hle y (List.mem_cons_self _ _)
            rw [← hpj] at h1
            exact absurd (lt_of_le_of_lt h1 hc) (lt_irrefl _)
          · exact htie j hj' hpj
      · rw [if_neg hc]
        have hc' : priority init ≤ priority y := not_lt.mp hc
        have hlt' : ∀ j ∈ ys, init < j :=
          fun j hj => hlt j (List.mem_cons.mpr (Or.inr hj))
        obtain ⟨hmem, hle, htie⟩ := ih init hlt' hsorted'
        refine ⟨?_, ?_, ?_⟩
        · rcases List.mem_cons.mp hmem with h | h <;> simp [h]
        · intro j hj
          rcases List.mem_cons.mp hj with rfl | hj'
          · exact hle j (List.mem_cons_self _ _)
          · rcases List.mem_cons.mp hj' with rfl | hj''
            · exact le_trans (hle init (List.mem_cons_self _ _)) hc'
            · exact hle j (List.mem_cons.mpr (Or.inr hj''))
        · intro j hj hpj
          rcases List.mem_cons.mp hj with rfl | hj'
          · exact htie j (List.mem_cons_self _ _) hpj
          · rcases List.mem_cons.mp hj' with rfl | hj''
            · have h1 : priority (ys.foldl
                  (fun best cur => if priority cur < priority best then cur else best) init) ≤
                  priority init := hle init (List.mem_cons_self _ _)
              have h2 : priority init =
                  priority (ys.foldl
                    (fun best cur => if priority cur < priority best then cur else best) init) :=
                le_antisymm (hpj ▸ hc') h1
              exact le_trans (htie init (List.mem_cons_self _ _) h2) hy.le
            · exact htie j (List.mem_cons.mpr (Or.inr hj'')) hpj

/-- The generated inputs of a multi-server run (`mmsSSimulation` /
`mgsSSimulation`). -/
structure MultiInput where
  n : ℕ
  arrival : ℕ → ℤ
  service : ℕ → ℤ
  priority : ℕ → ℤ
  servers : ℕ
  usePriority : Bool

/-- Multi-server loop state: `occ` is `serverOccupancy`, `lastCS` is
`lastChunkStart`.  The decorative `serverAssigned` string array (pure row
output) is not modelled. -/
structure MState where
  t : ℤ
  remaining : ℕ → ℤ
  sStart : ℕ → ℤ
  sEnd : ℕ → ℤ
  served : ℕ → Bool
  occ : ℕ → Option ℕ
  lastCS : ℕ → ℤ
  chunks : List Chunk

/-- `serverOccupancy.includes(i)`. -/
def onServer (servers : ℕ) (occ : ℕ → Option ℕ) (i : ℕ) : Bool :=
  (List.range servers).any fun s => occ s = some i

def allServedM (inp : MultiInput) (st : MState) : Bool :=
  (List.range inp.n).all fun i => st.served i

/-- Step 1: waiting customers not on a server, in index order. -/
def mPool (inp : MultiInput) (st : MState) : List ℕ :=
  (List.range inp.n).filter fun i =>
    !st.served i && inp.arrival i ≤ st.t && !onServer inp.servers st.occ i

/-- Step 2: assign idle servers in server order, erasing each assigned
customer from the pool. -/
def assignServers (inp : MultiInput) :
    List ℕ → MState → List ℕ → MState × List ℕ
  | [], st, pool => (st, pool)
  | s :: rest, st, pool =>
      if st.occ s = none ∧ pool ≠ [] then
        let chosen := chooseCustomer inp.usePriority inp.priority pool
        let st' := { st with
          occ := Function.update st.occ s (some chosen)
          sStart :=
            if st.sStart chosen = -1
            then Function.update st.sStart chosen st.t else st.sStart
          lastCS := Function.update st.lastCS chosen st.t }
        assignServers inp rest st' (pool.erase chosen)
      else assignServers inp rest st pool

/-- Step 3: preemption — each occupied server is compared against the best
remaining pool candidate (always by the priority `reduce`); on a strictly
better priority the occupant's open chunk is closed (if nonempty), the
occupant rejoins the pool **at the end**, and the candidate is installed. -/
def preemptServers (inp : MultiInput) :
    List ℕ → MState → List ℕ → MState × List ℕ
  | [], st, pool => (st, pool)
  | s :: rest, st, pool =>
      match st.occ s with
      | some currCust =>
          if pool ≠ [] then
            let best := chooseCustomer true inp.priority pool
            if inp.priority best < inp.priority currCust then
              let duration := st.t - st.lastCS currCust
              let newChunks :=
                if 0 < duration
                then st.chunks ++ [⟨currCust, st.lastCS currCust, st.t, some s⟩]
                else st.chunks
              let pool1 := (pool ++ [currCust]).erase best
              let st' := { st with
                chunks := newChunks
                occ := Function.update st.occ s (some best)
                sStart :=
                  if st.sStart best = -1
                  then Function.update st.sStart best st.t else st.sStart
                lastCS := Function.update st.lastCS best st.t }
              preemptServers inp rest st' pool1
            else preemptServers inp rest st pool
          else preemptServers inp rest st pool
      | none => preemptServers inp rest st pool

/-- Step 4: the next-event candidates — the first not-yet-reached arrival (the
source's scan-with-break) and the completion time of every busy server. -/
def mEvents (inp : MultiInput) (st : MState) : List ℤ :=
  (match (List.range inp.n).find? (fun i => st.t < inp.arrival i) with
   | some i => [inp.arrival i]
   | none => []) ++
  ((List.range inp.servers).filterMap fun s =>
    (st.occ s).map fun c => st.t + st.remaining c)

/-- Step 5: execute work until `nextT`: every busy server's occupant loses
`nextT - t` remaining work; on reaching `≤ 0` its chunk closes, `serviceEnd`
is stamped, and the server frees. -/
def completeWork (inp : MultiInput) (nextT : ℤ) :
    List ℕ → MState → MState
  | [], st => st
  | s :: rest, st =>
      match st.occ s with
      | some c =>
          let rem := st.remaining c - (nextT - st.t)
          let st1 := { st with remaining := Function.update st.remaining c rem }
          let st2 :=
            if rem ≤ 0 then
              { st1 with
                chunks := st1.chunks ++ [⟨c, st1.lastCS c, nextT, some s⟩]
                sEnd := Function.update st1.sEnd c nextT
                served := Function.update st1.served c true
                occ := Function.update st1.occ s none }
            else st1
          completeWork inp nextT rest st2
      | none => completeWork inp nextT rest st

/-- One iteration of the multi-server `while` loop (lines 326-428, identical
at lines 654-751).  Returns `false` when `possibleEvents` is empty (the
source's `break`). -/
def mstep (inp : MultiInput) (st : MState) : MState × Bool :=
  let pool := mPool inp st
  let ap := assignServers inp (List.range inp.servers) st pool
  let pp :=
    if inp.usePriority = true ∧ ap.2 ≠ []
    then preemptServers inp (List.range inp.servers) ap.1 ap.2
    else ap
  match (mEvents inp pp.1).min? with
  | none => (pp.1, false)
  | some nextT =>
      ({ completeWork inp nextT (List.range inp.servers) pp.1 with t := nextT }, true)

def mrun (inp : MultiInput) : ℕ → MState → MState
  | 0, st => st
  | fuel + 1, st =>
      if allServedM inp st then st
      else
        match mstep inp st with
        | (st', true) => mrun inp fuel st'
        | (st', false) => st'

def mInit (inp : MultiInput) : MState :=
  { t := 0
    remaining := inp.service
    sStart := fun _ => -1
    sEnd := fun _ => 0
    served := fun _ => false
    occ := fun _ => none
    lastCS := fun _ => 0
    chunks := [] }

def mFuel (inp : MultiInput) : ℕ :=
  2 * (∑ i ∈ Finset.range inp.n, (inp.service i).toNat) + inp.n + 1

/-- The final state of the multi-server discrete-event loop shared by
`mmsSSimulation` and `mgsSSimulation`, on the given generated arrays. -/
def multiSimFinal (inp : MultiInput) : MState :=
  mrun inp (mFuel inp) (mInit inp)

/-- `Math.max(...serviceEnd, 0)`. -/
def simulationEndM (inp : MultiInput) (st : MState) : ℤ :=
  ((((List.range inp.n).map st.sEnd) ++ [0]).max?).getD 0

/-- `timeline[t]`: the number of valid rows (`serviceStart ≥ 0` and
`serviceEnd ≥ 0`) whose service interval `[serviceStart, serviceEnd)` covers
time unit `t`. -/
def busyCountM (inp : MultiInput) (st : MState) (tu : ℤ) : ℕ :=
  ((Finset.range inp.n).filter fun i =>
    0 ≤ st.sStart i ∧ 0 ≤ st.sEnd i ∧ st.sStart i ≤ tu ∧ tu < st.sEnd i).card

/-- `totalBusyTime`: the timeline summed with each bucket capped at the
server count. -/
def totalBusyTimeM (inp : MultiInput) (st : MState) : ℕ :=
  ∑ tu ∈ Finset.range ((simulationEndM inp st).toNat + 1),
    min (busyCountM inp st (tu : ℤ)) inp.servers

/-- The multi-server `serverUtilization` (lines 451-487 / 774-816): the
histogram utilisation, capped at 100. -/
def multiUtilization (inp : MultiInput) : ℚ :=
  let st := multiSimFinal inp
  let simEnd := simulationEndM inp st
  let u : ℚ :=
    if 0 < simEnd
    then (totalBusyTimeM inp st : ℚ) / ((simEnd : ℚ) * (inp.servers : ℚ)) * 100
    else 0
  min u 100

theorem chooseCustomer_false_cons (priority : ℕ → ℤ) (x : ℕ) (xs : List ℕ) :
    chooseCustomer false priority (x :: xs) = xs.foldl min x := by
  simp [chooseCustomer]

theorem chooseCustomer_true_cons (priority : ℕ → ℤ) (x : ℕ) (xs : List ℕ) :
    chooseCustomer true priority (x :: xs) =
      xs.foldl (fun best cur => if priority cur < priority best then cur else best) x := by
  simp [chooseCustomer, lt_irrefl]

/-- **C4 (amended).**  On an index-sorted nonempty waiting pool, the
scheduler's selection (`chooseCustomer`, the verbatim selection expression of
all four selection sites) is a pool member; in non-priority mode it is the
minimum index, and in priority mode it has minimal priority number and, among
pool members sharing that minimal priority, the smallest index.  The pools
built directly by the index scans — the single-server pool and the
multi-server step-1 pool — are always index-sorted (final two conjuncts), so
tie-breaking by lowest customer index holds there.  The original claim fails
for multi-server preemption: a customer preempted by an earlier server in the
same pass is appended at the end of the pool, out of index order, and a
priority tie is then resolved by pool position, not by index (see the
counterexample). -/
theorem scheduler_selection_tie_break (usePriority : Bool) (priority : ℕ → ℤ)
    (pool : List ℕ) (hne : pool ≠ []) (hsorted : pool.Sorted (· < ·)) :
    (chooseCustomer usePriority priority pool ∈ pool ∧
     (usePriority = false → ∀ j ∈ pool, chooseCustomer usePriority priority pool ≤ j) ∧
     (usePriority = true →
       (∀ j ∈ pool, priority (chooseCustomer usePriority priority pool) ≤ priority j) ∧
       (∀ j ∈ pool, priority j = priority (chooseCustomer usePriority priority pool) →
         chooseCustomer usePriority priority pool ≤ j))) ∧
    (∀ (inp : SimInput) (st : SState), (waitingPoolS inp st).Sorted (· < ·)) ∧
    (∀ (inp : MultiInput) (st : MState), (mPool inp st).Sorted (· < ·)) := by
  refine ⟨?_, ?_, ?_⟩
  · match pool, hne with
    | x :: xs, _ =>
      have hys : ∀ j ∈ xs, x < j := fun j hj => (List.sorted_cons.mp hsorted).1 j hj
      have hsorted' : xs.Sorted (· < ·) := (List.sorted_cons.mp hsorted).2
      cases usePriority with
      | false =>
          rw [chooseCustomer_false_cons]
          exact ⟨natList_foldl_min_mem xs x, fun _ => natList_foldl_min_le xs x,
            fun h => by simp at h⟩
      | true =>
          rw [chooseCustomer_true_cons]
          obtain ⟨hmem, hle, htie⟩ := priorityFold_spec priority xs x hys hsorted'
          exact ⟨hmem, fun h => by simp at h, fun _ => ⟨hle, htie⟩⟩
  · intro inp st
    exact (List.pairwise_lt_range inp.n).filter _
  · intro inp st
    exact (List.pairwise_lt_range inp.n).filter _

theorem scheduler_selection_tie_break_witness :
    ([1, 3] : List ℕ) ≠ [] ∧ ([1, 3] : List ℕ).Sorted (· < ·) ∧
    (chooseCustomer true (fun _ => 7) [1, 3] ∈ ([1, 3] : List ℕ) ∧
     (∀ j ∈ ([1, 3] : List ℕ),
       (fun _ => (7 : ℤ)) (chooseCustomer true (fun _ => 7) [1, 3]) ≤ (fun _ => (7 : ℤ)) j) ∧
     (∀ j ∈ ([1, 3] : List ℕ),
       (fun _ => (7 : ℤ)) j = (fun _ => (7 : ℤ)) (chooseCustomer true (fun _ => 7) [1, 3]) →
       chooseCustomer true (fun _ => 7) [1, 3] ≤ j)) :=
  ⟨by simp, by decide,
   have h := scheduler_selection_tie_break true (fun _ => 7) [1, 3] (by simp) (by decide)
   ⟨h.1.1, (h.1.2.2 rfl).1, (h.1.2.2 rfl).2⟩⟩

/-- The input of the tie-break counterexample: four customers, arrivals
`[0,0,2,2]`, service times `[10,10,1,10]`, priorities `[3,4,1,3]`, two
servers, priority mode. -/
def c4Input : MultiInput :=
  ⟨4, fun i => [0, 0, 2, 2].getD i 0, fun i => [10, 10, 1, 10].getD i 0,
   fun i => [3, 4, 1, 3].getD i 0, 2, true⟩

/-- State after the first loop iteration of the counterexample run. -/
def c4St1 : MState := (mstep c4Input (mInit c4Input)).1

/-- Intermediate results of the second iteration of the counterexample run. -/
def c4A : MState × List ℕ :=
  assignServers c4Input (List.range 2) c4St1 (mPool c4Input c4St1)

/-- **C4, counterexample to the original claim.**  In the second iteration of
the run on `c4Input`, after server 0 preempts customer 0 (priority 3) with
customer 2 (priority 1), customer 0 is appended to the pool, which becomes
`[3, 0]`.  Customers 3 and 0 share the minimal pool priority 3, so the claim
requires the smaller index 0 to be selected at server 1's preemption check —
but the scheduler selects customer 3 and installs it on server 1. -/
theorem tie_break_preemption_counterexample :
    mPool c4Input c4St1 = [2, 3] ∧
    c4A.2 = [2, 3] ∧
    (preemptServers c4Input [0] c4A.1 c4A.2).2 = [3, 0] ∧
    c4Input.priority 0 = 3 ∧ c4Input.priority 3 = 3 ∧
    (∀ j ∈ (preemptServers c4Input [0] c4A.1 c4A.2).2,
      c4Input.priority 0 ≤ c4Input.priority j) ∧
    chooseCustomer true c4Input.priority (preemptServers c4Input [0] c4A.1 c4A.2).2 = 3 ∧
    (preemptServers c4Input (List.range 2) c4A.1 c4A.2).1.occ 1 = some 3 := by
  decide

/-!  ## Service-time generators

The three generators compute with `Math.log`, `Math.sqrt`, `Math.cos`:
transcendental functions, modelled over `ℝ` (hence noncomputable — the one
part of the engine that has no exact executable model).  IEEE special values
matter only for the exponential generator, whose draw `u = 0` (possible for
`Math.random() ∈ [0,1)`) hits `Math.log(0) = -Infinity`. -/

/-- A JS number in the generators: a real or an IEEE special value. -/
inductive RVal where
  | num (x : ℝ)
  | inf
  | neginf
  | nan

/-- `Math.log`: `-Infinity` at `0`, `NaN` on negatives. -/
noncomputable def jsLog (u : ℝ) : RVal :=
  if 0 < u then .num (Real.log u) else if u = 0 then .neginf else .nan

/-- Multiplication of a `RVal` by a real constant (IEEE sign rules). -/
noncomputable def rmulConst (a : ℝ) : RVal → RVal
  | .num x => .num (a * x)
  | .inf => if 0 < a then .inf else if a < 0 then .neginf else .nan
  | .neginf => if 0 < a then .neginf else if a < 0 then .inf else .nan
  | .nan => .nan

/-- `Math.ceil` on a `RVal`. -/
noncomputable def rceil : RVal → RVal
  | .num x => .num (⌈x⌉ : ℤ)
  | v => v

/-- `Math.max(1, ·)` on a `RVal` (`max(1, -Infinity) = 1`, `max(1, NaN) =
NaN`). -/
noncomputable def rmax1 : RVal → RVal
  | .num x => .num (max 1 x)
  | .inf => .inf
  | .neginf => .num 1
  | .nan => .nan

/-- One sample of `generateServiceTimes` (exponential inverse transform,
line 118): `Math.max(1, Math.ceil(-mu * Math.log(u)))` on the uniform draw
`u`. -/
noncomputable def expServiceTime (mu : ℝ) (u : ℝ) : RVal :=
  rmax1 (rceil (rmulConst (-mu) (jsLog u)))

/-- One sample of `generateUniformServiceTimes` (line 132):
`Math.max(1, Math.ceil(a + (b - a) * u))`.  No IEEE special value arises for
any real draw, so this is a plain real. -/
noncomputable def uniformServiceTime (a b : ℝ) (u : ℝ) : ℝ :=
  max 1 (⌈a + (b - a) * u⌉ : ℤ)

/-- One sample of `generateNormalServiceTimes` (Box-Muller, lines 142-149)
with the source's `r1 === 0 ? 0.0001 : r1` guard; for draws `r1 ∈ [0,1)` the
`log` argument lies in `(0,1)`, so no special value arises. -/
noncomputable def normalServiceTime (mu sigma : ℝ) (r1 r2 : ℝ) : ℝ :=
  max 1 (⌈mu + sigma *
    (Real.sqrt (-2 * Real.log (if r1 = 0 then 0.0001 else r1)) *
      Real.cos (2 * Real.pi * r2))⌉ : ℤ)

/-- **C7 (amended).**  Each generator sample is an integer `≥ 1` — for the
uniform and normal (Box-Muller) generators on every draw in `[0,1)`, and for
the exponential generator on every draw in the **open** interval `(0,1)`.
The original claim also includes the draw `u = 0` for the exponential
generator, where the sample is `+Infinity` instead (see the
counterexample). -/
theorem service_time_samples_ge_one (mu sigma a b u v r1 r2 : ℝ)
    (hu0 : 0 < u) (hu1 : u < 1) (hr0 : 0 ≤ r1) (hr1 : r1 < 1) :
    (∃ k : ℤ, expServiceTime mu u = .num (k : ℝ) ∧ 1 ≤ k) ∧
    (∃ k : ℤ, uniformServiceTime a b v = (k : ℝ) ∧ 1 ≤ k) ∧
    (∃ k : ℤ, normalServiceTime mu sigma r1 r2 = (k : ℝ) ∧ 1 ≤ k) := by
  refine ⟨?_, ?_, ?_⟩
  · refine ⟨max 1 ⌈-mu * Real.log u⌉, ?_, le_max_left _ _⟩
    rw [expServiceTime, jsLog, if_pos hu0]
    simp only [rmulConst, rceil, rmax1]
    push_cast
    rfl
  · exact ⟨max 1 ⌈a + (b - a) * v⌉, by rw [uniformServiceTime]; push_cast; rfl,
      le_max_left _ _⟩
  · exact ⟨max 1 ⌈mu + sigma *
      (Real.sqrt (-2 * Real.log (if r1 = 0 then 0.0001 else r1)) *
        Real.cos (2 * Real.pi * r2))⌉,
      by rw [normalServiceTime]; push_cast; rfl, le_max_left _ _⟩

theorem service_time_samples_ge_one_witness :
    (0 : ℝ) < 1 / 2 ∧ (1 : ℝ) / 2 < 1 ∧ (0 : ℝ) ≤ 1 / 2 ∧
    ((∃ k : ℤ, expServiceTime 1 (1 / 2) = .num (k : ℝ) ∧ 1 ≤ k) ∧
     (∃ k : ℤ, uniformServiceTime 2 5 (1 / 2) = (k : ℝ) ∧ 1 ≤ k) ∧
     (∃ k : ℤ, normalServiceTime 1 1 (1 / 2) (1 / 2) = (k : ℝ) ∧ 1 ≤ k)) :=
  ⟨by norm_num, by norm_num, by norm_num,
   service_time_samples_ge_one 1 1 2 5 (1 / 2) (1 / 2) (1 / 2) (1 / 2)
     (by norm_num) (by norm_num) (by norm_num) (by norm_num)⟩

/-- **C7, counterexample to the original claim.**  At the draw `u = 0`
(which `Math.random() ∈ [0,1)` can produce) the exponential generator
computes `ceil(-mu * log 0) = +Infinity`: not an integer `≥ 1`. -/
theorem exp_service_time_at_zero_draw :
    expServiceTime 1 0 = RVal.inf ∧
    ¬∃ k : ℤ, expServiceTime 1 0 = .num (k : ℝ) ∧ 1 ≤ k := by
  have h : expServiceTime 1 0 = RVal.inf := by
    rw [expServiceTime, jsLog, if_neg (lt_irrefl 0), if_pos rfl]
    have h1 : rmulConst (-1) .neginf = .inf := by
      simp only [rmulConst]
      norm_num
    rw [h1]
    rfl
  refine ⟨h, ?_⟩
  rintro ⟨k, hk, -⟩
  rw [h] at hk
  exact RVal.noConfusion hk

/-!  ## Poisson arrival table (`buildPoissonCDF`)

The table is driven by `Math.exp(-lambda)`, modelled over `ℝ`. -/

/-- `Math.round(x * 100000) / 100000` — 5-decimal rounding; for the
nonnegative arguments that occur, `Math.round y = ⌊y + 1/2⌋`. -/
noncomputable def jround5 (x : ℝ) : ℝ := (⌊x * 100000 + 1 / 2⌋ : ℤ) / 100000

/-- The `while (true)` loop of `buildPoissonCDF` carrying `currentP`, `cum`
and `k` and collecting the rounded cumulative entries and the `k` column.
`fuel` only bounds the recursion; started at `501` it never runs out, because
the loop breaks at `k ≥ 500` and `k` increments each pass. -/
noncomputable def cdfLoop (lambda : ℝ) : ℕ → ℝ → ℝ → ℕ → List ℝ × List ℕ
  | 0, _, _, _ => ([], [])
  | fuel + 1, currentP, cum, k =>
      let cum' := cum + currentP
      let entry := jround5 cum'
      if 0.99999 ≤ cum' ∨ 500 ≤ k then ([entry], [k])
      else
        let r := cdfLoop lambda fuel (currentP * (lambda / (k + 1))) cum' (k + 1)
        (entry :: r.1, k :: r.2)

/-- `cpCum[cpCum.length - 1] = Math.min(last, 1.0)`. -/
noncomputable def clampLast : List ℝ → List ℝ
  | [] => []
  | [x] => [min x 1]
  | x :: y :: xs => x :: clampLast (y :: xs)

/-- The result record of `buildPoissonCDF`. -/
structure PoissonTable where
  cpCum : List ℝ
  cpLookup : List ℝ
  noBetweenArrivals : List ℕ

/-- `buildPoissonCDF` (lines 48-79): iterates `P(k) = P(k-1)·λ/k` from
`P(0) = e^{-λ}`, pushing 5-decimal-rounded cumulatives until the raw
cumulative reaches `0.99999` or 500 terms, then clamps the last entry to at
most `1.0` and forms the shifted lookup column. -/
noncomputable def buildPoissonCDF (lambda : ℝ) : PoissonTable :=
  let r := cdfLoop lambda 501 (Real.exp (-lambda)) 0 0
  let cpCum := clampLast r.1
  { cpCum := cpCum, cpLookup := 0 :: cpCum.dropLast, noBetweenArrivals := r.2 }

theorem jround5_mono {x y : ℝ} (h : x ≤ y) : jround5 x ≤ jround5 y := by
  unfold jround5
  have : (⌊x * 100000 + 1 / 2⌋ : ℤ) ≤ ⌊y * 100000 + 1 / 2⌋ :=
    Int.floor_le_floor (by linarith)
  have h2 : ((⌊x * 100000 + 1 / 2⌋ : ℤ) : ℝ) ≤ ((⌊y * 100000 + 1 / 2⌋ : ℤ) : ℝ) := by
    exact_mod_cast this
  exact (div_le_div_iff_of_pos_right (by norm_num : (0:ℝ) < 100000)).mpr h2

theorem jround5_le_one {x : ℝ} (h : x ≤ 1) : jround5 x ≤ 1 := by
  have h1 : jround5 x ≤ jround5 1 := jround5_mono h
  have h2 : jround5 1 = 1 := by
    unfold jround5
    norm_num
  linarith

theorem jround5_eq_zero {x : ℝ} (h0 : 0 ≤ x) (h1 : x < 1 / 200000) : jround5 x = 0 := by
  unfold jround5
  have : ⌊x * 100000 + 1 / 2⌋ = 0 := by
    rw [Int.floor_eq_zero_iff]
    constructor
    · positivity
    · norm_num
      nlinarith
  rw [this]
  norm_num

theorem cdfLoop_spec (lambda : ℝ) (hl : 0 ≤ lambda) :
    ∀ (fuel : ℕ) (k : ℕ) (currentP cum : ℝ),
      currentP = Real.exp (-lambda) * lambda ^ k / (Nat.factorial k : ℝ) →
      cum = Real.exp (-lambda) *
        ∑ j ∈ Finset.range k, lambda ^ j / (Nat.factorial j : ℝ) →
      (cdfLoop lambda fuel currentP cum k).1.Chain' (· ≤ ·) ∧
      (∀ x ∈ (cdfLoop lambda fuel currentP cum k).1, x ≤ 1) ∧
      (∀ x ∈ (cdfLoop lambda fuel currentP cum k).1, jround5 (cum + currentP) ≤ x) := by
  intro fuel
  induction fuel with
  | zero =>
      intro k currentP cum _ _
      refine ⟨by simp [cdfLoop], by simp [cdfLoop], by simp [cdfLoop]⟩
  | succ fuel ih =>
      intro k currentP cum hP hC
      have hsum : cum + currentP =
          Real.exp (-lambda) *
            ∑ j ∈ Finset.range (k + 1), lambda ^ j / (Nat.factorial j : ℝ) := by
        rw [hP, hC, Finset.sum_range_succ, mul_add]
        ring
      have hle1 : cum + currentP ≤ 1 := by
        rw [hsum, Real.exp_neg]
        have hS := Real.sum_le_exp_of_nonneg hl (k + 1)
        have hpos := Real.exp_pos lambda
        have h2 := mul_le_mul_of_nonneg_left hS (inv_nonneg.mpr hpos.le)
        rw [inv_mul_cancel₀ hpos.ne'] at h2
        exact h2
      simp only [cdfLoop]
      split_ifs with hbr
      · refine ⟨List.chain'_singleton _, ?_, ?_⟩
        · intro x hx
          rw [List.mem_singleton] at hx
          rw [hx]
          exact jround5_le_one hle1
        · intro x hx
          rw [List.mem_singleton] at hx
          rw [hx]
      · have hfact : (Nat.factorial (k + 1) : ℝ) = ((k : ℝ) + 1) * (Nat.factorial k : ℝ) := by
          rw [Nat.factorial_succ]
          push_cast
          ring
        have hkne : ((k : ℝ) + 1) ≠ 0 := by positivity
        have hfne : (Nat.factorial k : ℝ) ≠ 0 :=
          Nat.cast_ne_zero.mpr (Nat.factorial_ne_zero k)
        have hP' : currentP * (lambda / ((k : ℝ) + 1)) =
            Real.exp (-lambda) * lambda ^ (k + 1) / (Nat.factorial (k + 1) : ℝ) := by
          rw [hP, hfact, pow_succ]
          field_simp
          ring
        obtain ⟨ihchain, ihle, ihge⟩ := ih (k + 1) _ _ hP' hsum
        have hcp' : 0 ≤ currentP * (lambda / ((k : ℝ) + 1)) := by
          rw [hP']
          positivity
        have hmono : jround5 (cum + currentP) ≤
            jround5 (cum + currentP + currentP * (lambda / ((k : ℝ) + 1))) :=
          jround5_mono (by linarith)
        refine ⟨?_, ?_, ?_⟩
        · rw [List.chain'_cons']
          refine ⟨fun y hy => le_trans hmono (ihge y (List.mem_of_mem_head? hy)), ihchain⟩
        · intro x hx
          rcases List.mem_cons.mp hx with rfl | hx'
          · exact jround5_le_one hle1
          · exact ihle x hx'
        · intro x hx
          rcases List.mem_cons.mp hx with rfl | hx'
          · exact le_rfl
          · exact le_trans hmono (ihge x hx')

theorem clampLast_eq_of_le_one : ∀ l : List ℝ, (∀ x ∈ l, x ≤ 1) → clampLast l = l
  | [], _ => rfl
  | [x], h => by
      have := h x (List.mem_singleton_self x)
      simp [clampLast, min_eq_left this]
  | x :: y :: xs, h => by
      have hrest := clampLast_eq_of_le_one (y :: xs) fun z hz =>
        h z (List.mem_cons.mpr (Or.inr hz))
      simp [clampLast, hrest]

/-- **C3 (amended).**  For every `λ > 0` the table built by `buildPoissonCDF`
has non-decreasing cumulative entries, every entry (in particular the final
one) is at most `1.0`, and the final `min(·, 1.0)` clamp is a no-op.  The
original claim's second half — that the final entry equals exactly `1.0` —
fails: the loop only caps the last rounded cumulative from above and never
raises it (see the counterexample, where the 500-term cap leaves it at
`0`). -/
theorem poisson_table_monotone_le_one (lambda : ℝ) (hl : 0 < lambda) :
    (buildPoissonCDF lambda).cpCum.Chain' (· ≤ ·) ∧
    ∀ x ∈ (buildPoissonCDF lambda).cpCum, x ≤ 1 := by
  obtain ⟨hchain, hle, -⟩ := cdfLoop_spec lambda hl.le 501 0 (Real.exp (-lambda)) 0
    (by simp) (by simp)
  have heq : clampLast (cdfLoop lambda 501 (Real.exp (-lambda)) 0 0).1 =
      (cdfLoop lambda 501 (Real.exp (-lambda)) 0 0).1 :=
    clampLast_eq_of_le_one _ hle
  simp only [buildPoissonCDF]
  rw [heq]
  exact ⟨hchain, hle⟩

theorem poisson_table_monotone_le_one_witness :
    (0 : ℝ) < 1 ∧
    ((buildPoissonCDF 1).cpCum.Chain' (· ≤ ·) ∧
     ∀ x ∈ (buildPoissonCDF 1).cpCum, x ≤ 1) :=
  ⟨by norm_num, poisson_table_monotone_le_one 1 (by norm_num)⟩

theorem cdfLoop_all_zero (lambda : ℝ) (hl : 1 ≤ lambda) :
    ∀ (fuel : ℕ) (k : ℕ) (currentP cum : ℝ), k ≤ 500 → 0 ≤ currentP → 0 ≤ cum →
      cum + currentP * ((501 - k : ℕ) : ℝ) * lambda ^ (500 - k) < 1 / 200000 →
      ∀ x ∈ (cdfLoop lambda fuel currentP cum k).1, x = 0 := by
  intro fuel
  induction fuel with
  | zero => simp [cdfLoop]
  | succ fuel ih =>
      intro k currentP cum hk hcp hcum hinv x hx
      have hX : (1 : ℝ) ≤ lambda ^ (500 - k) := one_le_pow₀ hl
      have hC : (1 : ℝ) ≤ ((501 - k : ℕ) : ℝ) := by
        have h : 1 ≤ 501 - k := by omega
        exact_mod_cast h
      have hfac : (1 : ℝ) ≤ ((501 - k : ℕ) : ℝ) * lambda ^ (500 - k) := by nlinarith
      have hcum' : cum + currentP < 1 / 200000 := by nlinarith
      have hentry : jround5 (cum + currentP) = 0 :=
        jround5_eq_zero (by linarith) hcum'
      simp only [cdfLoop] at hx
      split_ifs at hx with hbr
      · rw [List.mem_singleton] at hx
        rw [hx, hentry]
      · rcases List.mem_cons.mp hx with rfl | hx'
        · exact hentry
        · have hk499 : k ≤ 499 := by
            rcases not_or.mp hbr with ⟨-, h2⟩
            omega
          have hcp' : 0 ≤ currentP * (lambda / ((k : ℝ) + 1)) := by positivity
          have hdiv : lambda / ((k : ℝ) + 1) ≤ lambda := by
            apply div_le_self (by linarith)
            have : (0 : ℝ) ≤ (k : ℝ) := Nat.cast_nonneg k
            linarith
          have hCeq : ((501 - k : ℕ) : ℝ) = ((501 - (k + 1) : ℕ) : ℝ) + 1 := by
            have h : 501 - k = (501 - (k + 1)) + 1 := by omega
            rw [h]
            push_cast
            ring
          have hXeq : lambda ^ (500 - k) = lambda ^ (500 - (k + 1)) * lambda := by
            have h : 500 - k = (500 - (k + 1)) + 1 := by omega
            rw [h, pow_succ]
          have hC' : (0 : ℝ) ≤ ((501 - (k + 1) : ℕ) : ℝ) := Nat.cast_nonneg _
          have hX' : (1 : ℝ) ≤ lambda ^ (500 - (k + 1)) := one_le_pow₀ hl
          have hinv' : cum + currentP +
              currentP * (lambda / ((k : ℝ) + 1)) * ((501 - (k + 1) : ℕ) : ℝ) *
                lambda ^ (500 - (k + 1)) < 1 / 200000 := by
            have hstep : currentP * (lambda / ((k : ℝ) + 1)) * ((501 - (k + 1) : ℕ) : ℝ) *
                lambda ^ (500 - (k + 1)) ≤
                currentP * ((501 - (k + 1) : ℕ) : ℝ) * lambda ^ (500 - (k + 1)) * lambda := by
              have hm : 0 ≤ currentP *
                  (((501 - (k + 1) : ℕ) : ℝ) * lambda ^ (500 - (k + 1))) := by positivity
              have h2 := mul_le_mul_of_nonneg_left hdiv hm
              calc currentP * (lambda / ((k : ℝ) + 1)) * ((501 - (k + 1) : ℕ) : ℝ) *
                  lambda ^ (500 - (k + 1)) =
                  currentP * (((501 - (k + 1) : ℕ) : ℝ) * lambda ^ (500 - (k + 1))) *
                    (lambda / ((k : ℝ) + 1)) := by ring
                _ ≤ currentP * (((501 - (k + 1) : ℕ) : ℝ) * lambda ^ (500 - (k + 1))) *
                    lambda := h2
                _ = currentP * ((501 - (k + 1) : ℕ) : ℝ) * lambda ^ (500 - (k + 1)) *
                    lambda := by ring
            have hgrow : currentP + currentP * ((501 - (k + 1) : ℕ) : ℝ) *
                lambda ^ (500 - (k + 1)) * lambda ≤
                currentP * ((501 - k : ℕ) : ℝ) * lambda ^ (500 - k) := by
              rw [hCeq, hXeq]
              have h2 : (1 : ℝ) ≤ lambda ^ (500 - (k + 1)) * lambda := by nlinarith
              nlinarith
            linarith
          exact ih (k + 1) _ _ (by omega) hcp' (by linarith) hinv' x hx'

theorem exp_neg_bound_10000 :
    0 + Real.exp (-10000) * ((501 - 0 : ℕ) : ℝ) * (10000 : ℝ) ^ (500 - 0) < 1 / 200000 := by
  have h1 : (2 : ℝ) ≤ Real.exp 1 := by
    have := Real.add_one_le_exp (1 : ℝ)
    linarith
  have h2 : (2 : ℝ) ^ (10000 : ℕ) ≤ Real.exp 10000 := by
    have he : Real.exp ((10000 : ℕ) * (1 : ℝ)) = Real.exp 1 ^ (10000 : ℕ) :=
      Real.exp_nat_mul 1 10000
    have he' : Real.exp 10000 = Real.exp 1 ^ (10000 : ℕ) := by
      rw [← he]
      norm_num
    rw [he']
    exact pow_le_pow_left (by norm_num) h1 _
  have h3 : (10 : ℝ) ^ (3000 : ℕ) ≤ (2 : ℝ) ^ (10000 : ℕ) := by
    have e1 : (10 : ℝ) ^ (3000 : ℕ) = ((10 : ℝ) ^ (3 : ℕ)) ^ (1000 : ℕ) := by
      rw [← pow_mul]
    have e2 : (2 : ℝ) ^ (10000 : ℕ) = ((2 : ℝ) ^ (10 : ℕ)) ^ (1000 : ℕ) := by
      rw [← pow_mul]
    rw [e1, e2]
    exact pow_le_pow_left (by norm_num) (by norm_num) _
  have hp3000 : (0 : ℝ) < 10 ^ (3000 : ℕ) := by positivity
  have h4 : Real.exp (-10000) ≤ ((10 : ℝ) ^ (3000 : ℕ))⁻¹ := by
    rw [Real.exp_neg]
    exact inv_le_inv_of_le hp3000 (le_trans h3 h2)
  have hcast : ((501 - 0 : ℕ) : ℝ) = 501 := by norm_num
  have hpow : (10000 : ℝ) ^ (500 - 0) = (10 : ℝ) ^ (2000 : ℕ) := by
    have : (10000 : ℝ) = (10 : ℝ) ^ (4 : ℕ) := by norm_num
    rw [show (500 - 0 : ℕ) = 500 from rfl, this, ← pow_mul]
  have hp2000 : (0 : ℝ) < 10 ^ (2000 : ℕ) := by positivity
  have key : (501 : ℝ) * 10 ^ (2000 : ℕ) * 200000 < 10 ^ (3000 : ℕ) := by
    have e : (10 : ℝ) ^ (3000 : ℕ) = 10 ^ (2000 : ℕ) * 10 ^ (1000 : ℕ) := by
      rw [← pow_add]
    rw [e]
    have hs : (501 : ℝ) * 200000 < 10 ^ (1000 : ℕ) := by
      have h9 : (501 : ℝ) * 200000 < 10 ^ (9 : ℕ) := by norm_num
      have h10 : (10 : ℝ) ^ (9 : ℕ) ≤ 10 ^ (1000 : ℕ) :=
        pow_le_pow_right (by norm_num) (by norm_num)
      linarith
    nlinarith
  rw [hcast, hpow, zero_add]
  have h5 : Real.exp (-10000) * 501 * 10 ^ (2000 : ℕ) ≤
      ((10 : ℝ) ^ (3000 : ℕ))⁻¹ * 501 * 10 ^ (2000 : ℕ) := by
    have := mul_le_mul_of_nonneg_right h4
      (by positivity : (0 : ℝ) ≤ 501 * 10 ^ (2000 : ℕ))
    calc Real.exp (-10000) * 501 * 10 ^ (2000 : ℕ) =
        Real.exp (-10000) * (501 * 10 ^ (2000 : ℕ)) := by ring
      _ ≤ ((10 : ℝ) ^ (3000 : ℕ))⁻¹ * (501 * 10 ^ (2000 : ℕ)) := this
      _ = ((10 : ℝ) ^ (3000 : ℕ))⁻¹ * 501 * 10 ^ (2000 : ℕ) := by ring
  have h6 : ((10 : ℝ) ^ (3000 : ℕ))⁻¹ * 501 * 10 ^ (2000 : ℕ) < 1 / 200000 := by
    rw [mul_assoc, inv_mul_lt_iff hp3000]
    nlinarith
  linarith

/-- **C3, counterexample to the original claim.**  For `λ = 10000` the
500-term cap is hit while the cumulative mass is still (far) below the
rounding grain, so every table entry — the final one included — is `0`; the
`min(·, 1.0)` clamp never raises it to `1.0`. -/
theorem poisson_final_entry_not_one :
    (buildPoissonCDF 10000).cpCum ≠ [] ∧
    (buildPoissonCDF 10000).cpCum.getLast? ≠ some 1 := by
  have hzero : ∀ x ∈ (cdfLoop 10000 501 (Real.exp (-10000)) 0 0).1, x = 0 :=
    cdfLoop_all_zero 10000 (by norm_num) 501 0 (Real.exp (-10000)) 0 (by norm_num)
      (Real.exp_pos _).le le_rfl exp_neg_bound_10000
  have hne : (cdfLoop 10000 501 (Real.exp (-10000)) 0 0).1 ≠ [] := by
    rw [show (501 : ℕ) = 500 + 1 from rfl, cdfLoop]
    dsimp only
    split_ifs <;> simp
  have hclamp : clampLast (cdfLoop 10000 501 (Real.exp (-10000)) 0 0).1 =
      (cdfLoop 10000 501 (Real.exp (-10000)) 0 0).1 :=
    clampLast_eq_of_le_one _ fun x hx => by rw [hzero x hx]; norm_num
  constructor
  · simp only [buildPoissonCDF]
    rw [hclamp]
    exact hne
  · simp only [buildPoissonCDF]
    rw [hclamp]
    intro hcontra
    have hmem : (1 : ℝ) ∈ (cdfLoop 10000 501 (Real.exp (-10000)) 0 0).1 :=
      List.mem_of_getLast?_eq_some hcontra
    have := hzero 1 hmem
    norm_num at this

theorem priorityFold_mem (priority : ℕ → ℤ) (l : List ℕ) (init : ℕ) :
    l.foldl (fun best cur => if priority cur < priority best then cur else best) init ∈
      init :: l := by
  induction l generalizing init with
  | nil => simp
  | cons y ys ih =>
      simp only [List.foldl_cons]
      rcases List.mem_cons.mp (ih (if priority y < priority init then y else init)) with h | h
      · by_cases hc : priority y < priority init
        · rw [if_pos hc] at h ⊢
          rw [h]
          simp
        · rw [if_neg hc] at h ⊢
          rw [h]
          simp
      · simp [h]

theorem chooseCustomer_mem (usePriority : Bool) (priority : ℕ → ℤ) (pool : List ℕ)
    (h : pool ≠ []) : chooseCustomer usePriority priority pool ∈ pool := by
  match pool, h with
  | x :: xs, _ =>
    cases usePriority with
    | false =>
        rw [chooseCustomer_false_cons]
        exact natList_foldl_min_mem xs x
    | true =>
        rw [chooseCustomer_true_cons]
        exact priorityFold_mem priority xs x

theorem chunkSum_append (l : List Chunk) (c : Chunk) (i : ℕ) :
    chunkSum (l ++ [c]) i =
      chunkSum l i + (if c.cust = i then c.stop - c.start else 0) := by
  unfold chunkSum
  rw [List.filter_append]
  by_cases h : c.cust = i
  · simp [h]
  · simp [List.filter_cons, h]

theorem totalChunkSum_append (l : List Chunk) (c : Chunk) :
    totalChunkSum (l ++ [c]) = totalChunkSum l + (c.stop - c.start) := by
  unfold totalChunkSum
  simp

/-- The single-server loop invariant. -/
structure SInv (inp : SimInput) (st : SState) : Prop where
  t_nonneg : 0 ≤ st.t
  served_rem : ∀ i < inp.n, st.served i = true → st.remaining i = 0
  unserved_rem : ∀ i < inp.n, st.served i = false → 1 ≤ st.remaining i
  served_end : ∀ i < inp.n, st.served i = true → 1 ≤ st.sEnd i
  end_le : ∀ i < inp.n, st.sEnd i ≤ st.t
  served_start : ∀ i < inp.n, st.served i = true → st.sStart i ≠ -1
  start_le : ∀ i < inp.n, st.sStart i ≠ -1 → st.sStart i ≤ st.t
  acct : ∀ i < inp.n, chunkSum st.chunks i + st.remaining i = inp.service i
  cust_lt : ∀ c ∈ st.chunks, c.cust < inp.n
  head_start : ∀ c, st.chunks.head? = some c → st.sStart c.cust = c.start
  start_ge_head : ∀ i < inp.n, st.sStart i ≠ -1 →
    ∀ c, st.chunks.head? = some c → c.start ≤ st.sStart i
  span : ∀ c, st.chunks.head? = some c → totalChunkSum st.chunks ≤ st.t - c.start
  no_chunks : st.chunks = [] → ∀ i < inp.n, st.sStart i = -1
  chunk_start_nonneg : ∀ c ∈ st.chunks, 0 ≤ c.start
  last_end : (∀ i < inp.n, st.served i = true) →
    inp.n = 0 ∨ ∃ i < inp.n, st.sEnd i = st.t

/-- Termination measure: remaining work (doubled) plus the number of waiting
arrivals still in the future. -/
def sMeasure (inp : SimInput) (st : SState) : ℕ :=
  2 * (∑ i ∈ Finset.range inp.n,
        if st.served i = true then 0 else (st.remaining i).toNat) +
    ((Finset.range inp.n).filter fun i =>
      st.served i = false ∧ st.t < inp.arrival i).card

theorem sInit_inv (inp : SimInput) (hsvc : ∀ i < inp.n, 1 ≤ inp.service i) :
    SInv inp (sInit inp) where
  t_nonneg := le_refl 0
  served_rem := fun i _ h => by simp [sInit] at h
  unserved_rem := fun i hi _ => hsvc i hi
  served_end := fun i _ h => by simp [sInit] at h
  end_le := fun _ _ => le_refl 0
  served_start := fun i _ h => by simp [sInit] at h
  start_le := fun _ _ h => absurd rfl h
  acct := fun i _ => by simp [sInit, chunkSum]
  cust_lt := fun c hc => absurd hc (List.not_mem_nil c)
  head_start := fun c hc => by simp [sInit] at hc
  start_ge_head := fun _ _ h => absurd rfl h
  span := fun c hc => by simp [sInit] at hc
  no_chunks := fun _ _ _ => rfl
  chunk_start_nonneg := fun c hc => absurd hc (List.not_mem_nil c)
  last_end := fun h => by
    rcases Nat.eq_zero_or_pos inp.n with h0 | h0
    · exact Or.inl h0
    · exact absurd (h 0 h0) (by simp [sInit])

theorem waitingPoolS_empty_iff (inp : SimInput) (st : SState) :
    (waitingPoolS inp st).isEmpty = true ↔
      ∀ i < inp.n, st.served i = false → st.t < inp.arrival i := by
  rw [List.isEmpty_iff, waitingPoolS, List.filter_eq_nil_iff]
  constructor
  · intro h i hi hs
    have := h i (List.mem_range.mpr hi)
    simp only [Bool.and_eq_true, Bool.not_eq_true', decide_eq_true_eq, not_and] at this
    exact not_le.mp (this hs)
  · intro h i hi
    simp only [Bool.and_eq_true, Bool.not_eq_true', decide_eq_true_eq, not_and]
    intro hs
    exact not_le.mpr (h i (List.mem_range.mp hi) hs)

theorem nextArrivalS_spec (inp : SimInput) (st : SState)
    (hpe : (waitingPoolS inp st).isEmpty = true)
    (i0 : ℕ) (hi0n : i0 < inp.n) (hi0 : st.served i0 = false) :
    (∃ i < inp.n, st.served i = false ∧ inp.arrival i = nextArrivalS inp st) ∧
    st.t < nextArrivalS inp st := by
  have hmem : i0 ∈ (List.range inp.n).filter fun i => !st.served i := by
    rw [List.mem_filter, List.mem_range]
    exact ⟨hi0n, by simp [hi0]⟩
  have hne : (((List.range inp.n).filter fun i => !st.served i).map inp.arrival) ≠ [] := by
    simp only [ne_eq, List.map_eq_nil_iff]
    intro h
    rw [h] at hmem
    exact List.not_mem_nil _ hmem
  obtain ⟨m, hm⟩ := intList_min?_isSome hne
  obtain ⟨hmmem, -⟩ := intList_min?_spec hm
  obtain ⟨i, hifilter, hieq⟩ := List.mem_map.mp hmmem
  rw [List.mem_filter, List.mem_range] at hifilter
  have hisrv : st.served i = false := by
    have := hifilter.2
    simpa using this
  have hval : nextArrivalS inp st = m := by
    rw [nextArrivalS, hm, Option.getD_some]
  refine ⟨⟨i, hifilter.1, hisrv, by rw [hval, hieq]⟩, ?_⟩
  rw [hval, ← hieq]
  exact (waitingPoolS_empty_iff inp st).mp hpe i hifilter.1 hisrv

theorem sstep_jump_preserves (inp : SimInput)
    (harr : ∀ i < inp.n, 0 ≤ inp.arrival i) (st : SState) (hinv : SInv inp st)
    (hpe : (waitingPoolS inp st).isEmpty = true)
    (i0 : ℕ) (hi0n : i0 < inp.n) (hi0 : st.served i0 = false) :
    SInv inp { st with t := nextArrivalS inp st } ∧
    sMeasure inp { st with t := nextArrivalS inp st } < sMeasure inp st := by
  obtain ⟨⟨i, hin, hisrv, hieq⟩, htlt⟩ := nextArrivalS_spec inp st hpe i0 hi0n hi0
  have ht0 : 0 ≤ nextArrivalS inp st := by
    rw [← hieq]
    exact harr i hin
  constructor
  · exact {
      t_nonneg := ht0
      served_rem := hinv.served_rem
      unserved_rem := hinv.unserved_rem
      served_end := hinv.served_end
      end_le := fun j hj => le_trans (hinv.end_le j hj) htlt.le
      served_start := hinv.served_start
      start_le := fun j hj h => le_trans (hinv.start_le j hj h) htlt.le
      acct := hinv.acct
      cust_lt := hinv.cust_lt
      head_start := hinv.head_start
      start_ge_head := hinv.start_ge_head
      span := fun c hc => le_trans (hinv.span c hc) (by simp only []; linarith)
      no_chunks := hinv.no_chunks
      chunk_start_nonneg := hinv.chunk_start_nonneg
      last_end := fun h => absurd (h i0 hi0n) (by rw [hi0]; simp) }
  · unfold sMeasure
    simp only []
    have hsub : ((Finset.range inp.n).filter fun j =>
        st.served j = false ∧ nextArrivalS inp st < inp.arrival j) ⊂
        ((Finset.range inp.n).filter fun j =>
          st.served j = false ∧ st.t < inp.arrival j) := by
      rw [Finset.ssubset_iff_of_subset]
      · exact ⟨i, by
          rw [Finset.mem_filter, Finset.mem_range]
          exact ⟨hin, hisrv, by rw [hieq]; exact htlt⟩, by
          rw [Finset.mem_filter]
          rintro ⟨-, -, hlt⟩
          rw [hieq] at hlt
          exact absurd hlt (lt_irrefl _)⟩
      · apply Finset.monotone_filter_right
        rintro j ⟨hjs, hjlt⟩
        exact ⟨hjs, lt_trans htlt hjlt⟩
    have := Finset.card_lt_card hsub
    omega

theorem timeToEventS_cases (inp : SimInput) (st : SState) (chosen : ℕ) :
    1 ≤ timeToEventS inp st chosen ∨
    timeToEventS inp st chosen = st.remaining chosen := by
  rw [timeToEventS]
  split_ifs with h
  · left
    obtain ⟨hne, -⟩ := h
    have hne' : (((List.range inp.n).filter fun i =>
        st.t < inp.arrival i && inp.priority i < inp.priority chosen).map inp.arrival) ≠ [] := by
      simpa using hne
    obtain ⟨m, hm⟩ := intList_min?_isSome hne'
    obtain ⟨hmm, -⟩ := intList_min?_spec hm
    obtain ⟨i, hif, hieq⟩ := List.mem_map.mp hmm
    rw [List.mem_filter] at hif
    have hlt : st.t < inp.arrival i := by
      have := hif.2
      simp only [Bool.and_eq_true, decide_eq_true_eq] at this
      exact this.1
    rw [hm, Option.getD_some, ← hieq]
    omega
  · right
    rfl

/-- `workDuration` of a single-server work step. -/
def workDur (inp : SimInput) (st : SState) (chosen : ℕ) : ℤ :=
  min (st.remaining chosen) (timeToEventS inp st chosen)

theorem sstepWork_eq (inp : SimInput) (st : SState) (chosen : ℕ) :
    sstepWork inp st chosen =
      { t := st.t + workDur inp st chosen
        remaining := Function.update st.remaining chosen
          (st.remaining chosen - workDur inp st chosen)
        sStart :=
          if st.sStart chosen = -1
          then Function.update st.sStart chosen st.t else st.sStart
        sEnd :=
          if st.remaining chosen - workDur inp st chosen = 0
          then Function.update st.sEnd chosen (st.t + workDur inp st chosen) else st.sEnd
        served :=
          if st.remaining chosen - workDur inp st chosen = 0
          then Function.update st.served chosen true else st.served
        chunks := st.chunks ++ [⟨chosen, st.t, st.t + workDur inp st chosen, none⟩] } := by
  rw [sstepWork, workDur]
  split_ifs with h1 h2 h2 <;> rfl

theorem sstepWork_preserves (inp : SimInput) (st : SState) (hinv : SInv inp st)
    (chosen : ℕ) (hcn : chosen < inp.n) (hcs : st.served chosen = false) :
    SInv inp (sstepWork inp st chosen) ∧
    sMeasure inp (sstepWork inp st chosen) < sMeasure inp st := by
  have hrem1 : 1 ≤ st.remaining chosen := hinv.unserved_rem chosen hcn hcs
  have hd1 : 1 ≤ workDur inp st chosen := by
    rcases timeToEventS_cases inp st chosen with h | h
    · exact le_min hrem1 h
    · rw [workDur, h, min_self]
      exact hrem1
  have hdle : workDur inp st chosen ≤ st.remaining chosen := min_le_left _ _
  have hrem0 : 0 ≤ st.remaining chosen - workDur inp st chosen := by omega
  have htlt : st.t < st.t + workDur inp st chosen := by omega
  rw [sstepWork_eq]
  constructor
  · constructor
    case t_nonneg =>
      have := hinv.t_nonneg
      simp only []
      omega
    case served_rem =>
      intro j hj hsj
      simp only [] at hsj ⊢
      by_cases hjc : j = chosen
      · subst hjc
        rw [Function.update_same]
        split_ifs at hsj with hcomp
        · exact hcomp
        · rw [hcs] at hsj
          cases hsj
      · rw [Function.update_noteq hjc]
        split_ifs at hsj with hcomp
        · rw [Function.update_noteq hjc] at hsj
          exact hinv.served_rem j hj hsj
        · exact hinv.served_rem j hj hsj
    case unserved_rem =>
      intro j hj hsj
      simp only [] at hsj ⊢
      by_cases hjc : j = chosen
      · subst hjc
        rw [Function.update_same]
        split_ifs at hsj with hcomp
        · rw [Function.update_same] at hsj
          cases hsj
        · omega
      · rw [Function.update_noteq hjc]
        split_ifs at hsj with hcomp
        · rw [Function.update_noteq hjc] at hsj
          exact hinv.unserved_rem j hj hsj
        · exact hinv.unserved_rem j hj hsj
    case served_end =>
      intro j hj hsj
      simp only [] at hsj ⊢
      split_ifs at hsj ⊢ with hcomp
      · by_cases hjc : j = chosen
        · subst hjc
          rw [Function.update_same]
          have := hinv.t_nonneg
          omega
        · rw [Function.update_noteq hjc]
          rw [Function.update_noteq hjc] at hsj
          exact hinv.served_end j hj hsj
      · exact hinv.served_end j hj hsj
    case end_le =>
      intro j hj
      simp only []
      split_ifs with hcomp
      · by_cases hjc : j = chosen
        · subst hjc
          rw [Function.update_same]
        · rw [Function.update_noteq hjc]
          exact le_trans (hinv.end_le j hj) htlt.le
      · exact le_trans (hinv.end_le j hj) htlt.le
    case served_start =>
      intro j hj hsj
      simp only [] at hsj ⊢
      by_cases hjc : j = chosen
      · subst hjc
        split_ifs with hstamp
        · rw [Function.update_same]
          have := hinv.t_nonneg
          omega
        · exact hstamp
      · split_ifs at hsj with hcomp
        · rw [Function.update_noteq hjc] at hsj
          have := hinv.served_start j hj hsj
          split_ifs with hstamp
          · rw [Function.update_noteq hjc]
            exact this
          · exact this
        · have := hinv.served_start j hj hsj
          split_ifs with hstamp
          · rw [Function.update_noteq hjc]
            exact this
          · exact this
    case start_le =>
      intro j hj hne
      simp only [] at hne ⊢
      by_cases hjc : j = chosen
      · subst hjc
        split_ifs with hstamp
        · rw [Function.update_same]
          omega
        · exact le_trans (hinv.start_le j hj hstamp) htlt.le
      · split_ifs at hne ⊢ with hstamp
        · rw [Function.update_noteq hjc] at hne ⊢
          exact le_trans (hinv.start_le j hj hne) htlt.le
        · exact le_trans (hinv.start_le j hj hne) htlt.le
    case acct =>
      intro j hj
      simp only []
      rw [chunkSum_append]
      dsimp only
      by_cases hjc : j = chosen
      · subst hjc
        rw [Function.update_same, if_pos rfl]
        have := hinv.acct j hj
        omega
      · rw [Function.update_noteq hjc, if_neg (Ne.symm hjc)]
        have := hinv.acct j hj
        omega
    case cust_lt =>
      intro c hc
      simp only [] at hc
      rcases List.mem_append.mp hc with h | h
      · exact hinv.cust_lt c h
      · rw [List.mem_singleton] at h
        rw [h]
        exact hcn
    case head_start =>
      intro c hc
      simp only [] at hc ⊢
      cases hch : st.chunks with
      | nil =>
          rw [hch, List.nil_append, List.head?_cons, Option.some.injEq] at hc
          rw [← hc]
          have hstamp : st.sStart chosen = -1 := hinv.no_chunks hch chosen hcn
          rw [if_pos hstamp]
          dsimp only
          rw [Function.update_same]
      | cons c0 rest =>
          rw [hch, List.cons_append, List.head?_cons, Option.some.injEq] at hc
          have hmem : c0 ∈ st.chunks := by
            rw [hch]
            exact List.mem_cons_self _ _
          have hh : st.sStart c0.cust = c0.start :=
            hinv.head_start c0 (by rw [hch]; rfl)
          rw [← hc]
          split_ifs with hstamp
          · by_cases hc0 : c0.cust = chosen
            · rw [hc0] at hh
              have := hinv.chunk_start_nonneg c0 hmem
              rw [hstamp] at hh
              omega
            · rw [Function.update_noteq hc0]
              exact hh
          · exact hh
    case start_ge_head =>
      intro j hj hne c hc
      simp only [] at hne hc ⊢
      cases hch : st.chunks with
      | nil =>
          rw [hch, List.nil_append, List.head?_cons, Option.some.injEq] at hc
          by_cases hjc : j = chosen
          · subst hjc
            have hstamp : st.sStart j = -1 := hinv.no_chunks hch j hj
            rw [if_pos hstamp] at hne ⊢
            rw [Function.update_same, ← hc]
          · have hstamp' : st.sStart j = -1 := hinv.no_chunks hch j hj
            split_ifs at hne with hstamp
            · rw [Function.update_noteq hjc] at hne
              exact absurd hstamp' hne
            · exact absurd hstamp' hne
      | cons c0 rest =>
          rw [hch, List.cons_append, List.head?_cons, Option.some.injEq] at hc
          have hc0h : st.chunks.head? = some c0 := by
            rw [hch]
            rfl
          have hc0mem : c0 ∈ st.chunks := by
            rw [hch]
            exact List.mem_cons_self _ _
          rw [← hc]
          by_cases hjc : j = chosen
          · subst hjc
            split_ifs at hne ⊢ with hstamp
            · rw [Function.update_same]
              have hc0n : c0.cust < inp.n := hinv.cust_lt c0 hc0mem
              have hstarted : st.sStart c0.cust ≠ -1 := by
                rw [hinv.head_start c0 hc0h]
                have := hinv.chunk_start_nonneg c0 hc0mem
                omega
              have := hinv.start_le c0.cust hc0n hstarted
              rw [hinv.head_start c0 hc0h] at this
              exact this
            · exact hinv.start_ge_head j hj hne c0 hc0h
          · split_ifs at hne ⊢ with hstamp
            · rw [Function.update_noteq hjc] at hne ⊢
              exact hinv.start_ge_head j hj hne c0 hc0h
            · exact hinv.start_ge_head j hj hne c0 hc0h
    case span =>
      intro c hc
      simp only [] at hc ⊢
      rw [totalChunkSum_append]
      try dsimp only
      cases hch : st.chunks with
      | nil =>
          rw [hch, List.nil_append, List.head?_cons, Option.some.injEq] at hc
          rw [← hc]
          simp [totalChunkSum]
      | cons c0 rest =>
          rw [hch, List.cons_append, List.head?_cons, Option.some.injEq] at hc
          have hc0h : st.chunks.head? = some c0 := by
            rw [hch]
            rfl
          have hsp := hinv.span c0 hc0h
          rw [hch] at hsp
          rw [← hc]
          try dsimp only
          omega
    case no_chunks =>
      intro h
      simp only [] at h
      exact absurd h (by simp)
    case chunk_start_nonneg =>
      intro c hc
      simp only [] at hc
      rcases List.mem_append.mp hc with h | h
      · exact hinv.chunk_start_nonneg c h
      · rw [List.mem_singleton] at h
        rw [h]
        exact hinv.t_nonneg
    case last_end =>
      intro h
      simp only [] at h ⊢
      split_ifs at h ⊢ with hcomp
      · right
        exact ⟨chosen, hcn, by rw [Function.update_same]⟩
      · exact absurd (h chosen hcn) (by rw [hcs]; simp)
  · simp only [sMeasure]
    by_cases hcomp : st.remaining chosen - workDur inp st chosen = 0
    · rw [if_pos hcomp, if_pos hcomp]
      have hsum : (∑ i ∈ Finset.range inp.n,
          if Function.update st.served chosen true i = true then 0
          else ((Function.update st.remaining chosen
            (st.remaining chosen - workDur inp st chosen)) i).toNat) <
          ∑ i ∈ Finset.range inp.n,
            if st.served i = true then 0 else (st.remaining i).toNat := by
        apply Finset.sum_lt_sum
        · intro i _
          by_cases hic : i = chosen
          · subst hic
            rw [Function.update_same, if_pos rfl]
            exact Nat.zero_le _
          · rw [Function.update_noteq hic, Function.update_noteq hic]
        · refine ⟨chosen, Finset.mem_range.mpr hcn, ?_⟩
          rw [Function.update_same, if_pos rfl, hcs, if_neg (by simp)]
          omega
      have hcard : (((Finset.range inp.n).filter fun j =>
          Function.update st.served chosen true j = false ∧
          st.t + workDur inp st chosen < inp.arrival j).card) ≤
          (((Finset.range inp.n).filter fun j =>
            st.served j = false ∧ st.t < inp.arrival j).card) := by
        apply Finset.card_le_card
        apply Finset.monotone_filter_right
        rintro j ⟨hj1, hj2⟩
        refine ⟨?_, lt_trans htlt hj2⟩
        by_cases hjc : j = chosen
        · subst hjc
          rw [Function.update_same] at hj1
          cases hj1
        · rw [Function.update_noteq hjc] at hj1
          exact hj1
      omega
    · rw [if_neg hcomp, if_neg hcomp]
      have hsum : (∑ i ∈ Finset.range inp.n,
          if st.served i = true then 0
          else ((Function.update st.remaining chosen
            (st.remaining chosen - workDur inp st chosen)) i).toNat) <
          ∑ i ∈ Finset.range inp.n,
            if st.served i = true then 0 else (st.remaining i).toNat := by
        apply Finset.sum_lt_sum
        · intro i _
          by_cases hic : i = chosen
          · subst hic
            rw [hcs, Function.update_same]
            simp only [show (false = true) = False by simp, if_false]
            omega
          · rw [Function.update_noteq hic]
        · refine ⟨chosen, Finset.mem_range.mpr hcn, ?_⟩
          rw [hcs, Function.update_same]
          simp only [show (false = true) = False by simp, if_false]
          omega
      have hcard : (((Finset.range inp.n).filter fun j =>
          st.served j = false ∧
          st.t + workDur inp st chosen < inp.arrival j).card) ≤
          (((Finset.range inp.n).filter fun j =>
            st.served j = false ∧ st.t < inp.arrival j).card) := by
        apply Finset.card_le_card
        apply Finset.monotone_filter_right
        rintro j ⟨hj1, hj2⟩
        exact ⟨hj1, lt_trans htlt hj2⟩
      omega

theorem intList_max?_spec {l : List ℤ} {a : ℤ} (h : l.max? = some a) :
    a ∈ l ∧ ∀ b ∈ l, b ≤ a :=
  ⟨List.max?_mem (fun _ _ => max_choice _ _) h,
   fun b hb => (List.max?_le_iff (fun _ _ _ => max_le_iff) h).mp le_rfl b hb⟩

theorem intList_max?_isSome {l : List ℤ} (h : l ≠ []) : ∃ a, l.max? = some a := by
  cases hm : l.max? with
  | none => exact absurd (List.max?_eq_none_iff.mp hm) h
  | some a => exact ⟨a, rfl⟩

theorem sstep_preserves (inp : SimInput)
    (harr : ∀ i < inp.n, 0 ≤ inp.arrival i)
    (st : SState) (hinv : SInv inp st) (hns : allServedS inp st = false) :
    SInv inp (sstep inp st) ∧ sMeasure inp (sstep inp st) < sMeasure inp st := by
  obtain ⟨i0, hi0n, hi0⟩ : ∃ i, i < inp.n ∧ st.served i = false := by
    rw [allServedS, List.all_eq_false] at hns
    obtain ⟨i, hir, hip⟩ := hns
    exact ⟨i, List.mem_range.mp hir, by simpa using hip⟩
  simp only [sstep]
  by_cases hpe : (waitingPoolS inp st).isEmpty
  · rw [if_pos hpe]
    exact sstep_jump_preserves inp harr st hinv hpe i0 hi0n hi0
  · rw [if_neg hpe]
    have hpne : waitingPoolS inp st ≠ [] := by
      rwa [ne_eq, ← List.isEmpty_iff]
    have hmem := chooseCustomer_mem inp.usePriority inp.priority _ hpne
    rw [waitingPoolS, List.mem_filter, List.mem_range] at hmem
    obtain ⟨hcn, hpred⟩ := hmem
    have hcs : st.served (chooseCustomer inp.usePriority inp.priority
        (waitingPoolS inp st)) = false := by
      simp only [Bool.and_eq_true, Bool.not_eq_true', decide_eq_true_eq] at hpred
      exact hpred.1
    exact sstepWork_preserves inp st hinv _ hcn hcs

theorem srun_invariant (inp : SimInput)
    (harr : ∀ i < inp.n, 0 ≤ inp.arrival i) :
    ∀ (fuel : ℕ) (st : SState), SInv inp st → sMeasure inp st < fuel →
      allServedS inp (srun inp fuel st) = true ∧ SInv inp (srun inp fuel st) := by
  intro fuel
  induction fuel with
  | zero =>
      intro st _ h
      exact absurd h (Nat.not_lt_zero _)
  | succ fuel ih =>
      intro st hinv hm
      rw [srun]
      by_cases hall : allServedS inp st = true
      · rw [if_pos hall]
        exact ⟨hall, hinv⟩
      · rw [if_neg hall]
        have hns : allServedS inp st = false := by
          cases h : allServedS inp st
          · rfl
          · exact absurd h hall
        obtain ⟨hinv', hm'⟩ := sstep_preserves inp harr st hinv hns
        exact ih (sstep inp st) hinv' (by omega)

theorem singleSimFinal_spec (inp : SimInput)
    (hsvc : ∀ i < inp.n, 1 ≤ inp.service i)
    (harr : ∀ i < inp.n, 0 ≤ inp.arrival i) :
    allServedS inp (singleSimFinal inp) = true ∧ SInv inp (singleSimFinal inp) := by
  apply srun_invariant inp harr (sFuel inp) (sInit inp) (sInit_inv inp hsvc)
  rw [sMeasure, sFuel, sInit]
  simp only []
  have h1 : (∑ i ∈ Finset.range inp.n,
      if (false : Bool) = true then 0 else (inp.service i).toNat) =
      ∑ i ∈ Finset.range inp.n, (inp.service i).toNat := by
    apply Finset.sum_congr rfl
    intro i _
    simp
  rw [h1]
  have h2 := Finset.card_filter_le (Finset.range inp.n)
    (fun i => True ∧ (0 : ℤ) < inp.arrival i)
  rw [Finset.card_range] at h2
  omega

theorem chunkSum_cons (c : Chunk) (cs : List Chunk) (i : ℕ) :
    chunkSum (c :: cs) i =
      (if c.cust = i then c.stop - c.start else 0) + chunkSum cs i := by
  unfold chunkSum
  rw [List.filter_cons]
  by_cases h : c.cust = i <;> simp [h]

theorem totalChunkSum_eq_sum (chunks : List Chunk) (n : ℕ)
    (h : ∀ c ∈ chunks, c.cust < n) :
    totalChunkSum chunks = ∑ i ∈ Finset.range n, chunkSum chunks i := by
  induction chunks with
  | nil => simp [totalChunkSum, chunkSum]
  | cons c cs ih =>
      have hc : c.cust < n := h c (List.mem_cons_self _ _)
      have ih' := ih fun d hd => h d (List.mem_cons.mpr (Or.inr hd))
      have hto : totalChunkSum (c :: cs) = (c.stop - c.start) + totalChunkSum cs := by
        unfold totalChunkSum
        simp
      rw [hto, ih', Finset.sum_congr rfl fun i _ => chunkSum_cons c cs i,
        Finset.sum_add_distrib]
      congr 1
      rw [Finset.sum_ite_eq (Finset.range n) c.cust fun _ => c.stop - c.start,
        if_pos (Finset.mem_range.mpr hc)]

theorem singleUtilization_in_range (inp : SimInput) (hn : 1 ≤ inp.n)
    (hsvc : ∀ i < inp.n, 1 ≤ inp.service i)
    (harr : ∀ i < inp.n, 0 ≤ inp.arrival i) :
    0 ≤ singleUtilization inp ∧ singleUtilization inp ≤ 100 := by
  obtain ⟨hall, hinv⟩ := singleSimFinal_spec inp hsvc harr
  rw [singleUtilization]
  set st := singleSimFinal inp with hst
  have hallp : ∀ i < inp.n, st.served i = true := by
    rw [allServedS, List.all_eq_true] at hall
    exact fun i hi => hall i (List.mem_range.mpr hi)
  have hstamp0 : st.sStart 0 ≠ -1 := hinv.served_start 0 hn (hallp 0 hn)
  have hchne : st.chunks ≠ [] := fun h => hstamp0 (hinv.no_chunks h 0 hn)
  obtain ⟨c0, hc0⟩ : ∃ c0, st.chunks.head? = some c0 := by
    cases hch : st.chunks with
    | nil => exact absurd hch hchne
    | cons a l => exact ⟨a, rfl⟩
  have hc0mem : c0 ∈ st.chunks := List.mem_of_mem_head? hc0
  have hmax : maxEndS inp st = st.t := by
    obtain ⟨iT, hiTn, hiT⟩ : ∃ i < inp.n, st.sEnd i = st.t := by
      rcases hinv.last_end hallp with h0 | h
      · omega
      · exact h
    have hne : ((List.range inp.n).map st.sEnd) ≠ [] := by
      simp only [ne_eq, List.map_eq_nil_iff, List.range_eq_nil]
      omega
    obtain ⟨m, hm⟩ := intList_max?_isSome hne
    obtain ⟨hmm, hmax'⟩ := intList_max?_spec hm
    rw [maxEndS, hm, Option.getD_some]
    obtain ⟨j, hj, hjeq⟩ := List.mem_map.mp hmm
    have h1 : m ≤ st.t := by
      rw [← hjeq]
      exact hinv.end_le j (List.mem_range.mp hj)
    have h2 : st.t ≤ m := by
      apply hmax' st.t
      exact List.mem_map.mpr ⟨iT, List.mem_range.mpr hiTn, hiT⟩
    omega
  have hmin : minStartS inp st = c0.start := by
    have hcust := hinv.cust_lt c0 hc0mem
    have hcstart := hinv.head_start c0 hc0
    have hne : ((List.range inp.n).map st.sStart) ≠ [] := by
      simp only [ne_eq, List.map_eq_nil_iff, List.range_eq_nil]
      omega
    obtain ⟨m, hm⟩ := intList_min?_isSome hne
    obtain ⟨hmm, hminle⟩ := intList_min?_spec hm
    rw [minStartS, hm, Option.getD_some]
    obtain ⟨j, hj, hjeq⟩ := List.mem_map.mp hmm
    have hj' := List.mem_range.mp hj
    have hjstamp : st.sStart j ≠ -1 := hinv.served_start j hj' (hallp j hj')
    have h1 : c0.start ≤ m := by
      rw [← hjeq]
      exact hinv.start_ge_head j hj' hjstamp c0 hc0
    have h2 : m ≤ c0.start := by
      have := hminle (st.sStart c0.cust)
        (List.mem_map.mpr ⟨c0.cust, List.mem_range.mpr hcust, rfl⟩)
      rw [hcstart] at this
      exact this
    omega
  have hbusy : (∑ i ∈ Finset.range inp.n, inp.service i) = totalChunkSum st.chunks := by
    rw [totalChunkSum_eq_sum st.chunks inp.n hinv.cust_lt]
    apply Finset.sum_congr rfl
    intro i hi
    have hi' := Finset.mem_range.mp hi
    have ha := hinv.acct i hi'
    have hz := hinv.served_rem i hi' (hallp i hi')
    omega
  have hspan := hinv.span c0 hc0
  have hbusy_pos : (1 : ℤ) ≤ ∑ i ∈ Finset.range inp.n, inp.service i := by
    have h1 : (∑ _i ∈ Finset.range inp.n, (1 : ℤ)) ≤
        ∑ i ∈ Finset.range inp.n, inp.service i :=
      Finset.sum_le_sum fun i hi => hsvc i (Finset.mem_range.mp hi)
    rw [Finset.sum_const, Finset.card_range] at h1
    simp only [nsmul_eq_mul, mul_one] at h1
    have : (1 : ℤ) ≤ (inp.n : ℤ) := by exact_mod_cast hn
    omega
  have htime : (∑ i ∈ Finset.range inp.n, inp.service i) ≤
      maxEndS inp st - minStartS inp st := by
    rw [hmax, hmin, hbusy]
    exact hspan
  have htpos : (0 : ℤ) < maxEndS inp st - minStartS inp st := by omega
  rw [if_pos htpos]
  have hcast1 : (0 : ℚ) < ((maxEndS inp st - minStartS inp st : ℤ) : ℚ) := by
    exact_mod_cast htpos
  have hcast2 : ((∑ i ∈ Finset.range inp.n, inp.service i : ℤ) : ℚ) ≤
      ((maxEndS inp st - minStartS inp st : ℤ) : ℚ) := by
    exact_mod_cast htime
  have hcast0 : (0 : ℚ) ≤ ((∑ i ∈ Finset.range inp.n, inp.service i : ℤ) : ℚ) := by
    have : (0 : ℤ) ≤ ∑ i ∈ Finset.range inp.n, inp.service i := by omega
    exact_mod_cast this
  constructor
  · positivity
  · have hdiv : ((∑ i ∈ Finset.range inp.n, inp.service i : ℤ) : ℚ) /
        ((maxEndS inp st - minStartS inp st : ℤ) : ℚ) ≤ 1 :=
      (div_le_one hcast1).mpr hcast2
    nlinarith

/-- Customer `c` currently occupies some server. -/
def OccM (inp : MultiInput) (st : MState) (c : ℕ) : Prop :=
  ∃ s < inp.servers, st.occ s = some c

/-- The multi-server loop invariant. -/
structure MInv (inp : MultiInput) (st : MState) : Prop where
  t_nonneg : 0 ≤ st.t
  served_rem : ∀ i < inp.n, st.served i = true → st.remaining i = 0
  unserved_rem : ∀ i < inp.n, st.served i = false → 1 ≤ st.remaining i
  served_end : ∀ i < inp.n, st.served i = true → 1 ≤ st.sEnd i
  served_arr : ∀ i < inp.n, st.served i = true → inp.arrival i ≤ st.t
  occ_cust : ∀ s < inp.servers, ∀ c, st.occ s = some c →
    c < inp.n ∧ st.served c = false ∧ inp.arrival c ≤ st.t ∧ st.lastCS c ≤ st.t
  occ_inj : ∀ s1 < inp.servers, ∀ s2 < inp.servers, ∀ c,
    st.occ s1 = some c → st.occ s2 = some c → s1 = s2
  acct_occ : ∀ i < inp.n, OccM inp st i →
    chunkSum st.chunks i + (st.t - st.lastCS i) + st.remaining i = inp.service i
  acct_free : ∀ i < inp.n, ¬OccM inp st i →
    chunkSum st.chunks i + st.remaining i = inp.service i

/-- Multi-server termination measure. -/
def mMeasure (inp : MultiInput) (st : MState) : ℕ :=
  2 * (∑ i ∈ Finset.range inp.n,
        if st.served i = true then 0 else (st.remaining i).toNat) +
    ((Finset.range inp.n).filter fun i =>
      st.served i = false ∧ st.t < inp.arrival i).card

theorem mInit_inv (inp : MultiInput) (hsvc : ∀ i < inp.n, 1 ≤ inp.service i) :
    MInv inp (mInit inp) where
  t_nonneg := le_refl 0
  served_rem := fun i _ h => by simp [mInit] at h
  unserved_rem := fun i hi _ => hsvc i hi
  served_end := fun i _ h => by simp [mInit] at h
  served_arr := fun i _ h => by simp [mInit] at h
  occ_cust := fun s _ c h => by simp [mInit] at h
  occ_inj := fun s1 _ s2 _ c h => by simp [mInit] at h
  acct_occ := fun i _ h => by
    obtain ⟨s, -, hs⟩ := h
    simp [mInit] at hs
  acct_free := fun i _ _ => by simp [mInit, chunkSum]

/-- Mid-phase invariant tying the state to the current waiting pool. -/
structure PoolInv (inp : MultiInput) (st : MState) (pool : List ℕ) : Prop where
  base : MInv inp st
  pool_mem : ∀ c ∈ pool, c < inp.n ∧ st.served c = false ∧ inp.arrival c ≤ st.t
  pool_nocc : ∀ c ∈ pool, ¬OccM inp st c
  pool_nodup : pool.Nodup
  pool_complete : ∀ i < inp.n, st.served i = false → inp.arrival i ≤ st.t →
    ¬OccM inp st i → i ∈ pool

theorem mPool_poolInv (inp : MultiInput) (st : MState) (hinv : MInv inp st) :
    PoolInv inp st (mPool inp st) where
  base := hinv
  pool_mem := fun c hc => by
    rw [mPool, List.mem_filter, List.mem_range] at hc
    obtain ⟨h1, h2⟩ := hc
    simp only [Bool.and_eq_true, Bool.not_eq_true', decide_eq_true_eq] at h2
    exact ⟨h1, h2.1.1, h2.1.2⟩
  pool_nocc := fun c hc => by
    rw [mPool, List.mem_filter, List.mem_range] at hc
    obtain ⟨h1, h2⟩ := hc
    simp only [Bool.and_eq_true, Bool.not_eq_true', decide_eq_true_eq] at h2
    rintro ⟨s, hs, hocc⟩
    have := h2.2
    rw [onServer] at this
    rw [List.any_eq_false] at this
    exact absurd (by simpa using hocc) (by simpa using this s (List.mem_range.mpr hs))
  pool_nodup := by
    rw [mPool]
    exact (List.nodup_range inp.n).filter _
  pool_complete := fun i hi hs ha hno => by
    rw [mPool, List.mem_filter, List.mem_range]
    refine ⟨hi, ?_⟩
    simp only [Bool.and_eq_true, Bool.not_eq_true', decide_eq_true_eq]
    refine ⟨⟨hs, ha⟩, ?_⟩
    rw [onServer]
    rw [List.any_eq_false]
    intro s hsm
    simp only [decide_eq_true_eq]
    intro hocc
    exact hno ⟨s, List.mem_range.mp hsm, hocc⟩

theorem assignServers_preserves (inp : MultiInput) (ss : List ℕ) :
    ∀ (st : MState) (pool : List ℕ), (∀ s ∈ ss, s < inp.servers) →
      PoolInv inp st pool →
      PoolInv inp (assignServers inp ss st pool).1 (assignServers inp ss st pool).2 ∧
      (assignServers inp ss st pool).1.t = st.t ∧
      (assignServers inp ss st pool).1.served = st.served ∧
      (assignServers inp ss st pool).1.remaining = st.remaining ∧
      (assignServers inp ss st pool).1.sEnd = st.sEnd ∧
      (assignServers inp ss st pool).1.chunks = st.chunks ∧
      (∀ s0, st.occ s0 ≠ none → (assignServers inp ss st pool).1.occ s0 = st.occ s0) := by
  induction ss with
  | nil =>
      intro st pool _ hpi
      exact ⟨hpi, rfl, rfl, rfl, rfl, rfl, fun _ _ => rfl⟩
  | cons s rest ih =>
      intro st pool hss hpi
      have hs : s < inp.servers := hss s (List.mem_cons_self _ _)
      have hrest : ∀ s0 ∈ rest, s0 < inp.servers :=
        fun s0 h0 => hss s0 (List.mem_cons.mpr (Or.inr h0))
      by_cases hc : st.occ s = none ∧ pool ≠ []
      · have hstep : assignServers inp (s :: rest) st pool =
            assignServers inp rest
              { st with
                occ := Function.update st.occ s
                  (some (chooseCustomer inp.usePriority inp.priority pool))
                sStart :=
                  if st.sStart (chooseCustomer inp.usePriority inp.priority pool) = -1
                  then Function.update st.sStart
                    (chooseCustomer inp.usePriority inp.priority pool) st.t
                  else st.sStart
                lastCS := Function.update st.lastCS
                  (chooseCustomer inp.usePriority inp.priority pool) st.t }
              (pool.erase (chooseCustomer inp.usePriority inp.priority pool)) := by
          simp only [assignServers]
          rw [if_pos hc]
        rw [hstep]
        set chosen := chooseCustomer inp.usePriority inp.priority pool with hchdef
        set st' : MState :=
          { st with
            occ := Function.update st.occ s (some chosen)
            sStart :=
              if st.sStart chosen = -1
              then Function.update st.sStart chosen st.t else st.sStart
            lastCS := Function.update st.lastCS chosen st.t } with hst'
        have hmem : chosen ∈ pool := chooseCustomer_mem _ _ _ hc.2
        obtain ⟨hcltn, hcsf, hcat⟩ := hpi.pool_mem chosen hmem
        have hcnocc := hpi.pool_nocc chosen hmem
        have hb := hpi.base
        have hoccsame : st'.occ s = some chosen := Function.update_same s _ st.occ
        have hoccother : ∀ s0, s0 ≠ s → st'.occ s0 = st.occ s0 :=
          fun s0 h0 => Function.update_noteq h0 _ st.occ
        have hlcso : ∀ c, c ≠ chosen → st'.lastCS c = st.lastCS c :=
          fun c h0 => Function.update_noteq h0 _ st.lastCS
        have hlcss : st'.lastCS chosen = st.t := Function.update_same chosen _ st.lastCS
        have hinv' : MInv inp st' :=
          { t_nonneg := hb.t_nonneg
            served_rem := hb.served_rem
            unserved_rem := hb.unserved_rem
            served_end := hb.served_end
            served_arr := hb.served_arr
            occ_cust := by
              intro s1 hs1 c hocc
              by_cases e : s1 = s
              · subst e
                rw [hoccsame] at hocc
                injection hocc with hcc
                subst hcc
                exact ⟨hcltn, hcsf, hcat, le_of_eq hlcss⟩
              · rw [hoccother s1 e] at hocc
                have h4 := hb.occ_cust s1 hs1 c hocc
                have hne : c ≠ chosen := fun he => hcnocc ⟨s1, hs1, he ▸ hocc⟩
                exact ⟨h4.1, h4.2.1, h4.2.2.1, by rw [hlcso c hne]; exact h4.2.2.2⟩
            occ_inj := by
              intro s1 hs1 s2 hs2 c h1 h2
              by_cases e1 : s1 = s <;> by_cases e2 : s2 = s
              · rw [e1, e2]
              · subst e1
                rw [hoccsame] at h1
                injection h1 with hcc
                rw [hoccother s2 e2] at h2
                exact absurd ⟨s2, hs2, hcc ▸ h2⟩ hcnocc
              · subst e2
                rw [hoccsame] at h2
                injection h2 with hcc
                rw [hoccother s1 e1] at h1
                exact absurd ⟨s1, hs1, hcc ▸ h1⟩ hcnocc
              · rw [hoccother s1 e1] at h1
                rw [hoccother s2 e2] at h2
                exact hb.occ_inj s1 hs1 s2 hs2 c h1 h2
            acct_occ := by
              intro i hi hocc'
              by_cases hic : i = chosen
              · subst hic
                have hfree := hb.acct_free chosen hi hcnocc
                show chunkSum st.chunks chosen + (st.t - st'.lastCS chosen) +
                  st.remaining chosen = inp.service chosen
                rw [hlcss]
                omega
              · have hocc0 : OccM inp st i := by
                  obtain ⟨s1, hs1, h1⟩ := hocc'
                  by_cases e : s1 = s
                  · subst e
                    rw [hoccsame] at h1
                    injection h1 with hcc
                    exact absurd hcc.symm hic
                  · rw [hoccother s1 e] at h1
                    exact ⟨s1, hs1, h1⟩
                have h5 := hb.acct_occ i hi hocc0
                show chunkSum st.chunks i + (st.t - st'.lastCS i) +
                  st.remaining i = inp.service i
                rw [hlcso i hic]
                exact h5
            acct_free := by
              intro i hi hno
              have hno0 : ¬OccM inp st i := by
                rintro ⟨s1, hs1, h1⟩
                by_cases e : s1 = s
                · subst e
                  rw [hc.1] at h1
                  exact Option.noConfusion h1
                · exact hno ⟨s1, hs1, by rw [hoccother s1 e]; exact h1⟩
              exact hb.acct_free i hi hno0 }
        have hpi' : PoolInv inp st' (pool.erase chosen) :=
          { base := hinv'
            pool_mem := fun c hcm => hpi.pool_mem c (List.mem_of_mem_erase hcm)
            pool_nocc := by
              intro c hcm
              have hcp := List.mem_of_mem_erase hcm
              have hcne : c ≠ chosen :=
                ((hpi.pool_nodup.mem_erase_iff).mp hcm).1
              rintro ⟨s1, hs1, h1⟩
              by_cases e : s1 = s
              · subst e
                rw [hoccsame] at h1
                injection h1 with hcc
                exact hcne hcc.symm
              · rw [hoccother s1 e] at h1
                exact hpi.pool_nocc c hcp ⟨s1, hs1, h1⟩
            pool_nodup := hpi.pool_nodup.erase chosen
            pool_complete := by
              intro i hi hsv ha hno
              have hine : i ≠ chosen := by
                intro he
                exact hno ⟨s, hs, he ▸ hoccsame⟩
              have hno0 : ¬OccM inp st i := by
                rintro ⟨s1, hs1, h1⟩
                by_cases e : s1 = s
                · subst e
                  rw [hc.1] at h1
                  exact Option.noConfusion h1
                · exact hno ⟨s1, hs1, by rw [hoccother s1 e]; exact h1⟩
              have hip : i ∈ pool := hpi.pool_complete i hi hsv ha hno0
              exact (hpi.pool_nodup.mem_erase_iff).mpr ⟨hine, hip⟩ }
        obtain ⟨a1, a2, a3, a4, a5, a6, a7⟩ := ih st' (pool.erase chosen) hrest hpi'
        refine ⟨a1, a2, a3, a4, a5, a6, ?_⟩
        intro s0 h0
        have hne0 : s0 ≠ s := by
          intro he
          rw [he, hc.1] at h0
          exact h0 rfl
        rw [a7 s0 (by rw [hoccother s0 hne0]; exact h0), hoccother s0 hne0]
      · have hstep : assignServers inp (s :: rest) st pool =
            assignServers inp rest st pool := by
          simp only [assignServers]
          rw [if_neg hc]
        rw [hstep]
        exact ih st pool hrest hpi

theorem preemptServers_preserves (inp : MultiInput) (ss : List ℕ) :
    ∀ (st : MState) (pool : List ℕ), (∀ s ∈ ss, s < inp.servers) →
      PoolInv inp st pool →
      PoolInv inp (preemptServers inp ss st pool).1 (preemptServers inp ss st pool).2 ∧
      (preemptServers inp ss st pool).1.t = st.t ∧
      (preemptServers inp ss st pool).1.served = st.served ∧
      (preemptServers inp ss st pool).1.remaining = st.remaining ∧
      (preemptServers inp ss st pool).1.sEnd = st.sEnd ∧
      (∀ s0, st.occ s0 ≠ none → (preemptServers inp ss st pool).1.occ s0 ≠ none) := by
  induction ss with
  | nil =>
      intro st pool _ hpi
      exact ⟨hpi, rfl, rfl, rfl, rfl, fun _ h => h⟩
  | cons s rest ih =>
      intro st pool hss hpi
      have hs : s < inp.servers := hss s (List.mem_cons_self _ _)
      have hrest : ∀ s0 ∈ rest, s0 < inp.servers :=
        fun s0 h0 => hss s0 (List.mem_cons.mpr (Or.inr h0))
      have hb := hpi.base
      cases hocc : st.occ s with
      | none =>
          have hstep : preemptServers inp (s :: rest) st pool =
              preemptServers inp rest st pool := by
            simp only [preemptServers, hocc]
          rw [hstep]
          obtain ⟨a1, a2, a3, a4, a5, a6⟩ := ih st pool hrest hpi
          exact ⟨a1, a2, a3, a4, a5, fun s0 h0 => a6 s0 h0⟩
      | some currCust =>
          by_cases hpne : pool ≠ []
          · by_cases hlt : inp.priority (chooseCustomer true inp.priority pool) <
                inp.priority currCust
            · have hstep : preemptServers inp (s :: rest) st pool =
                  preemptServers inp rest
                    { st with
                      chunks :=
                        if 0 < st.t - st.lastCS currCust
                        then st.chunks ++
                          [⟨currCust, st.lastCS currCust, st.t, some s⟩]
                        else st.chunks
                      occ := Function.update st.occ s
                        (some (chooseCustomer true inp.priority pool))
                      sStart :=
                        if st.sStart (chooseCustomer true inp.priority pool) = -1
                        then Function.update st.sStart
                          (chooseCustomer true inp.priority pool) st.t
                        else st.sStart
                      lastCS := Function.update st.lastCS
                        (chooseCustomer true inp.priority pool) st.t }
                    ((pool ++ [currCust]).erase
                      (chooseCustomer true inp.priority pool)) := by
                simp only [preemptServers, hocc]
                rw [if_pos hpne, if_pos hlt]
              rw [hstep]
              set best := chooseCustomer true inp.priority pool with hbdef
              set st' : MState :=
                { st with
                  chunks :=
                    if 0 < st.t - st.lastCS currCust
                    then st.chunks ++ [⟨currCust, st.lastCS currCust, st.t, some s⟩]
                    else st.chunks
                  occ := Function.update st.occ s (some best)
                  sStart :=
                    if st.sStart best = -1
                    then Function.update st.sStart best st.t else st.sStart
                  lastCS := Function.update st.lastCS best st.t } with hst'
              have hbmem : best ∈ pool := chooseCustomer_mem _ _ _ hpne
              obtain ⟨hbltn, hbsf, hbat⟩ := hpi.pool_mem best hbmem
              have hbnocc := hpi.pool_nocc best hbmem
              obtain ⟨hcltn, hcsf, hcat, hclcs⟩ := hb.occ_cust s hs currCust hocc
              have hbne : best ≠ currCust := fun he => hbnocc ⟨s, hs, he ▸ hocc⟩
              have hcurnp : currCust ∉ pool :=
                fun h => hpi.pool_nocc currCust h ⟨s, hs, hocc⟩
              have hnodup2 : (pool ++ [currCust]).Nodup := by
                rw [List.nodup_append]
                exact ⟨hpi.pool_nodup, List.nodup_singleton _,
                  fun a ha hb2 => hcurnp ((List.mem_singleton.mp hb2) ▸ ha)⟩
              have hoccsame : st'.occ s = some best := Function.update_same s _ st.occ
              have hoccother : ∀ s0, s0 ≠ s → st'.occ s0 = st.occ s0 :=
                fun s0 h0 => Function.update_noteq h0 _ st.occ
              have hlcso : ∀ c, c ≠ best → st'.lastCS c = st.lastCS c :=
                fun c h0 => Function.update_noteq h0 _ st.lastCS
              have hlcss : st'.lastCS best = st.t := Function.update_same best _ st.lastCS
              have hch : ∀ i, chunkSum st'.chunks i =
                  chunkSum st.chunks i +
                    (if currCust = i then st.t - st.lastCS currCust else 0) := by
                intro i
                show chunkSum
                  (if 0 < st.t - st.lastCS currCust
                   then st.chunks ++ [⟨currCust, st.lastCS currCust, st.t, some s⟩]
                   else st.chunks) i = _
                by_cases hd : 0 < st.t - st.lastCS currCust
                · rw [if_pos hd, chunkSum_append]
                · rw [if_neg hd]
                  by_cases hci : currCust = i
                  · rw [if_pos hci]
                    omega
                  · rw [if_neg hci]
                    omega
              have hinv' : MInv inp st' :=
                { t_nonneg := hb.t_nonneg
                  served_rem := hb.served_rem
                  unserved_rem := hb.unserved_rem
                  served_end := hb.served_end
                  served_arr := hb.served_arr
                  occ_cust := by
                    intro s1 hs1 c hocc1
                    by_cases e : s1 = s
                    · subst e
                      rw [hoccsame] at hocc1
                      injection hocc1 with hcc
                      subst hcc
                      exact ⟨hbltn, hbsf, hbat, le_of_eq hlcss⟩
                    · rw [hoccother s1 e] at hocc1
                      have h4 := hb.occ_cust s1 hs1 c hocc1
                      have hne : c ≠ best := fun he => hbnocc ⟨s1, hs1, he ▸ hocc1⟩
                      exact ⟨h4.1, h4.2.1, h4.2.2.1, by rw [hlcso c hne]; exact h4.2.2.2⟩
                  occ_inj := by
                    intro s1 hs1 s2 hs2 c h1 h2
                    by_cases e1 : s1 = s <;> by_cases e2 : s2 = s
                    · rw [e1, e2]
                    · subst e1
                      rw [hoccsame] at h1
                      injection h1 with hcc
                      rw [hoccother s2 e2] at h2
                      exact absurd ⟨s2, hs2, hcc ▸ h2⟩ hbnocc
                    · subst e2
                      rw [hoccsame] at h2
                      injection h2 with hcc
                      rw [hoccother s1 e1] at h1
                      exact absurd ⟨s1, hs1, hcc ▸ h1⟩ hbnocc
                    · rw [hoccother s1 e1] at h1
                      rw [hoccother s2 e2] at h2
                      exact hb.occ_inj s1 hs1 s2 hs2 c h1 h2
                  acct_occ := by
                    intro i hi hocc'
                    by_cases hib : i = best
                    · subst hib
                      have hfree := hb.acct_free best hi hbnocc
                      have hcs := hch best
                      rw [if_neg (fun he => hbne he.symm)] at hcs
                      show chunkSum st'.chunks best + (st.t - st'.lastCS best) +
                        st.remaining best = inp.service best
                      rw [hlcss, hcs]
                      omega
                    · obtain ⟨s1, hs1, h1⟩ := hocc'
                      have e : s1 ≠ s := by
                        intro he
                        rw [he, hoccsame] at h1
                        injection h1 with hcc
                        exact hib hcc.symm
                      rw [hoccother s1 e] at h1
                      have hic : i ≠ currCust := by
                        intro he
                        exact e (hb.occ_inj s1 hs1 s hs i h1 (he ▸ hocc))
                      have h5 := hb.acct_occ i hi ⟨s1, hs1, h1⟩
                      have hcs := hch i
                      rw [if_neg (fun he => hic (he.symm))] at hcs
                      show chunkSum st'.chunks i + (st.t - st'.lastCS i) +
                        st.remaining i = inp.service i
                      rw [hlcso i hib, hcs]
                      omega
                  acct_free := by
                    intro i hi hno
                    by_cases hic : i = currCust
                    · subst hic
                      have hoccd := hb.acct_occ i hi ⟨s, hs, hocc⟩
                      have hcs := hch i
                      rw [if_pos rfl] at hcs
                      show chunkSum st'.chunks i + st.remaining i = inp.service i
                      rw [hcs]
                      omega
                    · have hno0 : ¬OccM inp st i := by
                        rintro ⟨s1, hs1, h1⟩
                        by_cases e : s1 = s
                        · rw [e, hocc] at h1
                          injection h1 with hcc
                          exact hic hcc.symm
                        · exact hno ⟨s1, hs1, by rw [hoccother s1 e]; exact h1⟩
                      have h5 := hb.acct_free i hi hno0
                      have hcs := hch i
                      rw [if_neg (fun he => hic (he.symm))] at hcs
                      show chunkSum st'.chunks i + st.remaining i = inp.service i
                      rw [hcs]
                      omega }
              have hpi' : PoolInv inp st' ((pool ++ [currCust]).erase best) :=
                { base := hinv'
                  pool_mem := by
                    intro c hcm
                    have hcp := List.mem_of_mem_erase hcm
                    rcases List.mem_append.mp hcp with h | h
                    · exact hpi.pool_mem c h
                    · rw [List.mem_singleton.mp h]
                      exact ⟨hcltn, hcsf, hcat⟩
                  pool_nocc := by
                    intro c hcm
                    have hcp := List.mem_of_mem_erase hcm
                    have hcne : c ≠ best := (hnodup2.mem_erase_iff.mp hcm).1
                    rintro ⟨s1, hs1, h1⟩
                    by_cases e : s1 = s
                    · subst e
                      rw [hoccsame] at h1
                      injection h1 with hcc
                      exact hcne hcc.symm
                    · rw [hoccother s1 e] at h1
                      rcases List.mem_append.mp hcp with h | h
                      · exact hpi.pool_nocc c h ⟨s1, hs1, h1⟩
                      · rw [List.mem_singleton.mp h] at h1
                        exact e (hb.occ_inj s1 hs1 s hs currCust h1 hocc)
                  pool_nodup := hnodup2.erase best
                  pool_complete := by
                    intro i hi hsv ha hno
                    have hine : i ≠ best := by
                      intro he
                      exact hno ⟨s, hs, he ▸ hoccsame⟩
                    by_cases hic : i = currCust
                    · subst hic
                      exact hnodup2.mem_erase_iff.mpr
                        ⟨hine, List.mem_append.mpr (Or.inr (List.mem_singleton.mpr rfl))⟩
                    · have hno0 : ¬OccM inp st i := by
                        rintro ⟨s1, hs1, h1⟩
                        by_cases e : s1 = s
                        · rw [e, hocc] at h1
                          injection h1 with hcc
                          exact hic hcc.symm
                        · exact hno ⟨s1, hs1, by rw [hoccother s1 e]; exact h1⟩
                      have hip : i ∈ pool := hpi.pool_complete i hi hsv ha hno0
                      exact hnodup2.mem_erase_iff.mpr
                        ⟨hine, List.mem_append.mpr (Or.inl hip)⟩ }
              obtain ⟨a1, a2, a3, a4, a5, a6⟩ :=
                ih st' ((pool ++ [currCust]).erase best) hrest hpi'
              refine ⟨a1, a2, a3, a4, a5, ?_⟩
              intro s0 h0
              by_cases e : s0 = s
              · subst e
                exact a6 s0 (by rw [hoccsame]; exact fun h => Option.noConfusion h)
              · exact a6 s0 (by rw [hoccother s0 e]; exact h0)
            · have hstep : preemptServers inp (s :: rest) st pool =
                  preemptServers inp rest st pool := by
                simp only [preemptServers, hocc]
                rw [if_pos hpne, if_neg hlt]
              rw [hstep]
              exact ih st pool hrest hpi
          · have hstep : preemptServers inp (s :: rest) st pool =
                  preemptServers inp rest st pool := by
              simp only [preemptServers, hocc]
              rw [if_neg hpne]
            rw [hstep]
            exact ih st pool hrest hpi

theorem completeWork_noocc (inp : MultiInput) (nextT : ℤ) (ss : List ℕ) :
    ∀ st : MState, (∀ s ∈ ss, st.occ s = none) →
      completeWork inp nextT ss st = st := by
  induction ss with
  | nil => intro st _; rfl
  | cons s rest ih =>
      intro st h
      have hs := h s (List.mem_cons_self _ _)
      have hstep : completeWork inp nextT (s :: rest) st =
          completeWork inp nextT rest st := by
        simp only [completeWork, hs]
      rw [hstep]
      exact ih st fun s0 h0 => h s0 (List.mem_cons.mpr (Or.inr h0))

theorem completeWork_mono (inp : MultiInput) (nextT : ℤ) (ss : List ℕ) :
    ∀ st : MState, 0 ≤ nextT - st.t →
      (completeWork inp nextT ss st).t = st.t ∧
      (∀ i, (completeWork inp nextT ss st).remaining i ≤ st.remaining i) ∧
      (∀ i, st.served i = true → (completeWork inp nextT ss st).served i = true) := by
  induction ss with
  | nil => intro st _; exact ⟨rfl, fun _ => le_refl _, fun _ h => h⟩
  | cons s rest ih =>
      intro st hd
      cases hocc : st.occ s with
      | none =>
          have hstep : completeWork inp nextT (s :: rest) st =
              completeWork inp nextT rest st := by
            simp only [completeWork, hocc]
          rw [hstep]
          exact ih st hd
      | some c =>
          by_cases hr : st.remaining c - (nextT - st.t) ≤ 0
          · have hstep : completeWork inp nextT (s :: rest) st =
                completeWork inp nextT rest
                  { st with
                    remaining := Function.update st.remaining c
                      (st.remaining c - (nextT - st.t))
                    chunks := st.chunks ++ [⟨c, st.lastCS c, nextT, some s⟩]
                    sEnd := Function.update st.sEnd c nextT
                    served := Function.update st.served c true
                    occ := Function.update st.occ s none } := by
              simp only [completeWork, hocc]
              rw [if_pos hr]
            rw [hstep]
            obtain ⟨m1, m2, m3⟩ := ih
              { st with
                remaining := Function.update st.remaining c
                  (st.remaining c - (nextT - st.t))
                chunks := st.chunks ++ [⟨c, st.lastCS c, nextT, some s⟩]
                sEnd := Function.update st.sEnd c nextT
                served := Function.update st.served c true
                occ := Function.update st.occ s none } hd
            refine ⟨m1, ?_, ?_⟩
            · intro i
              refine le_trans (m2 i) ?_
              show Function.update st.remaining c
                (st.remaining c - (nextT - st.t)) i ≤ st.remaining i
              by_cases hic : i = c
              · subst hic
                rw [Function.update_same]
                omega
              · rw [Function.update_noteq hic]
            · intro i hi
              apply m3
              show Function.update st.served c true i = true
              by_cases hic : i = c
              · subst hic
                exact Function.update_same i _ st.served
              · rw [Function.update_noteq hic]
                exact hi
          · have hstep : completeWork inp nextT (s :: rest) st =
                completeWork inp nextT rest
                  { st with
                    remaining := Function.update st.remaining c
                      (st.remaining c - (nextT - st.t)) } := by
              simp only [completeWork, hocc]
              rw [if_neg hr]
            rw [hstep]
            obtain ⟨m1, m2, m3⟩ := ih
              { st with
                remaining := Function.update st.remaining c
                  (st.remaining c - (nextT - st.t)) } hd
            refine ⟨m1, ?_, fun i hi => m3 i hi⟩
            intro i
            refine le_trans (m2 i) ?_
            show Function.update st.remaining c
              (st.remaining c - (nextT - st.t)) i ≤ st.remaining i
            by_cases hic : i = c
            · subst hic
              rw [Function.update_same]
              omega
            · rw [Function.update_noteq hic]

theorem completeWork_strict (inp : MultiInput) (nextT : ℤ) (ss : List ℕ) :
    ∀ (st : MState), 1 ≤ nextT - st.t → ∀ s0 ∈ ss, ∀ c0, st.occ s0 = some c0 →
      (completeWork inp nextT ss st).served c0 = true ∨
      (completeWork inp nextT ss st).remaining c0 + 1 ≤ st.remaining c0 := by
  induction ss with
  | nil => intro st _ s0 h0 c0 _; exact absurd h0 (List.not_mem_nil s0)
  | cons s rest ih =>
      intro st hd s0 hs0 c0 hc0
      cases hocc : st.occ s with
      | none =>
          have hne : s0 ≠ s := fun he => by rw [he, hocc] at hc0; exact Option.noConfusion hc0
          have hstep : completeWork inp nextT (s :: rest) st =
              completeWork inp nextT rest st := by
            simp only [completeWork, hocc]
          rw [hstep]
          exact ih st hd s0 (List.mem_cons.mp hs0 |>.resolve_left hne) c0 hc0
      | some c =>
          by_cases hcc : c = c0
          · subst hcc
            by_cases hr : st.remaining c - (nextT - st.t) ≤ 0
            · have hstep : completeWork inp nextT (s :: rest) st =
                  completeWork inp nextT rest
                    { st with
                      remaining := Function.update st.remaining c
                        (st.remaining c - (nextT - st.t))
                      chunks := st.chunks ++ [⟨c, st.lastCS c, nextT, some s⟩]
                      sEnd := Function.update st.sEnd c nextT
                      served := Function.update st.served c true
                      occ := Function.update st.occ s none } := by
                simp only [completeWork, hocc]
                rw [if_pos hr]
              rw [hstep]
              obtain ⟨-, -, m3⟩ := completeWork_mono inp nextT rest
                { st with
                  remaining := Function.update st.remaining c
                    (st.remaining c - (nextT - st.t))
                  chunks := st.chunks ++ [⟨c, st.lastCS c, nextT, some s⟩]
                  sEnd := Function.update st.sEnd c nextT
                  served := Function.update st.served c true
                  occ := Function.update st.occ s none }
                (by omega : (0:ℤ) ≤ nextT - st.t)
              exact Or.inl (m3 c (Function.update_same c _ st.served))
            · have hstep : completeWork inp nextT (s :: rest) st =
                  completeWork inp nextT rest
                    { st with
                      remaining := Function.update st.remaining c
                        (st.remaining c - (nextT - st.t)) } := by
                simp only [completeWork, hocc]
                rw [if_neg hr]
              rw [hstep]
              obtain ⟨-, m2, -⟩ := completeWork_mono inp nextT rest
                { st with
                  remaining := Function.update st.remaining c
                    (st.remaining c - (nextT - st.t)) }
                (by omega : (0:ℤ) ≤ nextT - st.t)
              refine Or.inr ?_
              have h1 := m2 c
              have h2 : Function.update st.remaining c
                  (st.remaining c - (nextT - st.t)) c =
                  st.remaining c - (nextT - st.t) :=
                Function.update_same c _ st.remaining
              have h3 : (MState.remaining
                  { st with
                    remaining := Function.update st.remaining c
                      (st.remaining c - (nextT - st.t)) }) c =
                  st.remaining c - (nextT - st.t) := h2
              rw [h3] at h1
              omega
          · have hne : s0 ≠ s := fun he => by
              rw [he, hocc] at hc0
              injection hc0 with h2
              exact hcc h2
            have hs0' : s0 ∈ rest := (List.mem_cons.mp hs0).resolve_left hne
            by_cases hr : st.remaining c - (nextT - st.t) ≤ 0
            · have hstep : completeWork inp nextT (s :: rest) st =
                  completeWork inp nextT rest
                    { st with
                      remaining := Function.update st.remaining c
                        (st.remaining c - (nextT - st.t))
                      chunks := st.chunks ++ [⟨c, st.lastCS c, nextT, some s⟩]
                      sEnd := Function.update st.sEnd c nextT
                      served := Function.update st.served c true
                      occ := Function.update st.occ s none } := by
                simp only [completeWork, hocc]
                rw [if_pos hr]
              rw [hstep]
              have hres := ih
                { st with
                  remaining := Function.update st.remaining c
                    (st.remaining c - (nextT - st.t))
                  chunks := st.chunks ++ [⟨c, st.lastCS c, nextT, some s⟩]
                  sEnd := Function.update st.sEnd c nextT
                  served := Function.update st.served c true
                  occ := Function.update st.occ s none }
                (by simpa using hd) s0 hs0'
                c0 (by show Function.update st.occ s none s0 = some c0
                       rw [Function.update_noteq hne]
                       exact hc0)
              rcases hres with h | h
              · exact Or.inl h
              · refine Or.inr ?_
                have h4 : (MState.remaining
                    { st with
                      remaining := Function.update st.remaining c
                        (st.remaining c - (nextT - st.t))
                      chunks := st.chunks ++ [⟨c, st.lastCS c, nextT, some s⟩]
                      sEnd := Function.update st.sEnd c nextT
                      served := Function.update st.served c true
                      occ := Function.update st.occ s none }) c0 =
                    st.remaining c0 :=
                  Function.update_noteq (fun he => hcc he.symm) _ st.remaining
                rw [h4] at h
                exact h
            · have hstep : completeWork inp nextT (s :: rest) st =
                  completeWork inp nextT rest
                    { st with
                      remaining := Function.update st.remaining c
                        (st.remaining c - (nextT - st.t)) } := by
                simp only [completeWork, hocc]
                rw [if_neg hr]
              rw [hstep]
              have hres := ih
                { st with
                  remaining := Function.update st.remaining c
                    (st.remaining c - (nextT - st.t)) }
                (by simpa using hd) s0 hs0' c0 hc0
              rcases hres with h | h
              · exact Or.inl h
              · refine Or.inr ?_
                have h4 : (MState.remaining
                    { st with
                      remaining := Function.update st.remaining c
                        (st.remaining c - (nextT - st.t)) }) c0 =
                    st.remaining c0 :=
                  Function.update_noteq (fun he => hcc he.symm) _ st.remaining
                rw [h4] at h
                exact h

/-- Invariant carried through the `completeWork` fold: servers still in `ss`
hold their pre-step accounting at time `t0`, already-processed servers hold
accounting advanced to `nextT`. -/
structure CWI (inp : MultiInput) (nextT t0 : ℤ) (ss : List ℕ) (st : MState) : Prop where
  t_eq : st.t = t0
  t_nonneg : 0 ≤ t0
  hdelta : t0 + 1 ≤ nextT
  served_rem : ∀ i < inp.n, st.served i = true → st.remaining i = 0
  served_end : ∀ i < inp.n, st.served i = true → 1 ≤ st.sEnd i
  served_arr : ∀ i < inp.n, st.served i = true → inp.arrival i ≤ t0
  occ_cust : ∀ s < inp.servers, ∀ c, st.occ s = some c →
    c < inp.n ∧ st.served c = false ∧ inp.arrival c ≤ t0 ∧ st.lastCS c ≤ t0
  occ_inj : ∀ s1 < inp.servers, ∀ s2 < inp.servers, ∀ c,
    st.occ s1 = some c → st.occ s2 = some c → s1 = s2
  pend : ∀ s ∈ ss, ∀ c, st.occ s = some c →
    1 ≤ st.remaining c ∧ nextT ≤ t0 + st.remaining c ∧
    chunkSum st.chunks c + (t0 - st.lastCS c) + st.remaining c = inp.service c
  proc : ∀ s < inp.servers, s ∉ ss → ∀ c, st.occ s = some c →
    1 ≤ st.remaining c ∧
    chunkSum st.chunks c + (nextT - st.lastCS c) + st.remaining c = inp.service c
  free : ∀ i < inp.n, ¬OccM inp st i →
    chunkSum st.chunks i + st.remaining i = inp.service i ∧
    (st.served i = false → 1 ≤ st.remaining i)

theorem completeWork_cwi (inp : MultiInput) (nextT t0 : ℤ) (ss : List ℕ) :
    ∀ st : MState, (∀ s ∈ ss, s < inp.servers) → ss.Nodup →
      CWI inp nextT t0 ss st →
      CWI inp nextT t0 [] (completeWork inp nextT ss st) := by
  induction ss with
  | nil => intro st _ _ hc; exact hc
  | cons s rest ih =>
      intro st hss hnd hc
      have hs : s < inp.servers := hss s (List.mem_cons_self _ _)
      have hrest : ∀ s0 ∈ rest, s0 < inp.servers :=
        fun s0 h0 => hss s0 (List.mem_cons.mpr (Or.inr h0))
      have hsnr : s ∉ rest := (List.nodup_cons.mp hnd).1
      have hndr : rest.Nodup := (List.nodup_cons.mp hnd).2
      cases hocc : st.occ s with
      | none =>
          have hstep : completeWork inp nextT (s :: rest) st =
              completeWork inp nextT rest st := by
            simp only [completeWork, hocc]
          rw [hstep]
          refine ih st hrest hndr ?_
          exact { hc with
            pend := fun s0 h0 => hc.pend s0 (List.mem_cons.mpr (Or.inr h0))
            proc := by
              intro s0 hs0 hnotin c h1
              by_cases e : s0 = s
              · rw [e, hocc] at h1
                exact Option.noConfusion h1
              · exact hc.proc s0 hs0
                  (fun hm => hnotin ((List.mem_cons.mp hm).resolve_left e))
                  c h1 }
      | some c =>
          obtain ⟨hrem1, hnle, hacct⟩ := hc.pend s (List.mem_cons_self _ _) c hocc
          obtain ⟨hcn, hcsf, hcarr, hclcs⟩ := hc.occ_cust s hs c hocc
          have hteq := hc.t_eq
          have hdel := hc.hdelta
          have ht0 := hc.t_nonneg
          by_cases hr : st.remaining c - (nextT - st.t) ≤ 0
          · have hrem0 : st.remaining c - (nextT - st.t) = 0 := by
              rw [hteq] at hr ⊢
              omega
            have hstep : completeWork inp nextT (s :: rest) st =
                completeWork inp nextT rest
                  { st with
                    remaining := Function.update st.remaining c
                      (st.remaining c - (nextT - st.t))
                    chunks := st.chunks ++ [⟨c, st.lastCS c, nextT, some s⟩]
                    sEnd := Function.update st.sEnd c nextT
                    served := Function.update st.served c true
                    occ := Function.update st.occ s none } := by
              simp only [completeWork, hocc]
              rw [if_pos hr]
            rw [hstep]
            set st2 : MState :=
              { st with
                remaining := Function.update st.remaining c
                  (st.remaining c - (nextT - st.t))
                chunks := st.chunks ++ [⟨c, st.lastCS c, nextT, some s⟩]
                sEnd := Function.update st.sEnd c nextT
                served := Function.update st.served c true
                occ := Function.update st.occ s none } with hst2
            have hremo : ∀ i, i ≠ c → st2.remaining i = st.remaining i :=
              fun i hi => Function.update_noteq hi _ st.remaining
            have hremc : st2.remaining c = 0 := by
              show Function.update st.remaining c
                (st.remaining c - (nextT - st.t)) c = 0
              rw [Function.update_same]
              exact hrem0
            have hsrvo : ∀ i, i ≠ c → st2.served i = st.served i :=
              fun i hi => Function.update_noteq hi _ st.served
            have hsrvc : st2.served c = true := Function.update_same c _ st.served
            have hendo : ∀ i, i ≠ c → st2.sEnd i = st.sEnd i :=
              fun i hi => Function.update_noteq hi _ st.sEnd
            have hendc : st2.sEnd c = nextT := Function.update_same c _ st.sEnd
            have hocco : ∀ s0, s0 ≠ s → st2.occ s0 = st.occ s0 :=
              fun s0 h0 => Function.update_noteq h0 _ st.occ
            have hoccs : st2.occ s = none := Function.update_same s _ st.occ
            have hchs : ∀ i, chunkSum st2.chunks i =
                chunkSum st.chunks i + (if c = i then nextT - st.lastCS c else 0) := by
              intro i
              show chunkSum (st.chunks ++ [⟨c, st.lastCS c, nextT, some s⟩]) i = _
              rw [chunkSum_append]
            have hlcs2 : ∀ i, st2.lastCS i = st.lastCS i := fun _ => rfl
            have hocc_ne : ∀ s0, ∀ d, st2.occ s0 = some d → st.occ s0 = some d ∧ s0 ≠ s := by
              intro s0 d h1
              by_cases e : s0 = s
              · rw [e, hoccs] at h1
                exact Option.noConfusion h1
              · rw [hocco s0 e] at h1
                exact ⟨h1, e⟩
            have hdne : ∀ s0 < inp.servers, ∀ d, st2.occ s0 = some d → d ≠ c := by
              intro s0 hs0 d h1 he
              obtain ⟨h2, hne⟩ := hocc_ne s0 d h1
              exact hne (hc.occ_inj s0 hs0 s hs d h2 (by rw [← he] at hocc; exact hocc))
            refine ih st2 hrest hndr ?_
            refine
              { t_eq := hteq
                t_nonneg := hc.t_nonneg
                hdelta := hdel
                served_rem := ?_
                served_end := ?_
                served_arr := ?_
                occ_cust := ?_
                occ_inj := ?_
                pend := ?_
                proc := ?_
                free := ?_ }
            · intro i hi hsv
              by_cases e : i = c
              · rw [e, hremc]
              · rw [hremo i e]
                rw [hsrvo i e] at hsv
                exact hc.served_rem i hi hsv
            · intro i hi hsv
              by_cases e : i = c
              · rw [e, hendc]
                omega
              · rw [hendo i e]
                rw [hsrvo i e] at hsv
                exact hc.served_end i hi hsv
            · intro i hi hsv
              by_cases e : i = c
              · rw [e]
                exact hcarr
              · rw [hsrvo i e] at hsv
                exact hc.served_arr i hi hsv
            · intro s0 hs0 d h1
              have hdc := hdne s0 hs0 d h1
              obtain ⟨h2, -⟩ := hocc_ne s0 d h1
              obtain ⟨g1, g2, g3, g4⟩ := hc.occ_cust s0 hs0 d h2
              exact ⟨g1, by rw [hsrvo d hdc]; exact g2, g3, g4⟩
            · intro s1 hs1 s2 hs2 d h1 h2
              obtain ⟨h1', -⟩ := hocc_ne s1 d h1
              obtain ⟨h2', -⟩ := hocc_ne s2 d h2
              exact hc.occ_inj s1 hs1 s2 hs2 d h1' h2'
            · intro s0 hs0 d h1
              have hs0' : s0 < inp.servers := hrest s0 hs0
              have hdc := hdne s0 hs0' d h1
              obtain ⟨h2, -⟩ := hocc_ne s0 d h1
              obtain ⟨g1, g2, g3⟩ := hc.pend s0 (List.mem_cons.mpr (Or.inr hs0)) d h2
              rw [hremo d hdc, hchs d, if_neg (fun he => hdc he.symm), hlcs2 d]
              exact ⟨g1, g2, by omega⟩
            · intro s0 hs0 hnotin d h1
              have hdc := hdne s0 hs0 d h1
              obtain ⟨h2, hne⟩ := hocc_ne s0 d h1
              have hnotin' : s0 ∉ s :: rest :=
                fun hm => (List.mem_cons.mp hm).elim hne hnotin
              obtain ⟨g1, g2⟩ := hc.proc s0 hs0 hnotin' d h2
              rw [hremo d hdc, hchs d, if_neg (fun he => hdc he.symm), hlcs2 d]
              exact ⟨g1, by omega⟩
            · intro i hi hno
              by_cases e : i = c
              · subst e
                refine ⟨?_, ?_⟩
                · rw [hremc, hchs i, if_pos rfl]
                  rw [hteq] at hrem0
                  omega
                · intro hf
                  rw [hsrvc] at hf
                  exact Bool.noConfusion hf
              · have hno0 : ¬OccM inp st i := by
                  rintro ⟨s1, hs1, h1⟩
                  by_cases e1 : s1 = s
                  · rw [e1, hocc] at h1
                    injection h1 with h2
                    exact e h2.symm
                  · exact hno ⟨s1, hs1, by rw [hocco s1 e1]; exact h1⟩
                obtain ⟨g1, g2⟩ := hc.free i hi hno0
                rw [hremo i e, hchs i, if_neg (fun he => e he.symm), hsrvo i e]
                exact ⟨by omega, g2⟩
          · have hstep : completeWork inp nextT (s :: rest) st =
                completeWork inp nextT rest
                  { st with
                    remaining := Function.update st.remaining c
                      (st.remaining c - (nextT - st.t)) } := by
              simp only [completeWork, hocc]
              rw [if_neg hr]
            rw [hstep]
            set st2 : MState :=
              { st with
                remaining := Function.update st.remaining c
                  (st.remaining c - (nextT - st.t)) } with hst2
            have hremo : ∀ i, i ≠ c → st2.remaining i = st.remaining i :=
              fun i hi => Function.update_noteq hi _ st.remaining
            have hremc : st2.remaining c = st.remaining c - (nextT - st.t) :=
              Function.update_same c _ st.remaining
            have hch2 : ∀ i, chunkSum st2.chunks i = chunkSum st.chunks i :=
              fun _ => rfl
            have hlcs2b : ∀ i, st2.lastCS i = st.lastCS i := fun _ => rfl
            have hrpos : 1 ≤ st2.remaining c := by
              rw [hremc]
              omega
            refine ih st2 hrest hndr ?_
            refine
              { t_eq := hteq
                t_nonneg := hc.t_nonneg
                hdelta := hdel
                served_rem := ?_
                served_end := hc.served_end
                served_arr := hc.served_arr
                occ_cust := hc.occ_cust
                occ_inj := hc.occ_inj
                pend := ?_
                proc := ?_
                free := ?_ }
            · intro i hi hsv
              by_cases e : i = c
              · rw [e] at hsv
                rw [hsv] at hcsf
                exact Bool.noConfusion hcsf
              · rw [hremo i e]
                exact hc.served_rem i hi hsv
            · intro s0 hs0 d h1
              have hs0' : s0 < inp.servers := hrest s0 hs0
              have hne : s0 ≠ s := fun he => hsnr (he ▸ hs0)
              have hdc : d ≠ c := fun he =>
                hne (hc.occ_inj s0 hs0' s hs d h1 (by rw [← he] at hocc; exact hocc))
              obtain ⟨g1, g2, g3⟩ := hc.pend s0 (List.mem_cons.mpr (Or.inr hs0)) d h1
              rw [hremo d hdc]
              exact ⟨g1, g2, g3⟩
            · intro s0 hs0 hnotin d h1
              by_cases e : s0 = s
              · subst e
                rw [hocc] at h1
                injection h1 with h2
                subst h2
                refine ⟨hrpos, ?_⟩
                rw [hremc, hch2 c, hlcs2b c, hteq]
                omega
              · have hnotin' : s0 ∉ s :: rest :=
                  fun hm => (List.mem_cons.mp hm).elim e hnotin
                have hdc : d ≠ c := fun he =>
                  e (hc.occ_inj s0 hs0 s hs d h1 (by rw [← he] at hocc; exact hocc))
                obtain ⟨g1, g2⟩ := hc.proc s0 hs0 hnotin' d h1
                rw [hremo d hdc]
                exact ⟨g1, g2⟩
            · intro i hi hno
              have hic : i ≠ c := by
                intro he
                exact hno ⟨s, hs, by rw [he]; exact hocc⟩
              obtain ⟨g1, g2⟩ := hc.free i hi hno
              rw [hremo i hic]
              exact ⟨g1, g2⟩

theorem cwi_to_minv (inp : MultiInput) (nextT t0 : ℤ) (st : MState)
    (hc : CWI inp nextT t0 [] st) : MInv inp { st with t := nextT } where
  t_nonneg := by
    have h1 := hc.t_nonneg
    have h2 := hc.hdelta
    show (0:ℤ) ≤ nextT
    omega
  served_rem := hc.served_rem
  unserved_rem := by
    intro i hi hsv
    by_cases ho : OccM inp st i
    · obtain ⟨s, hs, hocc⟩ := ho
      exact (hc.proc s hs (List.not_mem_nil s) i hocc).1
    · exact (hc.free i hi ho).2 hsv
  served_end := hc.served_end
  served_arr := by
    intro i hi hsv
    have h1 := hc.served_arr i hi hsv
    have h2 := hc.hdelta
    show inp.arrival i ≤ nextT
    omega
  occ_cust := by
    intro s hs c hocc
    obtain ⟨g1, g2, g3, g4⟩ := hc.occ_cust s hs c hocc
    have h2 := hc.hdelta
    exact ⟨g1, g2, by show inp.arrival c ≤ nextT; omega,
      by show st.lastCS c ≤ nextT; omega⟩
  occ_inj := hc.occ_inj
  acct_occ := by
    intro i hi ho
    obtain ⟨s, hs, hocc⟩ := ho
    exact (hc.proc s hs (List.not_mem_nil s) i hocc).2
  acct_free := by
    intro i hi ho
    exact (hc.free i hi ho).1

theorem mEvents_ge (inp : MultiInput) (st : MState) (hinv : MInv inp st) :
    ∀ e ∈ mEvents inp st, st.t + 1 ≤ e := by
  intro e he
  rw [mEvents] at he
  rcases List.mem_append.mp he with h | h
  · cases hf : (List.range inp.n).find? (fun i => st.t < inp.arrival i) with
    | none =>
        rw [hf] at h
        exact absurd h (List.not_mem_nil e)
    | some i =>
        rw [hf] at h
        have hp := List.find?_some hf
        simp only [decide_eq_true_eq] at hp
        rw [List.mem_singleton.mp h]
        omega
  · obtain ⟨s, hsm, hmap⟩ := List.mem_filterMap.mp h
    obtain ⟨c, hocc, hec⟩ := Option.map_eq_some'.mp hmap
    obtain ⟨hcn, hcsf, -, -⟩ :=
      hinv.occ_cust s (List.mem_range.mp hsm) c hocc
    have hrem := hinv.unserved_rem c hcn hcsf
    omega

theorem mEvents_completion_mem (inp : MultiInput) (st : MState) (s : ℕ) (c : ℕ)
    (hs : s < inp.servers) (hocc : st.occ s = some c) :
    st.t + st.remaining c ∈ mEvents inp st := by
  rw [mEvents]
  refine List.mem_append.mpr (Or.inr ?_)
  refine List.mem_filterMap.mpr ⟨s, List.mem_range.mpr hs, ?_⟩
  rw [hocc]
  rfl

theorem mEvents_arrival_mem (inp : MultiInput) (st : MState) (i : ℕ)
    (hi : i < inp.n) (ha : st.t < inp.arrival i) :
    ∃ j, ((List.range inp.n).find? (fun k => st.t < inp.arrival k)) = some j ∧
      inp.arrival j ∈ mEvents inp st := by
  have hsome : (((List.range inp.n).find? (fun k => st.t < inp.arrival k))).isSome := by
    rw [List.find?_isSome]
    exact ⟨i, List.mem_range.mpr hi, by simpa using ha⟩
  obtain ⟨j, hj⟩ := Option.isSome_iff_exists.mp hsome
  refine ⟨j, hj, ?_⟩
  rw [mEvents, hj]
  exact List.mem_append.mpr (Or.inl (List.mem_singleton.mpr rfl))

theorem assignServers_occ_ne_none (inp : MultiInput) (ss : List ℕ) :
    ∀ (st : MState) (pool : List ℕ) (s0 : ℕ), st.occ s0 ≠ none →
      (assignServers inp ss st pool).1.occ s0 ≠ none := by
  induction ss with
  | nil => intro st pool s0 h; exact h
  | cons s rest ih =>
      intro st pool s0 h
      by_cases hc : st.occ s = none ∧ pool ≠ []
      · have hstep : assignServers inp (s :: rest) st pool =
            assignServers inp rest
              { st with
                occ := Function.update st.occ s
                  (some (chooseCustomer inp.usePriority inp.priority pool))
                sStart :=
                  if st.sStart (chooseCustomer inp.usePriority inp.priority pool) = -1
                  then Function.update st.sStart
                    (chooseCustomer inp.usePriority inp.priority pool) st.t
                  else st.sStart
                lastCS := Function.update st.lastCS
                  (chooseCustomer inp.usePriority inp.priority pool) st.t }
              (pool.erase (chooseCustomer inp.usePriority inp.priority pool)) := by
          simp only [assignServers]
          rw [if_pos hc]
        rw [hstep]
        apply ih
        show Function.update st.occ s
          (some (chooseCustomer inp.usePriority inp.priority pool)) s0 ≠ none
        by_cases e : s0 = s
        · subst e
          rw [Function.update_same]
          exact fun h2 => Option.noConfusion h2
        · rw [Function.update_noteq e]
          exact h
      · have hstep : assignServers inp (s :: rest) st pool =
            assignServers inp rest st pool := by
          simp only [assignServers]
          rw [if_neg hc]
        rw [hstep]
        exact ih st pool s0 h

theorem preemptServers_occ_ne_none (inp : MultiInput) (ss : List ℕ) :
    ∀ (st : MState) (pool : List ℕ) (s0 : ℕ), st.occ s0 ≠ none →
      (preemptServers inp ss st pool).1.occ s0 ≠ none := by
  induction ss with
  | nil => intro st pool s0 h; exact h
  | cons s rest ih =>
      intro st pool s0 h
      cases hocc : st.occ s with
      | none =>
          have hstep : preemptServers inp (s :: rest) st pool =
              preemptServers inp rest st pool := by
            simp only [preemptServers, hocc]
          rw [hstep]
          exact ih st pool s0 h
      | some currCust =>
          by_cases hpne : pool ≠ []
          · by_cases hlt : inp.priority (chooseCustomer true inp.priority pool) <
                inp.priority currCust
            · have hstep : preemptServers inp (s :: rest) st pool =
                  preemptServers inp rest
                    { st with
                      chunks :=
                        if 0 < st.t - st.lastCS currCust
                        then st.chunks ++
                          [⟨currCust, st.lastCS currCust, st.t, some s⟩]
                        else st.chunks
                      occ := Function.update st.occ s
                        (some (chooseCustomer true inp.priority pool))
                      sStart :=
                        if st.sStart (chooseCustomer true inp.priority pool) = -1
                        then Function.update st.sStart
                          (chooseCustomer true inp.priority pool) st.t
                        else st.sStart
                      lastCS := Function.update st.lastCS
                        (chooseCustomer true inp.priority pool) st.t }
                    ((pool ++ [currCust]).erase
                      (chooseCustomer true inp.priority pool)) := by
                simp only [preemptServers, hocc]
                rw [if_pos hpne, if_pos hlt]
              rw [hstep]
              apply ih
              show Function.update st.occ s
                (some (chooseCustomer true inp.priority pool)) s0 ≠ none
              by_cases e : s0 = s
              · subst e
                rw [Function.update_same]
                exact fun h2 => Option.noConfusion h2
              · rw [Function.update_noteq e]
                exact h
            · have hstep : preemptServers inp (s :: rest) st pool =
                  preemptServers inp rest st pool := by
                simp only [preemptServers, hocc]
                rw [if_pos hpne, if_neg hlt]
              rw [hstep]
              exact ih st pool s0 h
          · have hstep : preemptServers inp (s :: rest) st pool =
                preemptServers inp rest st pool := by
              simp only [preemptServers, hocc]
              rw [if_neg hpne]
            rw [hstep]
            exact ih st pool s0 h

theorem assignServers_head_busy (inp : MultiInput) (s : ℕ) (rest : List ℕ)
    (st : MState) (pool : List ℕ) (hocc : st.occ s = none) (hpne : pool ≠ []) :
    (assignServers inp (s :: rest) st pool).1.occ s ≠ none := by
  have hstep : assignServers inp (s :: rest) st pool =
      assignServers inp rest
        { st with
          occ := Function.update st.occ s
            (some (chooseCustomer inp.usePriority inp.priority pool))
          sStart :=
            if st.sStart (chooseCustomer inp.usePriority inp.priority pool) = -1
            then Function.update st.sStart
              (chooseCustomer inp.usePriority inp.priority pool) st.t
            else st.sStart
          lastCS := Function.update st.lastCS
            (chooseCustomer inp.usePriority inp.priority pool) st.t }
        (pool.erase (chooseCustomer inp.usePriority inp.priority pool)) := by
    simp only [assignServers]
    rw [if_pos ⟨hocc, hpne⟩]
  rw [hstep]
  apply assignServers_occ_ne_none
  show Function.update st.occ s
    (some (chooseCustomer inp.usePriority inp.priority pool)) s ≠ none
  rw [Function.update_same]
  exact fun h2 => Option.noConfusion h2

theorem mstep_phases (inp : MultiInput) (st : MState) (hinv : MInv inp st) :
    ∃ (pp1 : MState) (pool2 : List ℕ),
      (∀ nextT, (mEvents inp pp1).min? = some nextT →
        mstep inp st =
          ({ completeWork inp nextT (List.range inp.servers) pp1 with t := nextT },
            true)) ∧
      PoolInv inp pp1 pool2 ∧
      pp1.t = st.t ∧ pp1.served = st.served ∧ pp1.remaining = st.remaining ∧
      pp1.sEnd = st.sEnd ∧
      (∀ i0, i0 < inp.n → st.served i0 = false → inp.arrival i0 ≤ st.t →
        1 ≤ inp.servers → ∃ s0, s0 < inp.servers ∧ pp1.occ s0 ≠ none) := by
  have hrange : ∀ s ∈ List.range inp.servers, s < inp.servers :=
    fun s h => List.mem_range.mp h
  set pool := mPool inp st with hpooldef
  set ap := assignServers inp (List.range inp.servers) st pool with hapdef
  set pp := if inp.usePriority = true ∧ ap.2 ≠ []
    then preemptServers inp (List.range inp.servers) ap.1 ap.2 else ap with hppdef
  have hpool0 := mPool_poolInv inp st hinv
  obtain ⟨hapPI, hapT, hapSrv, hapRem, hapEnd, hapCh, hapOcc⟩ :=
    assignServers_preserves inp (List.range inp.servers) st pool hrange hpool0
  have hppfacts : PoolInv inp pp.1 pp.2 ∧ pp.1.t = st.t ∧ pp.1.served = st.served ∧
      pp.1.remaining = st.remaining ∧ pp.1.sEnd = st.sEnd ∧
      (∀ s0, st.occ s0 ≠ none → pp.1.occ s0 ≠ none) := by
    rw [hppdef]
    by_cases hup : inp.usePriority = true ∧ ap.2 ≠ []
    · rw [if_pos hup]
      obtain ⟨b1, b2, b3, b4, b5, b6⟩ :=
        preemptServers_preserves inp (List.range inp.servers) ap.1 ap.2 hrange hapPI
      exact ⟨b1, by rw [b2, hapT], by rw [b3, hapSrv], by rw [b4, hapRem],
        by rw [b5, hapEnd],
        fun s0 h0 => b6 s0 (by rw [hapOcc s0 h0]; exact h0)⟩
    · rw [if_neg hup]
      exact ⟨hapPI, hapT, hapSrv, hapRem, hapEnd,
        fun s0 h0 => by rw [hapOcc s0 h0]; exact h0⟩
  obtain ⟨ppPI, ppT, ppSrv, ppRem, ppEnd, ppOcc⟩ := hppfacts
  refine ⟨pp.1, pp.2, ?_, ppPI, ppT, ppSrv, ppRem, ppEnd, ?_⟩
  · intro nextT h
    rw [hppdef] at h
    rw [hapdef] at h
    rw [hpooldef] at h
    simp only [mstep]
    rw [h]
  · intro i0 hi0n hi0s hi0a hsrv1
    by_cases hOc : OccM inp st i0
    · obtain ⟨s1, hs1, h1⟩ := hOc
      refine ⟨s1, hs1, ppOcc s1 ?_⟩
      rw [h1]
      exact fun hx => Option.noConfusion hx
    · have hpmem : i0 ∈ pool := hpool0.pool_complete i0 hi0n hi0s hi0a hOc
      have hpoolne : pool ≠ [] := by
        intro he
        rw [he] at hpmem
        exact List.not_mem_nil i0 hpmem
      cases hocc0 : st.occ 0 with
      | some c =>
          refine ⟨0, hsrv1, ppOcc 0 ?_⟩
          rw [hocc0]
          exact fun hx => Option.noConfusion hx
      | none =>
          obtain ⟨k, hk⟩ : ∃ k, inp.servers = k + 1 := ⟨inp.servers - 1, by omega⟩
          have hrangek : List.range inp.servers =
              0 :: (List.range k).map Nat.succ := by
            rw [hk, List.range_succ_eq_map]
          have hbusy : ap.1.occ 0 ≠ none := by
            rw [hapdef, hrangek]
            exact assignServers_head_busy inp 0 _ st pool hocc0 hpoolne
          refine ⟨0, hsrv1, ?_⟩
          rw [hppdef]
          by_cases hup : inp.usePriority = true ∧ ap.2 ≠ []
          · rw [if_pos hup]
            exact preemptServers_occ_ne_none inp _ ap.1 ap.2 0 hbusy
          · rw [if_neg hup]
            exact hbusy

theorem mMeasure_upd (inp : MultiInput) (st : MState) (v : ℤ) :
    mMeasure inp { st with t := v } =
      2 * (∑ i ∈ Finset.range inp.n,
        if st.served i = true then 0 else (st.remaining i).toNat) +
      ((Finset.range inp.n).filter fun i =>
        st.served i = false ∧ v < inp.arrival i).card := rfl

theorem mstep_preserves (inp : MultiInput) (hsrv : 1 ≤ inp.servers)
    (st : MState) (hinv : MInv inp st) (hns : allServedM inp st = false) :
    (mstep inp st).2 = true ∧ MInv inp (mstep inp st).1 ∧
      mMeasure inp (mstep inp st).1 < mMeasure inp st := by
  obtain ⟨pp1, pool2, hred, hPI, hT, hSrv, hRem, hEnd, hBusyEx⟩ :=
    mstep_phases inp st hinv
  have base := hPI.base
  have hex : ∃ i0, i0 < inp.n ∧ st.served i0 = false := by
    have hns' := hns
    rw [allServedM, List.all_eq_false] at hns'
    obtain ⟨i0, hi0r, hi0⟩ := hns'
    exact ⟨i0, List.mem_range.mp hi0r, by simpa using hi0⟩
  obtain ⟨i0, hi0n, hi0s⟩ := hex
  have hne : ∃ e, e ∈ mEvents inp pp1 := by
    by_cases harr : ∃ i, i < inp.n ∧ pp1.t < inp.arrival i
    · obtain ⟨i, hi, ha⟩ := harr
      obtain ⟨j, -, hj2⟩ := mEvents_arrival_mem inp pp1 i hi ha
      exact ⟨inp.arrival j, hj2⟩
    · push_neg at harr
      have hi0a : inp.arrival i0 ≤ st.t := by
        have h1 := harr i0 hi0n
        rw [hT] at h1
        exact h1
      obtain ⟨s0, hs0, hocc0⟩ := hBusyEx i0 hi0n hi0s hi0a hsrv
      obtain ⟨c0, hc0⟩ := Option.ne_none_iff_exists'.mp hocc0
      exact ⟨pp1.t + pp1.remaining c0,
        mEvents_completion_mem inp pp1 s0 c0 hs0 hc0⟩
  obtain ⟨e0, he0⟩ := hne
  have hlne : mEvents inp pp1 ≠ [] := by
    intro h
    rw [h] at he0
    exact List.not_mem_nil e0 he0
  obtain ⟨nextT, hmin⟩ := intList_min?_isSome hlne
  obtain ⟨hmem, hminle⟩ := intList_min?_spec hmin
  have hgeT : pp1.t + 1 ≤ nextT := mEvents_ge inp pp1 base nextT hmem
  have hge : st.t + 1 ≤ nextT := by rw [hT] at hgeT; exact hgeT
  have hredn := hred nextT hmin
  rw [hredn]
  have entry : CWI inp nextT st.t (List.range inp.servers) pp1 :=
    { t_eq := hT
      t_nonneg := hinv.t_nonneg
      hdelta := hge
      served_rem := base.served_rem
      served_end := base.served_end
      served_arr := fun i hi hs => by rw [← hT]; exact base.served_arr i hi hs
      occ_cust := by
        intro s hs c hocc
        obtain ⟨g1, g2, g3, g4⟩ := base.occ_cust s hs c hocc
        exact ⟨g1, g2, by rw [← hT]; exact g3, by rw [← hT]; exact g4⟩
      occ_inj := base.occ_inj
      pend := by
        intro s hsm c hocc
        have hs : s < inp.servers := List.mem_range.mp hsm
        obtain ⟨g1, g2, -, -⟩ := base.occ_cust s hs c hocc
        have hrem1 := base.unserved_rem c g1 g2
        have hle := hminle _ (mEvents_completion_mem inp pp1 s c hs hocc)
        have hacc := base.acct_occ c g1 ⟨s, hs, hocc⟩
        exact ⟨hrem1, by rw [← hT]; exact hle, by rw [← hT]; exact hacc⟩
      proc := fun s hs hnotin c hocc =>
        absurd (List.mem_range.mpr hs) hnotin
      free := fun i hi hno =>
        ⟨base.acct_free i hi hno, base.unserved_rem i hi⟩ }
  have hcwiF := completeWork_cwi inp nextT st.t (List.range inp.servers) pp1
    (fun s h => List.mem_range.mp h) (List.nodup_range _) entry
  refine ⟨rfl, cwi_to_minv inp nextT st.t _ hcwiF, ?_⟩
  obtain ⟨hMt, hMrem, hMsrv⟩ := completeWork_mono inp nextT (List.range inp.servers)
    pp1 (by rw [hT]; omega)
  set res := completeWork inp nextT (List.range inp.servers) pp1 with hres
  show mMeasure inp { res with t := nextT } < mMeasure inp st
  rw [mMeasure_upd inp res nextT]
  conv_rhs => rw [mMeasure]
  have hterm : ∀ i ∈ Finset.range inp.n,
      (if res.served i = true then 0 else (res.remaining i).toNat) ≤
      (if st.served i = true then 0 else (st.remaining i).toNat) := by
    intro i _
    by_cases hsi : st.served i = true
    · rw [if_pos hsi, if_pos (hMsrv i (by rw [hSrv]; exact hsi))]
    · rw [if_neg hsi]
      by_cases hri : res.served i = true
      · rw [if_pos hri]
        exact Nat.zero_le _
      · rw [if_neg hri]
        have h1 := hMrem i
        rw [hRem] at h1
        omega
  have hsub : ((Finset.range inp.n).filter fun i =>
        res.served i = false ∧ nextT < inp.arrival i) ⊆
      ((Finset.range inp.n).filter fun i =>
        st.served i = false ∧ st.t < inp.arrival i) := by
    intro x hx
    rw [Finset.mem_filter] at hx ⊢
    obtain ⟨hxm, hx1, hx2⟩ := hx
    refine ⟨hxm, ?_, by omega⟩
    cases hsx : st.served x with
    | false => rfl
    | true =>
        have h1 := hMsrv x (by rw [hSrv]; exact hsx)
        rw [h1] at hx1
        exact Bool.noConfusion hx1
  by_cases hoccex : ∃ s0, s0 < inp.servers ∧ ∃ c, pp1.occ s0 = some c
  · obtain ⟨s0, hs0, c0, hc0⟩ := hoccex
    have hstrict := completeWork_strict inp nextT (List.range inp.servers) pp1
      (by rw [hT]; omega) s0 (List.mem_range.mpr hs0) c0 hc0
    rw [← hres] at hstrict
    obtain ⟨hc0n, hc0sf, -, -⟩ := base.occ_cust s0 hs0 c0 hc0
    have hc0sf' : st.served c0 = false := by rw [← hSrv]; exact hc0sf
    have hc0rem : 1 ≤ st.remaining c0 := by
      rw [← hRem]
      exact base.unserved_rem c0 hc0n hc0sf
    have hsum : (∑ i ∈ Finset.range inp.n,
        if res.served i = true then 0 else (res.remaining i).toNat) <
        (∑ i ∈ Finset.range inp.n,
          if st.served i = true then 0 else (st.remaining i).toNat) := by
      refine Finset.sum_lt_sum hterm ⟨c0, Finset.mem_range.mpr hc0n, ?_⟩
      have hnsf : ¬st.served c0 = true := by
        rw [hc0sf']
        exact Bool.noConfusion
      rw [if_neg hnsf]
      rcases hstrict with h | h
      · rw [if_pos h]
        omega
      · rw [hRem] at h
        by_cases hrs : res.served c0 = true
        · rw [if_pos hrs]
          omega
        · rw [if_neg hrs]
          omega
    have hcard := Finset.card_le_card hsub
    omega
  · push_neg at hoccex
    have hallnone : ∀ s ∈ List.range inp.servers, pp1.occ s = none := by
      intro s hsm
      cases ho : pp1.occ s with
      | none => rfl
      | some c => exact absurd ho (hoccex s (List.mem_range.mp hsm) c)
    have hresid : res = pp1 :=
      hres.trans (completeWork_noocc inp nextT (List.range inp.servers) pp1 hallnone)
    have hfmnil : ((List.range inp.servers).filterMap fun s =>
        (pp1.occ s).map fun c => pp1.t + pp1.remaining c) = [] := by
      rw [List.filterMap_eq_nil]
      intro s hsm
      rw [hallnone s hsm]
      rfl
    cases hf : (List.range inp.n).find? (fun i => pp1.t < inp.arrival i) with
    | none =>
        have hevnil : mEvents inp pp1 = [] := by
          rw [mEvents, hf, hfmnil]
          rfl
        rw [hevnil] at hmem
        exact absurd hmem (List.not_mem_nil nextT)
    | some i1 =>
        have hev : mEvents inp pp1 = [inp.arrival i1] := by
          rw [mEvents, hf, hfmnil]
          simp
        rw [hev] at hmem
        have hnext : nextT = inp.arrival i1 := List.mem_singleton.mp hmem
        have hi1n : i1 < inp.n := List.mem_range.mp (List.mem_of_find?_eq_some hf)
        have hi1a : st.t < inp.arrival i1 := by
          have h1 := List.find?_some hf
          simp only [decide_eq_true_eq] at h1
          rw [hT] at h1
          exact h1
        have hi1s : st.served i1 = false := by
          cases hsx : st.served i1 with
          | false => rfl
          | true =>
              have h1 := hinv.served_arr i1 hi1n hsx
              omega
        have hsum : (∑ i ∈ Finset.range inp.n,
            if res.served i = true then 0 else (res.remaining i).toNat) =
            (∑ i ∈ Finset.range inp.n,
              if st.served i = true then 0 else (st.remaining i).toNat) := by
          apply Finset.sum_congr rfl
          intro i _
          rw [hresid, hSrv, hRem]
        have hmemold : i1 ∈ (Finset.range inp.n).filter
            (fun i => st.served i = false ∧ st.t < inp.arrival i) := by
          rw [Finset.mem_filter]
          exact ⟨Finset.mem_range.mpr hi1n, hi1s, hi1a⟩
        have hmemnew : i1 ∉ (Finset.range inp.n).filter
            (fun i => res.served i = false ∧ nextT < inp.arrival i) := by
          rw [Finset.mem_filter]
          rintro ⟨-, -, h2⟩
          omega
        have hcard : ((Finset.range inp.n).filter fun i =>
            res.served i = false ∧ nextT < inp.arrival i).card <
            ((Finset.range inp.n).filter fun i =>
              st.served i = false ∧ st.t < inp.arrival i).card := by
          refine Finset.card_lt_card ?_
          rw [Finset.ssubset_iff_of_subset hsub]
          exact ⟨i1, hmemold, hmemnew⟩
        omega

theorem mrun_minv (inp : MultiInput) (hsrv : 1 ≤ inp.servers) :
    ∀ (fuel : ℕ) (st : MState), MInv inp st → mMeasure inp st < fuel →
      MInv inp (mrun inp fuel st) ∧ allServedM inp (mrun inp fuel st) = true := by
  intro fuel
  induction fuel with
  | zero =>
      intro st _ hm
      exact absurd hm (Nat.not_lt_zero _)
  | succ fuel ih =>
      intro st hinv hm
      rw [mrun]
      by_cases hall : allServedM inp st = true
      · rw [if_pos hall]
        exact ⟨hinv, hall⟩
      · have hns : allServedM inp st = false := by
          cases h : allServedM inp st
          · rfl
          · exact absurd h hall
        rw [if_neg hall]
        obtain ⟨hcont, hinv', hm'⟩ := mstep_preserves inp hsrv st hinv hns
        cases hms : mstep inp st with
        | mk st' b =>
            rw [hms] at hcont hinv' hm'
            simp only [] at hcont
            subst hcont
            exact ih st' hinv' (by simp only [] at hm'; omega)

theorem multiSimFinal_spec (inp : MultiInput) (hsrv : 1 ≤ inp.servers)
    (hsvc : ∀ i < inp.n, 1 ≤ inp.service i) :
    MInv inp (multiSimFinal inp) ∧ allServedM inp (multiSimFinal inp) = true := by
  apply mrun_minv inp hsrv (mFuel inp) (mInit inp) (mInit_inv inp hsvc)
  rw [mMeasure, mFuel, mInit]
  simp only []
  have h1 : (∑ i ∈ Finset.range inp.n,
      if (false : Bool) = true then 0 else (inp.service i).toNat) =
      ∑ i ∈ Finset.range inp.n, (inp.service i).toNat := by
    apply Finset.sum_congr rfl
    intro i _
    simp
  rw [h1]
  have h2 := Finset.card_filter_le (Finset.range inp.n)
    (fun i => True ∧ (0 : ℤ) < inp.arrival i)
  rw [Finset.card_range] at h2
  omega

theorem multiSimFinal_complete (inp : MultiInput) (hsrv : 1 ≤ inp.servers)
    (hsvc : ∀ i < inp.n, 1 ≤ inp.service i) :
    allServedM inp (multiSimFinal inp) = true ∧
    ∀ i < inp.n, chunkSum (multiSimFinal inp).chunks i = inp.service i ∧
      (multiSimFinal inp).served i = true ∧ 1 ≤ (multiSimFinal inp).sEnd i := by
  obtain ⟨hinv, hall⟩ := multiSimFinal_spec inp hsrv hsvc
  refine ⟨hall, ?_⟩
  intro i hi
  have hallp : ∀ j < inp.n, (multiSimFinal inp).served j = true := by
    rw [allServedM, List.all_eq_true] at hall
    exact fun j hj => hall j (List.mem_range.mpr hj)
  have hsi := hallp i hi
  have hno : ¬OccM inp (multiSimFinal inp) i := by
    rintro ⟨s, hs, hocc⟩
    obtain ⟨-, h2, -, -⟩ := hinv.occ_cust s hs i hocc
    rw [hsi] at h2
    exact Bool.noConfusion h2
  have hfree := hinv.acct_free i hi hno
  have hrem := hinv.served_rem i hi hsi
  exact ⟨by omega, hsi, hinv.served_end i hi hsi⟩

theorem singleSimFinal_complete (inp : SimInput)
    (hsvc : ∀ i < inp.n, 1 ≤ inp.service i)
    (harr : ∀ i < inp.n, 0 ≤ inp.arrival i) :
    allServedS inp (singleSimFinal inp) = true ∧
    ∀ i < inp.n, chunkSum (singleSimFinal inp).chunks i = inp.service i ∧
      (singleSimFinal inp).served i = true ∧ 1 ≤ (singleSimFinal inp).sEnd i := by
  obtain ⟨hall, hinv⟩ := singleSimFinal_spec inp hsvc harr
  refine ⟨hall, ?_⟩
  intro i hi
  have hallp : ∀ j < inp.n, (singleSimFinal inp).served j = true := by
    rw [allServedS, List.all_eq_true] at hall
    exact fun j hj => hall j (List.mem_range.mpr hj)
  have hsi := hallp i hi
  have hacct := hinv.acct i hi
  have hrem := hinv.served_rem i hi hsi
  exact ⟨by omega, hsi, hinv.served_end i hi hsi⟩

theorem multiUtilization_in_range (inp : MultiInput) :
    0 ≤ multiUtilization inp ∧ multiUtilization inp ≤ 100 := by
  rw [multiUtilization]
  constructor
  · apply le_min
    · split_ifs with h
      · apply mul_nonneg
        · apply div_nonneg
          · exact Nat.cast_nonneg _
          · apply mul_nonneg
            · exact_mod_cast le_of_lt h
            · exact Nat.cast_nonneg _
        · norm_num
      · exact le_refl 0
    · norm_num
  · exact min_le_right _ _

/-- Concrete single-server input used by the loop-level witnesses: two
customers arriving at 0 and 1, unit service times, no priorities. -/
def simWitnessS : SimInput :=
  { n := 2
    arrival := fun i => (i : ℤ)
    service := fun _ => 1
    priority := fun _ => 1
    usePriority := false }

/-- Concrete multi-server input used by the loop-level witnesses: two
customers arriving at 0 and 1, unit service times, one server, priority
mode off. -/
def simWitnessM : MultiInput :=
  { n := 2
    arrival := fun i => (i : ℤ)
    service := fun _ => 1
    priority := fun _ => 1
    servers := 1
    usePriority := false }

/-- **C1.** For every simulated customer in every simulation variant
(`mm1Simulation` / `mg1Simulation` share the single-server loop,
`mmsSSimulation` / `mgsSSimulation` the multi-server loop; the variants differ
only in the generated inputs), the sum of the durations (`end - start`) of all
service chunks emitted with that customer's label equals that customer's
sampled service time.  Stated on the final state of both embedded loops, for
any generated arrays with the generators' guarantees (integer service times
`≥ 1`, non-negative arrivals, at least one server). -/
theorem simulation_chunk_sums_match_service (sinp : SimInput) (minp : MultiInput)
    (hssvc : ∀ i < sinp.n, 1 ≤ sinp.service i)
    (hsarr : ∀ i < sinp.n, 0 ≤ sinp.arrival i)
    (hmsrv : 1 ≤ minp.servers)
    (hmsvc : ∀ i < minp.n, 1 ≤ minp.service i) :
    (∀ i < sinp.n, chunkSum (singleSimFinal sinp).chunks i = sinp.service i) ∧
    (∀ i < minp.n, chunkSum (multiSimFinal minp).chunks i = minp.service i) :=
  ⟨fun i hi => ((singleSimFinal_complete sinp hssvc hsarr).2 i hi).1,
   fun i hi => ((multiSimFinal_complete minp hmsrv hmsvc).2 i hi).1⟩

theorem simulation_chunk_sums_match_service_witness :
    chunkSum (singleSimFinal simWitnessS).chunks 0 = simWitnessS.service 0 ∧
    chunkSum (multiSimFinal simWitnessM).chunks 1 = simWitnessM.service 1 :=
  ⟨(simulation_chunk_sums_match_service simWitnessS simWitnessM
      (fun _ _ => le_refl 1) (fun i _ => Int.natCast_nonneg i)
      (le_refl 1) (fun _ _ => le_refl 1)).1 0 (by norm_num [simWitnessS]),
   (simulation_chunk_sums_match_service simWitnessS simWitnessM
      (fun _ _ => le_refl 1) (fun i _ => Int.natCast_nonneg i)
      (le_refl 1) (fun _ _ => le_refl 1)).2 1 (by norm_num [simWitnessM])⟩

/-- **C2.** For every generated input (integer service times `≥ 1`,
non-negative arrivals, at least one server), the discrete-event loop of each
simulation variant terminates with every customer marked served and a stamped
(positive) `serviceEnd`: the fuelled runners `srun` / `mrun` reach the
all-served state within `sFuel` / `mFuel` iterations because each iteration
strictly decreases the termination measure. -/
theorem simulation_terminates_all_served (sinp : SimInput) (minp : MultiInput)
    (hssvc : ∀ i < sinp.n, 1 ≤ sinp.service i)
    (hsarr : ∀ i < sinp.n, 0 ≤ sinp.arrival i)
    (hmsrv : 1 ≤ minp.servers)
    (hmsvc : ∀ i < minp.n, 1 ≤ minp.service i) :
    (allServedS sinp (singleSimFinal sinp) = true ∧
      ∀ i < sinp.n, (singleSimFinal sinp).served i = true ∧
        1 ≤ (singleSimFinal sinp).sEnd i) ∧
    (allServedM minp (multiSimFinal minp) = true ∧
      ∀ i < minp.n, (multiSimFinal minp).served i = true ∧
        1 ≤ (multiSimFinal minp).sEnd i) := by
  obtain ⟨hs1, hs2⟩ := singleSimFinal_complete sinp hssvc hsarr
  obtain ⟨hm1, hm2⟩ := multiSimFinal_complete minp hmsrv hmsvc
  exact ⟨⟨hs1, fun i hi => ⟨(hs2 i hi).2.1, (hs2 i hi).2.2⟩⟩,
    ⟨hm1, fun i hi => ⟨(hm2 i hi).2.1, (hm2 i hi).2.2⟩⟩⟩

theorem simulation_terminates_all_served_witness :
    allServedS simWitnessS (singleSimFinal simWitnessS) = true ∧
    allServedM simWitnessM (multiSimFinal simWitnessM) = true :=
  ⟨(simulation_terminates_all_served simWitnessS simWitnessM
      (fun _ _ => le_refl 1) (fun i _ => Int.natCast_nonneg i)
      (le_refl 1) (fun _ _ => le_refl 1)).1.1,
   (simulation_terminates_all_served simWitnessS simWitnessM
      (fun _ _ => le_refl 1) (fun i _ => Int.natCast_nonneg i)
      (le_refl 1) (fun _ _ => le_refl 1)).2.1⟩

/-- **C8.** For every completed run of each of the four simulation variants,
the returned `averages.serverUtilization` lies in `[0, 100]`: the
single-server formula `totalBusy / totalTime * 100` is bounded by the loop
invariant (total service fits in the busy span), and the multi-server
histogram value is clamped by `Math.min(·, 100)` and non-negative by
construction. -/
theorem server_utilization_within_bounds (sinp : SimInput) (minp : MultiInput)
    (hn : 1 ≤ sinp.n)
    (hssvc : ∀ i < sinp.n, 1 ≤ sinp.service i)
    (hsarr : ∀ i < sinp.n, 0 ≤ sinp.arrival i) :
    (0 ≤ singleUtilization sinp ∧ singleUtilization sinp ≤ 100) ∧
    (0 ≤ multiUtilization minp ∧ multiUtilization minp ≤ 100) :=
  ⟨singleUtilization_in_range sinp hn hssvc hsarr,
   multiUtilization_in_range minp⟩

theorem server_utilization_within_bounds_witness :
    (0 ≤ singleUtilization simWitnessS ∧ singleUtilization simWitnessS ≤ 100) ∧
    (0 ≤ multiUtilization simWitnessM ∧ multiUtilization simWitnessM ≤ 100) :=
  server_utilization_within_bounds simWitnessS simWitnessM
    (by norm_num [simWitnessS]) (fun _ _ => le_refl 1)
    (fun i _ => Int.natCast_nonneg i)
